import Mathlib

/-!
# Verification of the CodeMirror 5 nesting-mode addon

A shallow embedding of `src/addon/mode/nesting.js` (the `CodeMirror.nestingMode`
mode combinator).  One line of document text is a `List Char`; the editor's
per-line stream is a `Stream` (visible string + cursor position + a start-of-line
flag used only by the pseudo stream of `blankLine`).  Regular-expression
delimiter patterns are embedded as `Pattern`: a string delimiter compiles to
`Pattern.lit` (the addon escapes the string, so its compiled regex finds the
first literal occurrence), an arbitrary regex is embedded as an explicit
search function `Pattern.fn`.

Modes (the host mode and sub modes) are embedded as `Mode σ`: a start state, a
`token` function taking the visible string, the cursor and the mode state and
returning the style, the new cursor and the new mode state, plus an optional
`blankLine`.  All mode states share one type `σ` because the addon's literal
("mask") machinery stores the host mode's state in `state.subState`
("fake activation of a sub mode").  Sub modes are plain modes here (the
recursive `mode.Nesting === CodeMirror.nestingMode` bridge is not modelled, so
that check is `false` exactly as it is for every non-nesting sub mode).

The parser step functions of the addon (`Main`, `literalParser`,
`includeDelimParser`, `separateDelimParser`, `staticDelimParser`) form one
mutually recursive dispatcher `exec`, written with explicit fuel; `none`
models a thrown JavaScript `TypeError` (for example `conf.open.exec` when
`open` was never configured) or fuel exhaustion.  `exec` also returns the
trace of the step functions it ran, each entry paired with the depth of the
literal stack `state.literals` at the moment the step ran, which is what the
mask-containment statements quantify over.
-/

namespace Nesting

/-- One line of text, as the JavaScript string it is in the source. -/
abbrev Str := List Char

/-- The result of `pattern.exec(text)`: the match index (relative to the
searched slice) and the matched text `m[0]`. -/
structure MatchRes where
  index : Nat
  text : Str
  deriving Repr, DecidableEq

/-- A compiled delimiter pattern.  `lit s` is the compilation of a string
delimiter (`_makePattern` escapes it, so the regex finds the first literal
occurrence of `s`); `fn f` embeds an arbitrary regex by its search function
over the searched slice. -/
inductive Pattern where
  | lit : Str → Pattern
  | fn : (Str → Option MatchRes) → Pattern

/-- First index at or after `i` where `pat` occurs in `t` (the semantics of
`regex.exec` for an escaped string pattern). -/
def findSubAux (pat : Str) : Str → Nat → Option Nat
  | [], i => if pat.isPrefixOf ([] : Str) then some i else none
  | c :: t, i => if pat.isPrefixOf (c :: t) then some i else findSubAux pat t (i + 1)

/-- `pattern.exec(text)`, returning the match or `none`. -/
def Pattern.exec : Pattern → Str → Option MatchRes
  | .lit s, t => (findSubAux s t 0).map (fun i => ⟨i, s⟩)
  | .fn f, t => f t

/-- `Conf.prototype._compDefault` of `nesting.js`: the default delimiter
priority comparison.  Returns whether `thisMatch` still has higher priority
than `otherMatch`. -/
def compDefault (thisMatch otherMatch : MatchRes) : Bool :=
  if thisMatch.index == otherMatch.index then
    thisMatch.text.isEmpty
      || (decide (otherMatch.text.length ≤ thisMatch.text.length)
            && !otherMatch.text.isEmpty)
  else
    decide (thisMatch.index < otherMatch.index)

/-- A CodeMirror mode as the addon consumes it (§ "Mode contract"): a start
state, a token function over the visible string/cursor/state, an optional
`blankLine`, and the state copier used by `copyState`.  All mode states share
the single type `σ`. -/
structure Mode (σ : Type) where
  startState : σ
  token : Str → Nat → σ → Option String × Nat × σ
  blankLine : Option (σ → σ) := none
  copy : σ → σ := id

/-- The `mode` attribute of a sub mode configuration: a mode object, or a
MIME/register name to be resolved by `CodeMirror.getMode` at activation. -/
inductive ModeRef (σ : Type) where
  | obj : Mode σ → ModeRef σ
  | name : String → ModeRef σ

/-- A compiled sub mode configuration (class `Conf` of `nesting.js`).
`openPat` is `conf.open` after `Conf.withStart` (`none` models a
configuration whose mandatory `open` was never given: `_makePattern(undefined)`
returns `undefined` and every later `conf.open.exec` throws).  `start` is the
dynamic configuration callback, modelled as returning the merged
configuration. -/
inductive Conf (σ : Type) where
  | mk
    (openPat : Option Pattern)
    (close : Option Pattern)
    (mode : Option (ModeRef σ))
    (literal parseDelimiters tokenizeDelimiters : Bool)
    (delimStyle innerStyle : Option String)
    (inline : Bool)
    (comp : Option (MatchRes → MatchRes → Bool))
    (clv : Nat)
    (start : Option (MatchRes → Conf σ))
    (literals : List (Conf σ))
    (suffixes : Option (List (Conf σ)))

namespace Conf

variable {σ : Type}

def openPat : Conf σ → Option Pattern
  | .mk o _ _ _ _ _ _ _ _ _ _ _ _ _ => o

def close : Conf σ → Option Pattern
  | .mk _ c _ _ _ _ _ _ _ _ _ _ _ _ => c

def mode : Conf σ → Option (ModeRef σ)
  | .mk _ _ m _ _ _ _ _ _ _ _ _ _ _ => m

def literal : Conf σ → Bool
  | .mk _ _ _ l _ _ _ _ _ _ _ _ _ _ => l

def parseDelimiters : Conf σ → Bool
  | .mk _ _ _ _ p _ _ _ _ _ _ _ _ _ => p

def tokenizeDelimiters : Conf σ → Bool
  | .mk _ _ _ _ _ t _ _ _ _ _ _ _ _ => t

def delimStyle : Conf σ → Option String
  | .mk _ _ _ _ _ _ d _ _ _ _ _ _ _ => d

def innerStyle : Conf σ → Option String
  | .mk _ _ _ _ _ _ _ i _ _ _ _ _ _ => i

def inline : Conf σ → Bool
  | .mk _ _ _ _ _ _ _ _ i _ _ _ _ _ => i

def comp : Conf σ → Option (MatchRes → MatchRes → Bool)
  | .mk _ _ _ _ _ _ _ _ _ c _ _ _ _ => c

def clv : Conf σ → Nat
  | .mk _ _ _ _ _ _ _ _ _ _ c _ _ _ => c

def start : Conf σ → Option (MatchRes → Conf σ)
  | .mk _ _ _ _ _ _ _ _ _ _ _ s _ _ => s

def literals : Conf σ → List (Conf σ)
  | .mk _ _ _ _ _ _ _ _ _ _ _ _ l _ => l

def suffixes : Conf σ → Option (List (Conf σ))
  | .mk _ _ _ _ _ _ _ _ _ _ _ _ _ s => s

/-- Replace the `mode` attribute (used by `startSub`'s literal branch and by
`_startSubMode`'s name resolution). -/
def setMode (m : Option (ModeRef σ)) : Conf σ → Conf σ
  | .mk o c _ l p t d i inl cp cl st ls sf => .mk o c m l p t d i inl cp cl st ls sf

/-- The effective comparison function: `this.comp ||= this._compDefault`. -/
def compEff (c : Conf σ) : MatchRes → MatchRes → Bool :=
  c.comp.getD compDefault

/-- `__token_suf`: `token ? " " + token : ""` (both `null` and the empty
string are falsy). -/
def tokenSuf : Option String → String
  | some t => if t = "" then "" else " " ++ t
  | none => ""

/-- Whether the constructor installed `_tokenOpen`/`_tokenClose`
(the non-literal, non-`parseDelimiters` branch with a `delimStyle`). -/
def hasDelimStyles (c : Conf σ) : Bool :=
  !c.literal && !c.parseDelimiters && c.delimStyle.isSome

/-- `this.delimStyleOpen` (defined only when `hasDelimStyles`). -/
def delimStyleOpen (c : Conf σ) : Option String :=
  if c.hasDelimStyles then c.delimStyle.map (fun d => d ++ " " ++ d ++ "-open")
  else none

/-- `this.delimStyleClose` (defined only when `hasDelimStyles`). -/
def delimStyleClose (c : Conf σ) : Option String :=
  if c.hasDelimStyles then c.delimStyle.map (fun d => d ++ " " ++ d ++ "-close")
  else none

/-- `this.tokenOpen` after construction. -/
def tokenOpen (c : Conf σ) (tok : Option String) : Option String :=
  match c.delimStyleOpen with
  | some d => some (d ++ tokenSuf tok)
  | none => tok

/-- `this.tokenClose` after construction. -/
def tokenClose (c : Conf σ) (tok : Option String) : Option String :=
  match c.delimStyleClose with
  | some d => some (d ++ tokenSuf tok)
  | none => tok

/-- `this.tokenInner` after construction: `_tokenInner` exactly when the
configuration is not a literal and has an `innerStyle`. -/
def tokenInner (c : Conf σ) (tok : Option String) : Option String :=
  if c.literal then tok
  else
    match c.innerStyle with
    | some i => some (i ++ tokenSuf tok)
    | none => tok

end Conf

/-- The per-line stream handed to `token`: the (retractable) visible string,
the cursor, and the `sol` override of `blankLine`'s pseudo stream
`{string: "\n", pos: 0, sol: () => true}`. -/
structure Stream where
  string : Str
  pos : Nat
  solFlag : Bool := false

/-- `stream.sol()`. -/
def Stream.sol (s : Stream) : Bool :=
  s.pos == 0 || s.solFlag

/-- `this.searchClose(stream, from)`: `_closeAtSOL` when the configuration has
no `close` (`!from && stream.sol() && /^/.exec("")`), else `_closeAtDlm`
(`close.exec(stream.string.slice(from))`). -/
def Conf.searchClose {σ : Type} (c : Conf σ) (s : Stream) (from_ : Nat) :
    Option MatchRes :=
  match c.close with
  | none => if from_ == 0 && s.sol then some ⟨0, []⟩ else none
  | some p => p.exec (s.string.drop from_)

/-- One iteration of `searchOpen`'s loop over the configurations: run the
configuration's open on the slice and replace the running best match exactly
when `best.conf.comp(best, m)` is `false`; a configuration without `open`
throws (`none`). -/
def soStep {σ : Type} (s : Stream) (from_ : Nat)
    (best : Option (MatchRes × Conf σ)) (conf : Conf σ) :
    Option (Option (MatchRes × Conf σ)) :=
  match conf.openPat with
  | none => none
  | some p =>
    match p.exec (s.string.drop from_) with
    | some m =>
      match best with
      | none => some (some (m, conf))
      | some (bm, bconf) =>
        if bconf.compEff bm m then some best else some (some (m, conf))
    | none => some best

/-- `parserBase.searchOpen(stream, configs, from)`.  The outer `Option` is the
error monad: `none` models the `TypeError` thrown by `conf.open.exec` when a
configuration has no `open` pattern.  The inner value is the running best
match with its configuration. -/
def searchOpen {σ : Type} (s : Stream) (configs : List (Conf σ)) (from_ : Nat) :
    Option (Option (MatchRes × Conf σ)) :=
  configs.foldlM (soStep s from_) none

/-- The values `state.parser` can hold between two `token` calls (each is one
of the arrow functions of `nesting.js`; the four sub parser variants share
tags and are told apart by `state.subConf`). -/
inductive ParserTag where
  | mainEntry | untilOpen | startSubP | mainUntilEOL
  | litUntilEOL | litAtSOL | litFinalizeToMain
  | subUntilEOL | subAtSOL | untilSubInnerClose
  | finalizeToDelim | finalizeDirectDelim | finalizeToNullDelim
  | delimOpen | delimClose
  deriving Repr, DecidableEq

/-- Names of all parser step functions, for the execution trace. -/
inductive STag where
  | mainEntry | preStartSub | startSub | untilOpen | mainUntilEOL
  | litEntry | litCheckEnd | litContinuation | litUntilEOL | litAtSOL
  | litFinalizeToMain
  | subEntry | subContinuation | subUntilEOL | subAtSOL | untilSubInnerClose
  | finalizeToDelim | finalizeDirectDelim | finalizeToNullDelim
  | delimOpen | delimClose
  deriving Repr, DecidableEq

/-- The two token getters (`TokenGetters.default` and
`TokenGetters.blankLine`, the blank-line swallow). -/
inductive TokenGetter where
  | default | blankSwallow
  deriving Repr, DecidableEq

/-- `state.next` as registered by `regNextSub`: the winning open match, its
configuration, and which runner was chosen (`preStart = true` means
`preStartSub`, chosen exactly when `match.index` is non-zero). -/
structure NextEntry (σ : Type) where
  nmatch : MatchRes
  conf : Conf σ
  preStart : Bool

/-- The per-line copyable state of the nesting mode (the object built by
`startState`). -/
structure NState (σ : Type) where
  mainState : σ
  subConf : Option (Conf σ)
  subState : Option σ
  parser : ParserTag
  suffixes : Option (List (Conf σ))
  literals : List (Conf σ)
  originalString : Str
  tokenGetter : TokenGetter
  next : Option (NextEntry σ)

/-- A compiled nesting mode: the main mode and the compiled sub mode
configurations.  `getMode` is the mode registry used to resolve string mode
specifications at sub mode start.  Modelled from the spec: the registry
(`CodeMirror.getMode`, not part of `src/`) returns the mode object of a known
specification and no mode for an unknown one (§7: unknown mode specifications
produce a configuration error at the moment of first entry). -/
structure Machine (σ : Type) where
  mainMode : Mode σ
  configs : List (Conf σ)
  getMode : String → Option (Mode σ) := fun _ => none

namespace Conf

variable {σ : Type}

/-- The mode object, when the `mode` attribute is a resolved mode. -/
def modeObj (c : Conf σ) : Option (Mode σ) :=
  match c.mode with
  | some (.obj m) => some m
  | _ => none

/-- The parser variant the constructor selects from the behaviour flags. -/
inductive Variant where
  | literalV | includeV | separateV | staticV
  deriving Repr, DecidableEq

/-- Which parser object `this.parser` is set to by the `Conf` constructor. -/
def variant (c : Conf σ) : Variant :=
  if c.literal then .literalV
  else if c.parseDelimiters then .includeV
  else if c.tokenizeDelimiters then .separateV
  else .staticV

/-- `_startSubMode`'s mode resolution: a string mode specification is resolved
through the registry (an unresolvable one leaves no mode). -/
def resolveMode (M : Machine σ) (c : Conf σ) : Conf σ :=
  match c.mode with
  | some (.name n) => c.setMode ((M.getMode n).map .obj)
  | _ => c

/-- `startMatch.conf.startConfig(startMatch)`: apply the dynamic `start`
callback if configured, then resolve the mode (`_startConfDefault` /
`_startConfDynamic` followed by `_startSubMode`). -/
def startConfig (M : Machine σ) (c : Conf σ) (m : MatchRes) : Conf σ :=
  resolveMode M (match c.start with | none => c | some f => f m)

end Conf

variable {σ : Type}

/-- `checkStreamStringReset`: at exhaustion of the visible string, restore
`state.originalString` and report `true`. -/
def checkReset (st : NState σ) (s : Stream) : Bool × Stream :=
  if s.string.length ≤ s.pos then (true, { s with string := st.originalString })
  else (false, s)

/-- `state.tokenGetter(stream, state.mainState, mainMode)`.  The blank-line
swallow (`(stream) => stream.pos = 1`) advances the pseudo stream one position
and touches neither mode nor mode state; its returned value is never used as
a style, so it is modelled as no style. -/
def applyMainTok (M : Machine σ) (st : NState σ) (s : Stream) :
    Option String × Stream × NState σ :=
  match st.tokenGetter with
  | .blankSwallow => (none, { s with pos := 1 }, st)
  | .default =>
    let r := M.mainMode.token s.string s.pos st.mainState
    (r.1, { s with pos := r.2.1 }, { st with mainState := r.2.2 })

/-- `state.tokenGetter(stream, state.subState, state.subConf.mode)` wrapped in
a style decorator of the sub configuration (`tokenInner`, `tokenOpen` or
`tokenClose`). -/
def subTokWith (wrap : Conf σ → Option String → Option String)
    (st : NState σ) (s : Stream) : Option (Option String × Stream × NState σ) :=
  match st.subConf with
  | none => none
  | some c =>
    match st.tokenGetter with
    | .blankSwallow => some (wrap c none, { s with pos := 1 }, st)
    | .default =>
      match st.subState, c.modeObj with
      | some ms, some md =>
        let r := md.token s.string s.pos ms
        some (wrap c r.1, { s with pos := r.2.1 }, { st with subState := some r.2.2 })
      | _, _ => none

/-- `parserBase.innerToken`. -/
def innerTok (st : NState σ) (s : Stream) :
    Option (Option String × Stream × NState σ) :=
  subTokWith Conf.tokenInner st s

/-- The configuration list `regNextSub` searches: registered suffix
configurations first, then the machine's configurations. -/
def nextConfigs (M : Machine σ) (st : NState σ) : List (Conf σ) :=
  match st.suffixes with
  | some sfx => sfx ++ M.configs
  | none => M.configs

/-- `Main.regNextSub`: search for the next sub mode start from the cursor
(suffix configurations, when registered, are searched first) and register it
in `state.next`; on a failed search, discard the suffix configurations
(on the blank-line pseudo stream only those marked `inline`). -/
def regNextSub (M : Machine σ) (s : Stream) (st : NState σ) :
    Option (Bool × NState σ) :=
  match searchOpen s (nextConfigs M st) s.pos with
  | none => none
  | some (some (m, conf)) =>
    some (true, { st with next := some ⟨m, conf, m.index != 0⟩ })
  | some none =>
    if st.suffixes.isSome && s.string == ['\n'] then
      some (false, { st with suffixes := st.suffixes.map (List.filter (fun c => !c.inline)) })
    else
      some (false, { st with suffixes := none })

/-- `SubParserBase.finally`: publish the closing configuration's suffixes and
reset to the main parser (`Main.finally`). -/
def finallySub (c : Conf σ) (st : NState σ) : NState σ :=
  { st with suffixes := c.suffixes, subConf := none, subState := none,
            parser := .mainEntry }

/-- The variant-specific `setFinalString`: retract the visible line to the
close delimiter's end (`includeDelimParser`) or start (`separateDelimParser`
and `staticDelimParser`). -/
def setFinalString (c : Conf σ) (s : Stream) (e : MatchRes) (from_ : Nat) : Stream :=
  match c.variant with
  | .includeV => { s with string := s.string.take (from_ + e.index + e.text.length) }
  | _ => { s with string := s.string.take (from_ + e.index) }

/-- The result of one `token` call: the returned style, the stream after the
call (its visible string may have been retracted or restored), and the state
after the call. -/
abbrev Res (σ : Type) := Option String × Stream × NState σ

/-- One trace entry: the step function that ran and the depth of
`state.literals` at the moment it ran. -/
abbrev TraceE := STag × Nat

/-- A call into the parser: either an invocation of the stored `state.parser`
or one of the internal step functions carrying extra arguments. -/
inductive Call (σ : Type) where
  | tag : ParserTag → Call σ
  | preStartSubC : Call σ
  | litEntry (m : MatchRes) (conf : Conf σ) (cursor : Nat) : Call σ
  | litCheckEnd (cursor : Nat) : Call σ
  | litContinuation (endm : MatchRes) (cursor : Nat) : Call σ
  | subEntry (m : MatchRes) : Call σ
  | subContinuation (endm : Option MatchRes) (cursor : Nat) : Call σ

/-- The continuation type handed to the step functions (the recursive call of
the fueled dispatcher). -/
abbrev K (σ : Type) := Call σ → Stream → NState σ → Option (Res σ × List TraceE)

/-- Record a step in the trace. -/
def tcons (t : STag) (d : Nat) :
    Option (Res σ × List TraceE) → Option (Res σ × List TraceE)
  | none => none
  | some (r, tr) => some (r, (t, d) :: tr)

/-- A step that returns to the editor. -/
def done (r : Res σ) : Option (Res σ × List TraceE) := some (r, [])

/-- `Main.entry`. -/
def stepMainEntry (M : Machine σ) (k : K σ) (s : Stream) (st : NState σ) :
    Option (Res σ × List TraceE) :=
  match regNextSub M s st with
  | none => none
  | some (true, st1) =>
    match st1.next with
    | some nx =>
      if nx.preStart then k .preStartSubC s st1 else k (.tag .startSubP) s st1
    | none => none
  | some (false, st1) =>
    k (.tag .mainUntilEOL) s { st1 with originalString := s.string, parser := .mainUntilEOL }

/-- `Main.preStartSub`: retract the visible line to the start delimiter and
tokenize the remainder through the main mode. -/
def stepPreStartSub (k : K σ) (s : Stream) (st : NState σ) :
    Option (Res σ × List TraceE) :=
  match st.next with
  | none => none
  | some nx =>
    k (.tag .untilOpen)
      { s with string := s.string.take (s.pos + nx.nmatch.index) }
      { st with originalString := s.string, parser := .untilOpen }

/-- `Main.untilOpen`. -/
def stepUntilOpen (M : Machine σ) (s : Stream) (st : NState σ) :
    Option (Res σ × List TraceE) :=
  match applyMainTok M st s with
  | (tok, s1, st1) =>
    match checkReset st1 s1 with
    | (true, s2) => done (tok, s2, { st1 with parser := .startSubP })
    | (false, s2) => done (tok, s2, st1)

/-- `Main.untilEOL`. -/
def stepMainUntilEOL (M : Machine σ) (s : Stream) (st : NState σ) :
    Option (Res σ × List TraceE) :=
  match applyMainTok M st s with
  | (tok, s1, st1) =>
    match checkReset st1 s1 with
    | (true, s2) => done (tok, s2, { st1 with parser := .mainEntry })
    | (false, s2) => done (tok, s2, st1)

/-- `Main.startSub`: consume `state.next`, start the configuration (dynamic
`start` callback and mode resolution included) and enter the literal parser
(for a literal configuration, with the main mode installed as a fake sub
mode) or the variant-specific sub parser entry.  An unresolvable mode is the
`TypeError` of `CodeMirror.startState(undefined)`. -/
def stepStartSub (M : Machine σ) (k : K σ) (s : Stream) (st : NState σ) :
    Option (Res σ × List TraceE) :=
  match st.next with
  | none => none
  | some nx =>
    if (nx.conf.startConfig M { nx.nmatch with index := 0 }).literal then
      k (.litEntry { nx.nmatch with index := 0 } nx.conf s.pos) s
        { st with next := none,
                  subConf := some ((nx.conf.startConfig M
                    { nx.nmatch with index := 0 }).setMode (some (.obj M.mainMode))),
                  subState := some st.mainState,
                  originalString := s.string }
    else
      match (nx.conf.startConfig M { nx.nmatch with index := 0 }).modeObj with
      | none => none
      | some md =>
        k (.subEntry { nx.nmatch with index := 0 }) s
          { st with next := none,
                    subConf := some (nx.conf.startConfig M
                      { nx.nmatch with index := 0 }),
                    subState := some md.startState }

/-- `literalParser.entry`: push the (possibly dynamically started) literal
configuration and check for its end after the open match. -/
def stepLitEntry (M : Machine σ) (k : K σ) (m : MatchRes) (conf : Conf σ)
    (cursor : Nat) (s : Stream) (st : NState σ) :
    Option (Res σ × List TraceE) :=
  k (.litCheckEnd (cursor + m.index + m.text.length)) s
    { st with literals :=
        st.literals ++ [if conf.clv == 0 then conf else conf.startConfig M m] }

/-- `literalParser.checkEnd`. -/
def stepLitCheckEnd (k : K σ) (cursor : Nat) (s : Stream) (st : NState σ) :
    Option (Res σ × List TraceE) :=
  match st.literals.getLast? with
  | none => none
  | some active =>
    match active.searchClose s cursor with
    | some endm => k (.litContinuation endm cursor) s st
    | none => k (.tag .litUntilEOL) s { st with parser := .litUntilEOL }

/-- The stack-popping tail of `literalParser.continuation` (a confirmed end):
pop the stack; while it stays active check the new top's end, at the end of a
main-level literal enter `finalizeToMain`, at the end of a sub mode literal
re-enter the enclosing sub parser's `continuation` after the close. -/
def litPop (k : K σ) (active : Conf σ) (endm : MatchRes) (cursor : Nat)
    (s : Stream) (st : NState σ) : Option (Res σ × List TraceE) :=
  if (st.literals.dropLast).isEmpty then
    if active.clv == 0 then
      k (.tag .litFinalizeToMain)
        { s with string := s.string.take (cursor + endm.index + endm.text.length) }
        { st with literals := st.literals.dropLast, parser := .litFinalizeToMain }
    else
      match st.subConf with
      | none => none
      | some sc =>
        k (.subContinuation
            (sc.searchClose s (cursor + endm.index + endm.text.length))
            (cursor + endm.index + endm.text.length)) s
          { st with literals := st.literals.dropLast }
  else
    k (.litCheckEnd (cursor + endm.index + endm.text.length)) s
      { st with literals := st.literals.dropLast }

/-- `literalParser.continuation`: extend the literal stack if a nested literal
wins against the end match, otherwise pop (`litPop`). -/
def stepLitContinuation (k : K σ) (endm : MatchRes)
    (cursor : Nat) (s : Stream) (st : NState σ) :
    Option (Res σ × List TraceE) :=
  match st.literals.getLast? with
  | none => none
  | some active =>
    match searchOpen s active.literals cursor with
    | none => none
    | some lres =>
      match lres with
      | some (lm, lconf) =>
        if lconf.compEff lm endm then k (.litEntry lm lconf cursor) s st
        else litPop k active endm cursor s st
      | none => litPop k active endm cursor s st

/-- `literalParser.untilEOL`. -/
def stepLitUntilEOL (s : Stream) (st : NState σ) :
    Option (Res σ × List TraceE) :=
  match innerTok st s with
  | none => none
  | some (tok, s1, st1) =>
    match checkReset st1 s1 with
    | (true, s2) => done (tok, s2, { st1 with parser := .litAtSOL })
    | (false, s2) => done (tok, s2, st1)

/-- `literalParser.atSOL`. -/
def stepLitAtSOL (k : K σ) (s : Stream) (st : NState σ) :
    Option (Res σ × List TraceE) :=
  k (.litCheckEnd 0) s { st with originalString := s.string }

/-- `literalParser.finalizeToMain`: tokenize the retracted rest of the
main-level literal; at exhaustion write the fake sub state back into
`state.mainState` and reset to the main parser. -/
def stepLitFinalizeToMain (s : Stream) (st : NState σ) :
    Option (Res σ × List TraceE) :=
  match innerTok st s with
  | none => none
  | some (tok, s1, st1) =>
    match checkReset st1 s1 with
    | (true, s2) =>
      match st1.subState with
      | none => none
      | some ss =>
        done (tok, s2,
          { st1 with mainState := ss, subConf := none, subState := none,
                     parser := .mainEntry })
    | (false, s2) => done (tok, s2, st1)

/-- The variant-specific sub parser `entry` (called from `startSub` with the
index-zeroed start match). -/
def stepSubEntry (k : K σ) (m : MatchRes) (s : Stream) (st : NState σ) :
    Option (Res σ × List TraceE) :=
  match st.subConf with
  | none => none
  | some c =>
    match c.variant with
    | .includeV =>
      k (.subContinuation (c.searchClose s (s.pos + m.index + m.text.length))
          (s.pos + m.index + m.text.length)) s st
    | .separateV =>
      k (.tag .delimOpen)
        { s with string := s.string.take (s.pos + m.index + m.text.length) }
        { st with originalString := s.string, parser := .delimOpen }
    | .staticV =>
      done (c.delimStyleOpen, { s with pos := s.pos + m.text.length },
        { st with originalString := s.string, parser := .subAtSOL })
    | .literalV => none

/-- The close-handling tail of `SubParserBase.continuation` (no literal open
won): a zero-width close at the cursor ends the sub mode at once and the main
parser continues, otherwise the line is retracted and the variant-specific
finalize step runs; with no close the sub mode stays active until end of
line. -/
def subEndPath (k : K σ) (c : Conf σ) (endm : Option MatchRes) (cursor : Nat)
    (s : Stream) (st0 : NState σ) : Option (Res σ × List TraceE) :=
  match endm with
  | some e =>
    if e.index == 0 && cursor == 0 then
      if e.text.isEmpty then
        k (.tag .mainEntry) s (finallySub c st0)
      else
        k (.tag .finalizeDirectDelim)
          { s with string := s.string.take (s.pos + e.text.length) }
          { st0 with parser := .finalizeDirectDelim }
    else if e.text.isEmpty then
      k (.tag .finalizeToNullDelim) (setFinalString c s e cursor)
        { st0 with parser := .finalizeToNullDelim }
    else
      k (.tag .finalizeToDelim) (setFinalString c s e cursor)
        { st0 with parser := .finalizeToDelim }
  | none => k (.tag .subUntilEOL) s { st0 with parser := .subUntilEOL }

/-- `SubParserBase.continuation` (sub modes are plain modes here, so the
subordinate-nesting branch is skipped exactly as its `mode.Nesting` test is
false for them). -/
def stepSubContinuation (k : K σ) (endm : Option MatchRes) (cursor : Nat)
    (s : Stream) (st : NState σ) : Option (Res σ × List TraceE) :=
  match st.subConf with
  | none => none
  | some c =>
    match searchOpen s c.literals cursor with
    | none => none
    | some lres =>
      match lres with
      | some (lm, lconf) =>
        if (match endm with | none => true | some e => lconf.compEff lm e) then
          k (.litEntry lm lconf cursor) s { st with originalString := s.string }
        else subEndPath k c endm cursor s { st with originalString := s.string }
      | none => subEndPath k c endm cursor s { st with originalString := s.string }

/-- `SubParserBase.untilEOL`. -/
def stepSubUntilEOL (s : Stream) (st : NState σ) :
    Option (Res σ × List TraceE) :=
  match innerTok st s with
  | none => none
  | some (tok, s1, st1) =>
    match checkReset st1 s1 with
    | (true, s2) => done (tok, s2, { st1 with parser := .subAtSOL })
    | (false, s2) => done (tok, s2, st1)

/-- `SubParserBase.untilSubInnerClose` (with a plain sub mode state the
`subConf || next` test is always falsy, so the parser always moves on). -/
def stepUntilSubInner (s : Stream) (st : NState σ) :
    Option (Res σ × List TraceE) :=
  match innerTok st s with
  | none => none
  | some (tok, s1, st1) => done (tok, s1, { st1 with parser := .subAtSOL })

/-- `SubParserBase.atSOL`. -/
def stepSubAtSOL (k : K σ) (s : Stream) (st : NState σ) :
    Option (Res σ × List TraceE) :=
  match st.subConf with
  | none => none
  | some c => k (.subContinuation (c.searchClose s s.pos) s.pos) s st

/-- `includeDelimParser.finalizeToDelim` (also its `finalizeDirectDelim` and
`finalizeToNullDelim`, and the `finalizeToNullDelim` of the other two
variants): tokenize the retracted region through the sub mode and finish at
exhaustion. -/
def stepFinalizeInclude (s : Stream) (st : NState σ) :
    Option (Res σ × List TraceE) :=
  match innerTok st s with
  | none => none
  | some (tok, s1, st1) =>
    match checkReset st1 s1 with
    | (true, s2) =>
      match st1.subConf with
      | none => none
      | some cf => done (tok, s2, finallySub cf st1)
    | (false, s2) => done (tok, s2, st1)

/-- `separateDelimParser.finalizeToDelim` / `staticDelimParser.finalizeToDelim`
(their bodies are identical): tokenize up to the close delimiter; at
exhaustion re-search the close, retract to its end and hand over to
`delimClose`. -/
def stepFinalizeToDelimSep (s : Stream) (st : NState σ) :
    Option (Res σ × List TraceE) :=
  match innerTok st s with
  | none => none
  | some (tok, s1, st1) =>
    match checkReset st1 s1 with
    | (true, s2) =>
      match st1.subConf with
      | none => none
      | some cf =>
        match cf.searchClose s2 s2.pos with
        | none => none
        | some e =>
          done (tok,
            { s2 with string := s2.string.take (s2.pos + e.index + e.text.length) },
            { st1 with originalString := s2.string, parser := .delimClose })
    | (false, s2) => done (tok, s2, st1)

/-- `separateDelimParser.delimOpen`. -/
def stepDelimOpen (s : Stream) (st : NState σ) :
    Option (Res σ × List TraceE) :=
  match subTokWith Conf.tokenOpen st s with
  | none => none
  | some (tok, s1, st1) =>
    match checkReset st1 s1 with
    | (true, s2) => done (tok, s2, { st1 with parser := .subAtSOL })
    | (false, s2) => done (tok, s2, st1)

/-- `separateDelimParser.delimClose`. -/
def stepDelimCloseSep (s : Stream) (st : NState σ) :
    Option (Res σ × List TraceE) :=
  match subTokWith Conf.tokenClose st s with
  | none => none
  | some (tok, s1, st1) =>
    match checkReset st1 s1 with
    | (true, s2) =>
      match st1.subConf with
      | none => none
      | some cf => done (tok, s2, finallySub cf st1)
    | (false, s2) => done (tok, s2, st1)

/-- `staticDelimParser.delimClose`: re-search the close at the cursor, step
over it, emit the precomputed close style, restore the line and finish. -/
def stepDelimCloseStatic (s : Stream) (st : NState σ) :
    Option (Res σ × List TraceE) :=
  match st.subConf with
  | none => none
  | some c =>
    match c.searchClose s s.pos with
    | none => none
    | some e =>
      done (c.delimStyleClose,
        { s with pos := s.pos + e.text.length, string := st.originalString },
        finallySub c st)

/-- Variant dispatch for the stored `finalizeToDelim`. -/
def stepFinalizeToDelim (s : Stream) (st : NState σ) :
    Option (Res σ × List TraceE) :=
  match st.subConf with
  | none => none
  | some c =>
    match c.variant with
    | .includeV => stepFinalizeInclude s st
    | .separateV => stepFinalizeToDelimSep s st
    | .staticV => stepFinalizeToDelimSep s st
    | .literalV => none

/-- Variant dispatch for the stored `finalizeDirectDelim` (an alias of
`finalizeToDelim` for `includeDelimParser` and of `delimClose` for the other
two variants). -/
def stepFinalizeDirectDelim (s : Stream) (st : NState σ) :
    Option (Res σ × List TraceE) :=
  match st.subConf with
  | none => none
  | some c =>
    match c.variant with
    | .includeV => stepFinalizeInclude s st
    | .separateV => stepDelimCloseSep s st
    | .staticV => stepDelimCloseStatic s st
    | .literalV => none

/-- Variant dispatch for the stored `finalizeToNullDelim` (the same body for
all three sub parser variants). -/
def stepFinalizeToNullDelim (s : Stream) (st : NState σ) :
    Option (Res σ × List TraceE) :=
  match st.subConf with
  | none => none
  | some c =>
    match c.variant with
    | .literalV => none
    | _ => stepFinalizeInclude s st

/-- Variant dispatch for the stored `delimClose`. -/
def stepDelimClose (s : Stream) (st : NState σ) :
    Option (Res σ × List TraceE) :=
  match st.subConf with
  | none => none
  | some c =>
    match c.variant with
    | .separateV => stepDelimCloseSep s st
    | .staticV => stepDelimCloseStatic s st
    | _ => none

/-- The fueled parser dispatcher: one invocation of a step function of
`nesting.js`.  `none` models a thrown `TypeError` or exhausted fuel; the trace
lists every step that ran, paired with the literal-stack depth at that
moment. -/
def exec (M : Machine σ) : Nat → Call σ → Stream → NState σ →
    Option (Res σ × List TraceE)
  | 0, _, _, _ => none
  | n + 1, c, s, st =>
    let k : K σ := exec M n
    let d := st.literals.length
    match c with
    | .tag .mainEntry => tcons .mainEntry d (stepMainEntry M k s st)
    | .preStartSubC => tcons .preStartSub d (stepPreStartSub k s st)
    | .tag .untilOpen => tcons .untilOpen d (stepUntilOpen M s st)
    | .tag .mainUntilEOL => tcons .mainUntilEOL d (stepMainUntilEOL M s st)
    | .tag .startSubP => tcons .startSub d (stepStartSub M k s st)
    | .litEntry m conf cursor => tcons .litEntry d (stepLitEntry M k m conf cursor s st)
    | .litCheckEnd cursor => tcons .litCheckEnd d (stepLitCheckEnd k cursor s st)
    | .litContinuation endm cursor =>
      tcons .litContinuation d (stepLitContinuation k endm cursor s st)
    | .tag .litUntilEOL => tcons .litUntilEOL d (stepLitUntilEOL s st)
    | .tag .litAtSOL => tcons .litAtSOL d (stepLitAtSOL k s st)
    | .tag .litFinalizeToMain => tcons .litFinalizeToMain d (stepLitFinalizeToMain s st)
    | .subEntry m => tcons .subEntry d (stepSubEntry k m s st)
    | .subContinuation endm cursor =>
      tcons .subContinuation d (stepSubContinuation k endm cursor s st)
    | .tag .subUntilEOL => tcons .subUntilEOL d (stepSubUntilEOL s st)
    | .tag .untilSubInnerClose => tcons .untilSubInnerClose d (stepUntilSubInner s st)
    | .tag .subAtSOL => tcons .subAtSOL d (stepSubAtSOL k s st)
    | .tag .finalizeToDelim => tcons .finalizeToDelim d (stepFinalizeToDelim s st)
    | .tag .finalizeDirectDelim =>
      tcons .finalizeDirectDelim d (stepFinalizeDirectDelim s st)
    | .tag .finalizeToNullDelim =>
      tcons .finalizeToNullDelim d (stepFinalizeToNullDelim s st)
    | .tag .delimOpen => tcons .delimOpen d (stepDelimOpen s st)
    | .tag .delimClose => tcons .delimClose d (stepDelimClose s st)

mutual

/-- `Conf.makeStruct` on one configuration: set the configuration level,
force the literal flag inside a `literals` array, and recursively compile
nested `literals` (at `clv + 1`, literal) and `suffixes` (at `clv + 1`).
Compilation is total: a configuration without `open` compiles as well
(`_makePattern(undefined)` is `undefined`), the error only surfaces at the
first open search. -/
def compileConf (clvArg : Nat) (forceLit : Bool) : Conf σ → Conf σ
  | .mk o c m l p t d i inl cp _ st ls sf =>
    .mk o c m (l || forceLit) p t d i inl cp clvArg st
      (compileList (clvArg + 1) true ls)
      (match sf with
       | none => none
       | some l2 => some (compileList (clvArg + 1) false l2))
termination_by c => sizeOf c

/-- `Conf.makeStruct` on a configuration array. -/
def compileList (clvArg : Nat) (forceLit : Bool) : List (Conf σ) → List (Conf σ)
  | [] => []
  | c :: cs => compileConf clvArg forceLit c :: compileList clvArg forceLit cs
termination_by l => sizeOf l

end

/-- `Conf.makeStruct(configs, 0)` as the `Main` constructor runs it on the
sub mode configurations. -/
def makeStruct (configs : List (Conf σ)) : List (Conf σ) :=
  compileList 0 false configs

/-- The exported `token(stream, state)`: one invocation of the stored
`state.parser`. -/
def token (M : Machine σ) (fuel : Nat) (s : Stream) (st : NState σ) :
    Option (Res σ × List TraceE) :=
  exec M fuel (.tag st.parser) s st

/-- The exported `startState`. -/
def startState (M : Machine σ) : NState σ :=
  { mainState := M.mainMode.startState, subConf := none, subState := none,
    parser := .mainEntry, suffixes := none, literals := [],
    originalString := [], tokenGetter := .default, next := none }

/-- The exported `copyState`: the mode states are copied through the
respective mode's copier, the listed fields are carried over, and the
transient `state.next` is not among them (a copy has no `next`). -/
def copyState (M : Machine σ) (st : NState σ) : NState σ :=
  { mainState := M.mainMode.copy st.mainState,
    subConf := st.subConf,
    subState :=
      match st.subConf with
      | some c => st.subState.map (fun ss => ((c.modeObj.map Mode.copy).getD id) ss)
      | none => none,
    parser := st.parser,
    suffixes := st.suffixes,
    literals := st.literals,
    originalString := st.originalString,
    tokenGetter := st.tokenGetter,
    next := none }

/-- The state preparation of `blankLine(state)`: swap the token getter to the
blank-line swallow (always, since sub modes are plain modes here) and run the
sub or main mode's own `blankLine`. -/
def blankPrep (M : Machine σ) (st : NState σ) : NState σ :=
  match st.subConf with
  | some c =>
    match c.modeObj with
    | some md =>
      match md.blankLine with
      | some f => { st with tokenGetter := TokenGetter.blankSwallow,
                            subState := st.subState.map f }
      | none => { st with tokenGetter := TokenGetter.blankSwallow }
    | none => { st with tokenGetter := TokenGetter.blankSwallow }
  | none =>
    match M.mainMode.blankLine with
    | some f => { st with mainState := f st.mainState,
                          tokenGetter := TokenGetter.blankSwallow }
    | none => { st with tokenGetter := TokenGetter.blankSwallow }

/-- The exported `blankLine(state)`: prepare the state (`blankPrep`), execute
exactly one parser step on the pseudo stream
`{string: "\n", pos: 0, sol: () => true}`, and restore the default token
getter. -/
def blankLine (M : Machine σ) (fuel : Nat) (st : NState σ) :
    Option (NState σ) :=
  (exec M fuel (.tag (blankPrep M st).parser) ⟨['\n'], 0, true⟩
      (blankPrep M st)).map
    (fun r => { r.1.2.2 with tokenGetter := TokenGetter.default })

/-- The editor's per-line driver: call `token` until the stream (whose visible
string the parser may retract and restore) is exhausted, collecting the
`(start, length, style)` triple of every token. -/
def runLine (M : Machine σ) (efuel : Nat) :
    Nat → Stream → NState σ → Option (List (Nat × Nat × Option String) × NState σ)
  | 0, _, _ => none
  | n + 1, s, st =>
    if s.string.length ≤ s.pos then some ([], st)
    else
      match token M efuel s st with
      | none => none
      | some (r, _) =>
        match runLine M efuel n r.2.1 r.2.2 with
        | none => none
        | some (ts, st2) => some ((s.pos, r.2.1.pos - s.pos, r.1) :: ts, st2)

/-- The editor's document driver: tokenize the lines in order, calling
`blankLine` on empty lines and `copyState` at every line boundary. -/
def runDoc (M : Machine σ) (efuel lfuel : Nat) :
    List Str → NState σ → Option (List (List (Nat × Nat × Option String)) × NState σ)
  | [], st => some ([], st)
  | l :: ls, st =>
    let stepRes : Option (List (Nat × Nat × Option String) × NState σ) :=
      if l.isEmpty then (blankLine M efuel st).map (fun st2 => ([], st2))
      else runLine M efuel lfuel ⟨l, 0, false⟩ st
    match stepRes with
    | none => none
    | some (ts, st1) =>
      match runDoc M efuel lfuel ls (copyState M st1) with
      | none => none
      | some (tss, st2) => some (ts :: tss, st2)

/-! ## Concrete instances used by the scenario parts of the claims -/

namespace Demo

/-- A plain host mode: consumes the rest of the visible line, style `host`. -/
def hostMode : Mode Nat :=
  { startState := 0, token := fun str _ st => (some "host", str.length, st) }

/-- A plain sub mode: consumes the rest of the visible line, style `comment`. -/
def commentMode : Mode Nat :=
  { startState := 0, token := fun str _ st => (some "comment", str.length, st) }

/-- `{open: "#", mode: comment}` — a close-less sub mode configuration. -/
def hashConf : Conf Nat :=
  .mk (some (.lit ['#'])) none (some (.obj commentMode))
    false false false none none false none 0 none [] none

/-- The nesting mode built from `hostMode` and `hashConf`. -/
def hashMachine : Machine Nat :=
  { mainMode := hostMode, configs := [hashConf] }

/-- A regex open matching zero-width at offset 0 (for example `/(?=)/`). -/
def zwPat : Pattern := .fn (fun _ => some ⟨0, []⟩)

/-- First of two configurations whose opens both match zero-width at offset 0
(`delimStyle` marks which configuration was selected). -/
def zwConfA : Conf Nat :=
  .mk (some zwPat) none (some (.obj commentMode))
    false false false (some "A") none false none 0 none [] none

/-- Second of the two zero-width configurations. -/
def zwConfB : Conf Nat :=
  .mk (some zwPat) none (some (.obj commentMode))
    false false false (some "B") none false none 0 none [] none

/-- A configuration whose open matches the length-2 text `ab`. -/
def len2Conf : Conf Nat :=
  .mk (some (.lit ['a', 'b'])) none (some (.obj commentMode))
    false false false (some "L2") none false none 0 none [] none

/-- A configuration whose open matches the length-3 text `abc`. -/
def len3Conf : Conf Nat :=
  .mk (some (.lit ['a', 'b', 'c'])) none (some (.obj commentMode))
    false false false (some "L3") none false none 0 none [] none

/-- A host mode whose `blankLine` increments its (numeric) state. -/
def blHost : Mode Nat :=
  { startState := 0, token := fun str _ st => (some "host", str.length, st),
    blankLine := some Nat.succ }

/-- A sub mode configuration with the explicit close `end` (open `<`). -/
def endConf : Conf Nat :=
  .mk (some (.lit ['<'])) (some (.lit ['e', 'n', 'd'])) (some (.obj commentMode))
    false false false none none false none 0 none [] none

/-- The machine of the blank-line scenarios. -/
def blMachine : Machine Nat :=
  { mainMode := blHost, configs := [endConf] }

/-- A state in which the `endConf` sub mode is active at start of line. -/
def c8State : NState Nat :=
  { mainState := 5, subConf := some endConf, subState := some 0,
    parser := .subAtSOL, suffixes := none, literals := [],
    originalString := [], tokenGetter := .default, next := none }

/-- A configuration without the mandatory `open`. -/
def noOpenConf : Conf Nat :=
  .mk none none (some (.obj commentMode))
    false false false none none false none 0 none [] none

/-- The machine holding the `open`-less configuration (its compilation
`makeStruct [noOpenConf]` returns it unchanged — compilation succeeds, the
error surfaces at the first open search). -/
def noOpenMachine : Machine Nat :=
  { mainMode := hostMode, configs := [noOpenConf] }

/-- A configuration whose `mode` is the unresolvable specification `nope`. -/
def unknownModeConf : Conf Nat :=
  .mk (some (.lit ['$'])) none (some (.name "nope"))
    false false false none none false none 0 none [] none

/-- A configuration whose dynamic `start` callback yields
`unknownModeConf`. -/
def dynConf : Conf Nat :=
  .mk (some (.lit ['$'])) none none
    false false false none none false none 0 (some (fun _ => unknownModeConf)) [] none

/-- The machine with the dynamic configuration; its registry knows no mode
(an unknown specification resolves to no mode, as the spec's registry
contract prescribes). -/
def dynMachine : Machine Nat :=
  { mainMode := hostMode, configs := [dynConf], getMode := fun _ => none }

/-- A suffix configuration marked `inline: true` (open `q`). -/
def inlineSfx : Conf Nat :=
  .mk (some (.lit ['q'])) none (some (.obj commentMode))
    false false false none none true none 0 none [] none

/-- A suffix configuration without the `inline` mark (open `r`). -/
def keepSfx : Conf Nat :=
  .mk (some (.lit ['r'])) none (some (.obj commentMode))
    false false false none none false none 0 none [] none

end Demo

/-! ## C1 — the default delimiter comparator -/

/-- C1: for every pair of delimiter matches, `_compDefault` returns `true`
iff: when the two indices are equal, `thisMatch`'s text is empty, or
`thisMatch`'s text is at least as long as `otherMatch`'s text and
`otherMatch`'s text is non-empty; and when the indices differ,
`thisMatch.index` is strictly less than `otherMatch.index`. -/
theorem compDefault_spec (t o : MatchRes) :
    compDefault t o = true ↔
      ((t.index = o.index ∧
          (t.text = [] ∨ (o.text.length ≤ t.text.length ∧ o.text ≠ []))) ∨
        (t.index ≠ o.index ∧ t.index < o.index)) := by
  unfold compDefault
  rcases eq_or_ne t.index o.index with h | h
  · simp [h, List.isEmpty_iff]
  · simp [h]

/-! ## C2 — open search priority arbitration -/

/-- C2: `searchOpen` iterates the configurations in declaration order and
keeps a running best match, replacing the best `B` by a candidate `M` exactly
when `B.conf.comp(B, M)` is false; consequently, under the default
comparator, of two configurations whose opens both match zero-width at the
same offset the one declared first is selected, and of two configurations
whose opens match texts of lengths 2 and 3 at the same offset the length-3
one is selected (in either declaration order). -/
theorem searchOpen_priority :
    (∀ (σ : Type) (s : Stream) (from_ : Nat) (a b : Conf σ)
        (pa pb : Pattern) (ma mb : MatchRes),
      a.openPat = some pa → b.openPat = some pb →
      pa.exec (s.string.drop from_) = some ma →
      pb.exec (s.string.drop from_) = some mb →
      searchOpen s [a, b] from_ =
        some (some (if a.compEff ma mb then (ma, a) else (mb, b))))
    ∧ (searchOpen ⟨['x', 'y'], 0, false⟩ [Demo.zwConfA, Demo.zwConfB] 0
        |>.map (Option.map (fun r => (r.1, r.2.delimStyle))))
        = some (some (⟨0, []⟩, some "A"))
    ∧ (searchOpen ⟨['a', 'b', 'c', 'd'], 0, false⟩ [Demo.len2Conf, Demo.len3Conf] 0
        |>.map (Option.map (fun r => (r.1, r.2.delimStyle))))
        = some (some (⟨0, ['a', 'b', 'c']⟩, some "L3"))
    ∧ (searchOpen ⟨['a', 'b', 'c', 'd'], 0, false⟩ [Demo.len3Conf, Demo.len2Conf] 0
        |>.map (Option.map (fun r => (r.1, r.2.delimStyle))))
        = some (some (⟨0, ['a', 'b', 'c']⟩, some "L3")) := by
  refine ⟨?_, by decide, by decide, by decide⟩
  intro σ s from_ a b pa pb ma mb ha hb hma hmb
  simp [searchOpen, soStep, List.foldlM, ha, hb, hma, hmb]
  split <;> simp

/-- Witness for C2: the general replacement rule applied to the two concrete
literal-open configurations on the line `abcd`. -/
theorem searchOpen_priority_witness :
    searchOpen ⟨['a', 'b', 'c', 'd'], 0, false⟩ [Demo.len2Conf, Demo.len3Conf] 0 =
      some (some (if Demo.len2Conf.compEff ⟨0, ['a', 'b']⟩ ⟨0, ['a', 'b', 'c']⟩
        then (⟨0, ['a', 'b']⟩, Demo.len2Conf)
        else (⟨0, ['a', 'b', 'c']⟩, Demo.len3Conf))) :=
  searchOpen_priority.1 Nat ⟨['a', 'b', 'c', 'd'], 0, false⟩ 0
    Demo.len2Conf Demo.len3Conf _ _ ⟨0, ['a', 'b']⟩ ⟨0, ['a', 'b', 'c']⟩
    rfl rfl rfl rfl

/-! ## C5 — determinism of tokenization -/

/-- C5: tokenization is deterministic: two runs of the per-line driver (or of
the whole-document driver) from equal nesting states produce identical
sequences of `(start, length, style)` token triples — the token stream of a
line depends only on its state at start of line. -/
theorem tokenization_deterministic :
    (∀ (σ : Type) (M : Machine σ) (efuel lfuel : Nat) (s : Stream)
        (st1 st2 : NState σ), st1 = st2 →
        runLine M efuel lfuel s st1 = runLine M efuel lfuel s st2)
    ∧ (∀ (σ : Type) (M : Machine σ) (efuel lfuel : Nat) (doc : List Str)
        (st1 st2 : NState σ), st1 = st2 →
        runDoc M efuel lfuel doc st1 = runDoc M efuel lfuel doc st2) :=
  ⟨fun _ _ _ _ _ _ _ h => by rw [h], fun _ _ _ _ _ _ _ h => by rw [h]⟩

/-- Witness for C5: the two-line `#`-comment document tokenized twice from
the same start state. -/
theorem tokenization_deterministic_witness :
    runDoc Demo.hashMachine 30 30 ["# hello".toList, "world".toList]
        (startState Demo.hashMachine) =
      runDoc Demo.hashMachine 30 30 ["# hello".toList, "world".toList]
        (startState Demo.hashMachine) :=
  tokenization_deterministic.2 Nat Demo.hashMachine 30 30
    ["# hello".toList, "world".toList] _ _ rfl

/-! ## C6 — close-at-SOL -/

/-- C6: a configuration without a `close` pattern closes through
`_closeAtSOL`, which succeeds — with a zero-width match — exactly when the
search offset is 0 and the stream is at start of line; consequently
`{open: "#", mode: comment}` on the line `# hello` followed by `world` keeps
the comment sub mode active to the end of line 1 and closes it at the start
of line 2, so line 2 is tokenized by the host mode. -/
theorem closeAtSOL_spec :
    (∀ (σ : Type) (c : Conf σ), c.close = none →
      ∀ (s : Stream) (from_ : Nat) (m : MatchRes),
        (c.searchClose s from_ = some m ↔
          (from_ = 0 ∧ s.sol = true ∧ m = ⟨0, []⟩)))
    ∧ (runDoc Demo.hashMachine 30 30 ["# hello".toList, "world".toList]
        (startState Demo.hashMachine)).map Prod.fst =
      some [[(0, 1, none), (1, 6, some "comment")], [(0, 5, some "host")]] := by
  refine ⟨?_, by decide⟩
  intro σ c hclose s from_ m
  simp only [Conf.searchClose, hclose]
  constructor
  · intro h
    split at h
    · next hc =>
      simp only [Bool.and_eq_true, beq_iff_eq] at hc
      cases h
      exact ⟨hc.1, hc.2, rfl⟩
    · exact absurd h (by simp)
  · rintro ⟨h1, h2, rfl⟩
    simp [h1, h2]

/-- Witness for C6: the close-at-SOL characterization applied to the `#`
configuration at offset 0 on a fresh line. -/
theorem closeAtSOL_spec_witness :
    Demo.hashConf.searchClose ⟨['w'], 0, false⟩ 0 = some ⟨0, []⟩ :=
  (closeAtSOL_spec.1 Nat Demo.hashConf rfl ⟨['w'], 0, false⟩ 0 ⟨0, []⟩).2
    ⟨rfl, rfl, rfl⟩

/-! ## C7 — suffix clearing on a failed open search -/

/-- C7: when `regNextSub` performs an open search while `state.suffixes` is
set and finds no match, then on a non-blank line (the stream's string is not
`"\n"`) all suffixes are cleared, and on the blank-line pseudo stream exactly
the suffixes marked `inline` are discarded and all others are kept. -/
theorem regNextSub_suffix_clearing :
    ∀ (σ : Type) (M : Machine σ) (s : Stream) (st : NState σ)
      (sfx : List (Conf σ)),
      st.suffixes = some sfx →
      searchOpen s (sfx ++ M.configs) s.pos = some none →
      (s.string ≠ ['\n'] →
        regNextSub M s st = some (false, { st with suffixes := none }))
      ∧ (s.string = ['\n'] →
        regNextSub M s st =
          some (false,
            { st with suffixes := some (sfx.filter (fun c => !c.inline)) })) := by
  intro σ M s st sfx hs ho
  constructor
  · intro hne
    have hb : (s.string == ['\n']) = false := by
      simpa using hne
    simp [regNextSub, nextConfigs, hs, ho, hb]
  · intro heq
    simp [regNextSub, nextConfigs, hs, ho, heq]

/-- Witness for C7: a failed suffix search on the blank-line pseudo stream
keeps exactly the suffixes not marked `inline`. -/
theorem regNextSub_suffix_clearing_witness :
    regNextSub Demo.hashMachine ⟨['\n'], 0, false⟩
        { startState Demo.hashMachine with
            suffixes := some [Demo.inlineSfx, Demo.keepSfx] } =
      some (false,
        { startState Demo.hashMachine with
            suffixes :=
              some ([Demo.inlineSfx, Demo.keepSfx].filter (fun c => !c.inline)) }) :=
  (regNextSub_suffix_clearing Nat Demo.hashMachine ⟨['\n'], 0, false⟩ _
    [Demo.inlineSfx, Demo.keepSfx] rfl rfl).2 rfl

/-! ## C8 — `blankLine` -/

/-- Counterexample to C8: with the `endConf` sub mode active at start of line,
a `blankLine` call fires none of the three listed actions — the host's
`blankLine` does not run (`mainState` stays 5; it would become 6), the active
sub mode is not closed (`subConf` stays present), and no `\n` open or close
match fires (the parser is `subAtSOL` again, no entry or finalize step
persisted) — refuting "fires exactly one of the following actions". -/
theorem blankLine_c8_counterexample :
    (blankLine Demo.blMachine 30 Demo.c8State).map
        (fun st => (st.mainState, st.subConf.isSome, st.parser, st.tokenGetter,
          st.literals.length, st.next.isSome)) =
      some (5, true, ParserTag.subAtSOL, TokenGetter.default, 0, false) := by
  decide

/-- C8 (amended): a call to `blankLine(state)` performs a single parser step
on the pseudo stream `"\n"` during which the close-at-SOL close of the active
sub mode, an explicit `\n` open/close match, or — only when no sub mode is
active — the host mode's `blankLine` may fire, but possibly none of them
does; the token getter is swapped to the blank-line swallow only for the
duration of the step: it is the default again whenever the call returns.
Conjuncts: (1) the restoration, for every machine and state; (2) with no sub
mode active the host's `blankLine` fires (`mainState` 0 becomes 1); (3) with
a close-at-SOL sub mode active its close fires (`subConf` cleared) and the
host's `blankLine` does not (`mainState` stays 5). -/
theorem blankLine_amended :
    (∀ (σ : Type) (M : Machine σ) (fuel : Nat) (st st2 : NState σ),
        blankLine M fuel st = some st2 → st2.tokenGetter = TokenGetter.default)
    ∧ (blankLine Demo.blMachine 30 (startState Demo.blMachine)).map
        (fun st => (st.mainState, st.subConf.isSome)) = some (1, false)
    ∧ (blankLine Demo.blMachine 30
          { Demo.c8State with subConf := some Demo.hashConf }).map
        (fun st => (st.mainState, st.subConf.isSome)) = some (5, false) := by
  refine ⟨?_, by decide, by decide⟩
  intro σ M fuel st st2 h
  unfold blankLine at h
  rcases Option.map_eq_some'.mp h with ⟨a, _, rfl⟩
  rfl

/-- Witness for C8: the restoration conjunct applied to the concrete
blank-line call on the start state. -/
theorem blankLine_amended_witness :
    (blankLine Demo.blMachine 30 (startState Demo.blMachine)).map
        (fun st => st.tokenGetter) = some TokenGetter.default := by
  rcases hE : blankLine Demo.blMachine 30 (startState Demo.blMachine) with _ | st2
  · have hs : (blankLine Demo.blMachine 30 (startState Demo.blMachine)).isSome = true := by
      decide
    rw [hE] at hs
    cases hs
  · simpa [hE] using blankLine_amended.1 Nat Demo.blMachine 30
      (startState Demo.blMachine) st2 hE

/-! ## C9 — configuration errors -/

/-- The length of a compiled configuration array (`makeStruct` rejects
nothing). -/
theorem compileList_length {σ : Type} (clvArg : Nat) (forceLit : Bool)
    (cs : List (Conf σ)) : (compileList clvArg forceLit cs).length = cs.length := by
  induction cs with
  | nil => simp [compileList]
  | cons c cs ih => simp [compileList, ih]

/-- Counterexample to C9: a configuration without `open` is *not* rejected at
compilation time — `makeStruct` compiles it into a configuration — and the
configuration error (the `TypeError` of `conf.open.exec`) only surfaces at
the first `token` call's open search. -/
theorem confError_c9_counterexample :
    makeStruct [Demo.noOpenConf] = [Demo.noOpenConf]
    ∧ (token Demo.noOpenMachine 30 ⟨['a', 'b'], 0, false⟩
        (startState Demo.noOpenMachine)).isSome = false := by
  constructor
  · simp [makeStruct, compileList, compileConf, Demo.noOpenConf]
  · decide

/-- C9 (amended): compilation itself never rejects a configuration (it is
total, preserving the number of configurations); a missing `open` produces
the configuration error at the first open search of a `token` call, and a
mode specification left unresolvable after the dynamic `start` callback
produces it at the moment of first entry — `startSub` errors rather than
silently substituting a default mode (conjunct 3 states this in general:
whenever the started configuration is no literal and its mode is
unresolvable, `startSub` fails). -/
theorem confError_amended :
    (∀ (σ : Type) (cs : List (Conf σ)), (makeStruct cs).length = cs.length)
    ∧ (token Demo.noOpenMachine 30 ⟨['a', 'b'], 0, false⟩
        (startState Demo.noOpenMachine)).isSome = false
    ∧ (∀ (σ : Type) (M : Machine σ) (k : K σ) (s : Stream) (st : NState σ)
          (nx : NextEntry σ),
        st.next = some nx →
        (nx.conf.startConfig M { nx.nmatch with index := 0 }).literal = false →
        (nx.conf.startConfig M { nx.nmatch with index := 0 }).modeObj = none →
        stepStartSub M k s st = none)
    ∧ (token Demo.dynMachine 30 ⟨['$', 'x'], 0, false⟩
        (startState Demo.dynMachine)).isSome = false := by
  refine ⟨fun σ cs => compileList_length 0 false cs, by decide, ?_, by decide⟩
  intro σ M k s st nx hnx hlit hmode
  simp [stepStartSub, hnx, hlit, hmode]

/-- Witness for C9: the general no-silent-substitution conjunct applied to
the dynamic configuration whose `start` callback yields an unresolvable
mode. -/
theorem confError_amended_witness :
    stepStartSub Demo.dynMachine (fun _ _ _ => none) ⟨['$', 'x'], 0, false⟩
        { startState Demo.dynMachine with
            next := some ⟨⟨0, ['$']⟩, Demo.dynConf, false⟩ } = none :=
  confError_amended.2.2.1 Nat Demo.dynMachine (fun _ _ _ => none)
    ⟨['$', 'x'], 0, false⟩ _ ⟨⟨0, ['$']⟩, Demo.dynConf, false⟩ rfl rfl rfl

/-! ## C3 — mask (literal) containment -/

/-- Whether a step function belongs to the literal ("mask") parser. -/
def isLitStep : STag → Bool
  | .litEntry | .litCheckEnd | .litContinuation | .litUntilEOL | .litAtSOL
  | .litFinalizeToMain => true
  | _ => false

/-- The literal-stack invariant: whenever the mask stack is non-empty, the
stored parser is one of the two literal-parser steps that persist across
`token` calls. -/
def LitInv (st : NState σ) : Prop :=
  st.literals ≠ [] →
    st.parser = ParserTag.litUntilEOL ∨ st.parser = ParserTag.litAtSOL

/-- Call-point precondition for the containment lemma: non-literal call
points only run with an empty literal stack, and a stored-parser dispatch
with a non-empty stack is one of the persisting literal steps. -/
def C3Pre : Call σ → NState σ → Prop
  | .tag t, st =>
    st.literals ≠ [] →
      (t = ParserTag.litUntilEOL ∨ t = ParserTag.litAtSOL) ∧ st.parser = t
  | .preStartSubC, st => st.literals = []
  | .subEntry _, st => st.literals = []
  | .subContinuation _ _, st => st.literals = []
  | _, _ => True

theorem tcons_eq_some {t : STag} {d : Nat} {x : Option (Res σ × List TraceE)}
    {r : Res σ} {tr : List TraceE} (h : tcons t d x = some (r, tr)) :
    ∃ tl, x = some (r, tl) ∧ tr = (t, d) :: tl := by
  cases x with
  | none => simp [tcons] at h
  | some a =>
    obtain ⟨r0, tl⟩ := a
    simp only [tcons, Option.some.injEq, Prod.mk.injEq] at h
    exact ⟨tl, by rw [h.1], by rw [h.2]⟩

theorem trace_step {t : STag} {d : Nat} {tl : List TraceE}
    (hd : 0 < d → isLitStep t = true)
    (htl : ∀ e ∈ tl, 0 < e.2 → isLitStep e.1 = true) :
    ∀ e ∈ ((t, d) :: tl : List TraceE), 0 < e.2 → isLitStep e.1 = true := by
  intro e he
  rcases List.mem_cons.mp he with rfl | h2
  · exact hd
  · exact htl e h2

/-- `regNextSub` only writes `next` or `suffixes`. -/
theorem regNextSub_parts {M : Machine σ} {s : Stream} {st : NState σ} {b : Bool}
    {st1 : NState σ} (h : regNextSub M s st = some (b, st1)) :
    st1.literals = st.literals ∧ st1.parser = st.parser ∧
    st1.subConf = st.subConf ∧ st1.subState = st.subState ∧
    st1.mainState = st.mainState ∧ st1.originalString = st.originalString ∧
    st1.tokenGetter = st.tokenGetter := by
  unfold regNextSub at h
  split at h
  · exact absurd h (by simp)
  · simp only [Option.some.injEq, Prod.mk.injEq] at h
    obtain ⟨-, rfl⟩ := h
    simp
  · split at h <;>
    · simp only [Option.some.injEq, Prod.mk.injEq] at h
      obtain ⟨-, rfl⟩ := h
      simp

theorem applyMainTok_st {M : Machine σ} {st : NState σ} {s : Stream}
    {tok : Option String} {s1 : Stream} {st1 : NState σ}
    (h : applyMainTok M st s = (tok, s1, st1)) :
    st1.literals = st.literals ∧ st1.next = st.next ∧ st1.parser = st.parser ∧
    st1.subConf = st.subConf ∧ st1.suffixes = st.suffixes ∧
    st1.originalString = st.originalString ∧ st1.subState = st.subState ∧
    st1.tokenGetter = st.tokenGetter := by
  unfold applyMainTok at h
  split at h <;>
  · simp only [Prod.mk.injEq] at h
    obtain ⟨-, -, rfl⟩ := h
    simp

theorem subTokWith_st {w : Conf σ → Option String → Option String}
    {st : NState σ} {s : Stream} {tok : Option String} {s1 : Stream}
    {st1 : NState σ} (h : subTokWith w st s = some (tok, s1, st1)) :
    st1.literals = st.literals ∧ st1.parser = st.parser ∧
    st1.next = st.next ∧ st1.subConf = st.subConf ∧
    st1.suffixes = st.suffixes ∧ st1.originalString = st.originalString ∧
    st1.mainState = st.mainState ∧ st1.tokenGetter = st.tokenGetter := by
  unfold subTokWith at h
  split at h
  · exact absurd h (by simp)
  · split at h
    · simp only [Option.some.injEq, Prod.mk.injEq] at h
      obtain ⟨-, -, rfl⟩ := h
      simp
    · split at h
      · simp only [Option.some.injEq, Prod.mk.injEq] at h
        obtain ⟨-, -, rfl⟩ := h
        simp
      · exact absurd h (by simp)

theorem innerTok_st {st : NState σ} {s : Stream} {tok : Option String}
    {s1 : Stream} {st1 : NState σ} (h : innerTok st s = some (tok, s1, st1)) :
    st1.literals = st.literals ∧ st1.parser = st.parser ∧
    st1.next = st.next ∧ st1.subConf = st.subConf ∧
    st1.suffixes = st.suffixes ∧ st1.originalString = st.originalString ∧
    st1.mainState = st.mainState ∧ st1.tokenGetter = st.tokenGetter :=
  subTokWith_st h

theorem stepUntilOpen_c3 {M : Machine σ} {s : Stream} {st : NState σ}
    {r : Res σ} {tl : List TraceE} (h : stepUntilOpen M s st = some (r, tl)) :
    r.2.2.literals = st.literals ∧ tl = [] := by
  unfold stepUntilOpen done at h
  split at h
  next tok s1 st1 heq =>
    split at h <;>
    · simp only [Option.some.injEq, Prod.mk.injEq] at h
      obtain ⟨h1, h2⟩ := h
      subst h1
      subst h2
      exact ⟨by simp [(applyMainTok_st heq).1], rfl⟩

theorem stepMainUntilEOL_c3 {M : Machine σ} {s : Stream} {st : NState σ}
    {r : Res σ} {tl : List TraceE} (h : stepMainUntilEOL M s st = some (r, tl)) :
    r.2.2.literals = st.literals ∧ tl = [] := by
  unfold stepMainUntilEOL done at h
  split at h
  next tok s1 st1 heq =>
    split at h <;>
    · simp only [Option.some.injEq, Prod.mk.injEq] at h
      obtain ⟨h1, h2⟩ := h
      subst h1
      subst h2
      exact ⟨by simp [(applyMainTok_st heq).1], rfl⟩

theorem stepLitUntilEOL_c3 {s : Stream} {st : NState σ}
    {r : Res σ} {tl : List TraceE} (h : stepLitUntilEOL s st = some (r, tl)) :
    r.2.2.literals = st.literals ∧ tl = [] ∧
    (r.2.2.parser = ParserTag.litAtSOL ∨ r.2.2.parser = st.parser) := by
  unfold stepLitUntilEOL done at h
  split at h
  · exact absurd h (by simp)
  · next tok s1 st1 heq =>
    split at h
    · simp only [Option.some.injEq, Prod.mk.injEq] at h
      obtain ⟨h1, h2⟩ := h
      subst h1
      subst h2
      exact ⟨by simp [(innerTok_st heq).1], rfl, by simp⟩
    · simp only [Option.some.injEq, Prod.mk.injEq] at h
      obtain ⟨h1, h2⟩ := h
      subst h1
      subst h2
      exact ⟨by simp [(innerTok_st heq).1], rfl, Or.inr (by simp [(innerTok_st heq).2.1])⟩

theorem stepSubUntilEOL_c3 {s : Stream} {st : NState σ}
    {r : Res σ} {tl : List TraceE} (h : stepSubUntilEOL s st = some (r, tl)) :
    r.2.2.literals = st.literals ∧ tl = [] := by
  unfold stepSubUntilEOL done at h
  split at h
  · exact absurd h (by simp)
  · next tok s1 st1 heq =>
    split at h <;>
    · simp only [Option.some.injEq, Prod.mk.injEq] at h
      obtain ⟨h1, h2⟩ := h
      subst h1
      subst h2
      exact ⟨by simp [(innerTok_st heq).1], rfl⟩

theorem stepUntilSubInner_c3 {s : Stream} {st : NState σ}
    {r : Res σ} {tl : List TraceE} (h : stepUntilSubInner s st = some (r, tl)) :
    r.2.2.literals = st.literals ∧ tl = [] := by
  unfold stepUntilSubInner done at h
  split at h
  · exact absurd h (by simp)
  · next tok s1 st1 heq =>
    simp only [Option.some.injEq, Prod.mk.injEq] at h
    obtain ⟨h1, h2⟩ := h
    subst h1
    subst h2
    exact ⟨by simp [(innerTok_st heq).1], rfl⟩

theorem stepLitFinalizeToMain_c3 {s : Stream} {st : NState σ}
    {r : Res σ} {tl : List TraceE}
    (h : stepLitFinalizeToMain s st = some (r, tl)) :
    r.2.2.literals = st.literals ∧ tl = [] := by
  unfold stepLitFinalizeToMain done at h
  split at h
  · exact absurd h (by simp)
  · next tok s1 st1 heq =>
    split at h <;> (try split at h) <;>
      first
      | (simp only [Option.some.injEq, Prod.mk.injEq] at h
         obtain ⟨h1, h2⟩ := h
         subst h1
         subst h2
         exact ⟨by simp [finallySub, (innerTok_st heq).1], rfl⟩)
      | simp at h

theorem stepFinalizeInclude_c3 {s : Stream} {st : NState σ}
    {r : Res σ} {tl : List TraceE} (h : stepFinalizeInclude s st = some (r, tl)) :
    r.2.2.literals = st.literals ∧ tl = [] := by
  unfold stepFinalizeInclude done at h
  split at h
  · exact absurd h (by simp)
  · next tok s1 st1 heq =>
    split at h <;> (try split at h) <;>
      first
      | (simp only [Option.some.injEq, Prod.mk.injEq] at h
         obtain ⟨h1, h2⟩ := h
         subst h1
         subst h2
         exact ⟨by simp [finallySub, (innerTok_st heq).1], rfl⟩)
      | simp at h

theorem stepFinalizeToDelimSep_c3 {s : Stream} {st : NState σ}
    {r : Res σ} {tl : List TraceE}
    (h : stepFinalizeToDelimSep s st = some (r, tl)) :
    r.2.2.literals = st.literals ∧ tl = [] := by
  unfold stepFinalizeToDelimSep done at h
  split at h
  · exact absurd h (by simp)
  · next tok s1 st1 heq =>
    split at h <;> (try split at h) <;> (try split at h) <;>
      first
      | (simp only [Option.some.injEq, Prod.mk.injEq] at h
         obtain ⟨h1, h2⟩ := h
         subst h1
         subst h2
         exact ⟨by simp [finallySub, (innerTok_st heq).1], rfl⟩)
      | simp at h

theorem stepDelimOpen_c3 {s : Stream} {st : NState σ}
    {r : Res σ} {tl : List TraceE} (h : stepDelimOpen s st = some (r, tl)) :
    r.2.2.literals = st.literals ∧ tl = [] := by
  unfold stepDelimOpen done at h
  split at h
  · exact absurd h (by simp)
  · next tok s1 st1 heq =>
    split at h <;>
    · simp only [Option.some.injEq, Prod.mk.injEq] at h
      obtain ⟨h1, h2⟩ := h
      subst h1
      subst h2
      exact ⟨by simp [(subTokWith_st heq).1], rfl⟩

theorem stepDelimCloseSep_c3 {s : Stream} {st : NState σ}
    {r : Res σ} {tl : List TraceE} (h : stepDelimCloseSep s st = some (r, tl)) :
    r.2.2.literals = st.literals ∧ tl = [] := by
  unfold stepDelimCloseSep done at h
  split at h
  · exact absurd h (by simp)
  · next tok s1 st1 heq =>
    split at h <;> (try split at h) <;>
      first
      | (simp only [Option.some.injEq, Prod.mk.injEq] at h
         obtain ⟨h1, h2⟩ := h
         subst h1
         subst h2
         exact ⟨by simp [finallySub, (subTokWith_st heq).1], rfl⟩)
      | simp at h

theorem stepDelimCloseStatic_c3 {s : Stream} {st : NState σ}
    {r : Res σ} {tl : List TraceE} (h : stepDelimCloseStatic s st = some (r, tl)) :
    r.2.2.literals = st.literals ∧ tl = [] := by
  unfold stepDelimCloseStatic done at h
  split at h
  · exact absurd h (by simp)
  · split at h
    · exact absurd h (by simp)
    · simp only [Option.some.injEq, Prod.mk.injEq] at h
      obtain ⟨h1, h2⟩ := h
      subst h1
      subst h2
      exact ⟨by simp [finallySub], rfl⟩

theorem stepFinalizeToDelim_c3 {s : Stream} {st : NState σ}
    {r : Res σ} {tl : List TraceE} (h : stepFinalizeToDelim s st = some (r, tl)) :
    r.2.2.literals = st.literals ∧ tl = [] := by
  unfold stepFinalizeToDelim at h
  split at h
  · exact absurd h (by simp)
  · split at h
    · exact stepFinalizeInclude_c3 h
    · exact stepFinalizeToDelimSep_c3 h
    · exact stepFinalizeToDelimSep_c3 h
    · exact absurd h (by simp)

theorem stepFinalizeDirectDelim_c3 {s : Stream} {st : NState σ}
    {r : Res σ} {tl : List TraceE}
    (h : stepFinalizeDirectDelim s st = some (r, tl)) :
    r.2.2.literals = st.literals ∧ tl = [] := by
  unfold stepFinalizeDirectDelim at h
  split at h
  · exact absurd h (by simp)
  · split at h
    · exact stepFinalizeInclude_c3 h
    · exact stepDelimCloseSep_c3 h
    · exact stepDelimCloseStatic_c3 h
    · exact absurd h (by simp)

theorem stepFinalizeToNullDelim_c3 {s : Stream} {st : NState σ}
    {r : Res σ} {tl : List TraceE}
    (h : stepFinalizeToNullDelim s st = some (r, tl)) :
    r.2.2.literals = st.literals ∧ tl = [] := by
  unfold stepFinalizeToNullDelim at h
  split at h
  · exact absurd h (by simp)
  · split at h
    · exact absurd h (by simp)
    · exact stepFinalizeInclude_c3 h

theorem stepDelimClose_c3 {s : Stream} {st : NState σ}
    {r : Res σ} {tl : List TraceE} (h : stepDelimClose s st = some (r, tl)) :
    r.2.2.literals = st.literals ∧ tl = [] := by
  unfold stepDelimClose at h
  split at h
  · exact absurd h (by simp)
  · split at h
    · exact stepDelimCloseSep_c3 h
    · exact stepDelimCloseStatic_c3 h
    · exact absurd h (by simp)

/-- The conclusion of the containment lemma: every step the call ran with a
non-empty literal stack is a literal-parser step, and the literal-stack
invariant holds again in the resulting state. -/
def C3Post (r : Res σ) (tr : List TraceE) : Prop :=
  (∀ e ∈ tr, 0 < e.2 → isLitStep e.1 = true) ∧ LitInv r.2.2

theorem subEndPath_c3 {M : Machine σ} {n : Nat}
    (ih : ∀ (c : Call σ) (s : Stream) (st : NState σ) (r : Res σ)
      (tr : List TraceE), C3Pre c st → exec M n c s st = some (r, tr) →
      C3Post r tr)
    {c : Conf σ} {endm : Option MatchRes} {cursor : Nat} {s : Stream}
    {st0 : NState σ} {r : Res σ} {tl : List TraceE}
    (hlit : st0.literals = [])
    (h : subEndPath (exec M n) c endm cursor s st0 = some (r, tl)) :
    C3Post r tl := by
  unfold subEndPath at h
  split at h
  · split at h
    · split at h
      · exact ih _ _ _ _ _ (by simp [C3Pre, finallySub, hlit]) h
      · exact ih _ _ _ _ _ (by simp [C3Pre, hlit]) h
    · split at h
      · exact ih _ _ _ _ _ (by simp [C3Pre, hlit]) h
      · exact ih _ _ _ _ _ (by simp [C3Pre, hlit]) h
  · exact ih _ _ _ _ _ (by simp [C3Pre, hlit]) h

theorem litPop_c3 {M : Machine σ} {n : Nat}
    (ih : ∀ (c : Call σ) (s : Stream) (st : NState σ) (r : Res σ)
      (tr : List TraceE), C3Pre c st → exec M n c s st = some (r, tr) →
      C3Post r tr)
    {active : Conf σ} {endm : MatchRes} {cursor : Nat} {s : Stream}
    {st : NState σ} {r : Res σ} {tl : List TraceE}
    (h : litPop (exec M n) active endm cursor s st = some (r, tl)) :
    C3Post r tl := by
  unfold litPop at h
  split at h
  · next hemp =>
    split at h
    · refine ih _ _ _ _ _ ?_ h
      intro hne
      exact absurd (List.isEmpty_iff.mp (by simpa using hemp)) hne
    · split at h
      · exact absurd h (by simp)
      · exact ih _ _ _ _ _ (by simpa [C3Pre] using List.isEmpty_iff.mp hemp) h
  · exact ih _ _ _ _ _ (by simp [C3Pre]) h

/-- The containment lemma: under the call-point preconditions, every step a
parser invocation runs with a non-empty literal stack is a literal-parser
step, and the literal-stack invariant is preserved. -/
theorem exec_lit (M : Machine σ) :
    ∀ (n : Nat) (c : Call σ) (s : Stream) (st : NState σ) (r : Res σ)
      (tr : List TraceE),
      C3Pre c st → exec M n c s st = some (r, tr) → C3Post r tr := by
  intro n
  induction n with
  | zero =>
    intro c s st r tr _ h
    simp [exec] at h
  | succ n ih =>
    intro c s st r tr hpre h
    cases c with
    | preStartSubC =>
      simp only [exec] at h
      obtain ⟨tl, hstep, rfl⟩ := tcons_eq_some h
      have hlit : st.literals = [] := hpre
      unfold stepPreStartSub at hstep
      split at hstep
      · exact absurd hstep (by simp)
      · have hx := ih _ _ _ _ _ (by simp [C3Pre, hlit]) hstep
        exact ⟨trace_step (fun h0 => absurd h0 (by simp [hlit])) hx.1, hx.2⟩
    | litEntry m conf cursor =>
      simp only [exec] at h
      obtain ⟨tl, hstep, rfl⟩ := tcons_eq_some h
      unfold stepLitEntry at hstep
      have hx := ih _ _ _ _ _ (by simp [C3Pre]) hstep
      exact ⟨trace_step (fun _ => rfl) hx.1, hx.2⟩
    | litCheckEnd cursor =>
      simp only [exec] at h
      obtain ⟨tl, hstep, rfl⟩ := tcons_eq_some h
      unfold stepLitCheckEnd at hstep
      split at hstep
      · exact absurd hstep (by simp)
      · split at hstep
        · have hx := ih _ _ _ _ _ (by simp [C3Pre]) hstep
          exact ⟨trace_step (fun _ => rfl) hx.1, hx.2⟩
        · have hx := ih _ _ _ _ _ (by simp [C3Pre]) hstep
          exact ⟨trace_step (fun _ => rfl) hx.1, hx.2⟩
    | litContinuation endm cursor =>
      simp only [exec] at h
      obtain ⟨tl, hstep, rfl⟩ := tcons_eq_some h
      unfold stepLitContinuation at hstep
      split at hstep
      · exact absurd hstep (by simp)
      · split at hstep
        · exact absurd hstep (by simp)
        · split at hstep
          · split at hstep
            · have hx := ih _ _ _ _ _ (by simp [C3Pre]) hstep
              exact ⟨trace_step (fun _ => rfl) hx.1, hx.2⟩
            · have hx := litPop_c3 ih hstep
              exact ⟨trace_step (fun _ => rfl) hx.1, hx.2⟩
          · have hx := litPop_c3 ih hstep
            exact ⟨trace_step (fun _ => rfl) hx.1, hx.2⟩
    | subEntry m =>
      simp only [exec] at h
      obtain ⟨tl, hstep, rfl⟩ := tcons_eq_some h
      have hlit : st.literals = [] := hpre
      unfold stepSubEntry at hstep
      split at hstep
      · exact absurd hstep (by simp)
      · split at hstep
        · have hx := ih _ _ _ _ _ (by simp [C3Pre, hlit]) hstep
          exact ⟨trace_step (fun h0 => absurd h0 (by simp [hlit])) hx.1, hx.2⟩
        · have hx := ih _ _ _ _ _ (by simp [C3Pre, hlit]) hstep
          exact ⟨trace_step (fun h0 => absurd h0 (by simp [hlit])) hx.1, hx.2⟩
        · unfold done at hstep
          simp only [Option.some.injEq, Prod.mk.injEq] at hstep
          obtain ⟨h1, h2⟩ := hstep
          subst h1
          subst h2
          refine ⟨trace_step (fun h0 => absurd h0 (by simp [hlit])) (by simp), ?_⟩
          intro hne
          simp [hlit] at hne
        · exact absurd hstep (by simp)
    | subContinuation endm cursor =>
      simp only [exec] at h
      obtain ⟨tl, hstep, rfl⟩ := tcons_eq_some h
      have hlit : st.literals = [] := hpre
      unfold stepSubContinuation at hstep
      split at hstep
      · exact absurd hstep (by simp)
      · split at hstep
        · exact absurd hstep (by simp)
        · split at hstep
          · split at hstep
            · have hx := ih _ _ _ _ _ (by simp [C3Pre]) hstep
              exact ⟨trace_step (fun h0 => absurd h0 (by simp [hlit])) hx.1, hx.2⟩
            · have hx := subEndPath_c3 ih (by simp [hlit]) hstep
              exact ⟨trace_step (fun h0 => absurd h0 (by simp [hlit])) hx.1, hx.2⟩
          · have hx := subEndPath_c3 ih (by simp [hlit]) hstep
            exact ⟨trace_step (fun h0 => absurd h0 (by simp [hlit])) hx.1, hx.2⟩
    | tag t =>
      cases t with
      | mainEntry =>
        simp only [exec] at h
        obtain ⟨tl, hstep, rfl⟩ := tcons_eq_some h
        have hlit : st.literals = [] := by
          by_contra hne
          rcases (hpre hne).1 with h1 | h1 <;> simp at h1
        unfold stepMainEntry at hstep
        split at hstep
        · exact absurd hstep (by simp)
        · next st1 heq =>
          split at hstep
          · split at hstep
            · have hx := ih _ _ _ _ _
                (by simp [C3Pre, (regNextSub_parts heq).1, hlit]) hstep
              exact ⟨trace_step (fun h0 => absurd h0 (by simp [hlit])) hx.1, hx.2⟩
            · have hx := ih _ _ _ _ _
                (by simp [C3Pre, (regNextSub_parts heq).1, hlit]) hstep
              exact ⟨trace_step (fun h0 => absurd h0 (by simp [hlit])) hx.1, hx.2⟩
          · exact absurd hstep (by simp)
        · next st1 heq =>
          have hx := ih _ _ _ _ _
            (by simp [C3Pre, (regNextSub_parts heq).1, hlit]) hstep
          exact ⟨trace_step (fun h0 => absurd h0 (by simp [hlit])) hx.1, hx.2⟩
      | untilOpen =>
        simp only [exec] at h
        obtain ⟨tl, hstep, rfl⟩ := tcons_eq_some h
        have hlit : st.literals = [] := by
          by_contra hne
          rcases (hpre hne).1 with h1 | h1 <;> simp at h1
        obtain ⟨hl, rfl⟩ := stepUntilOpen_c3 hstep
        refine ⟨trace_step (fun h0 => absurd h0 (by simp [hlit])) (by simp), ?_⟩
        intro hne
        rw [hl, hlit] at hne
        exact absurd rfl hne
      | mainUntilEOL =>
        simp only [exec] at h
        obtain ⟨tl, hstep, rfl⟩ := tcons_eq_some h
        have hlit : st.literals = [] := by
          by_contra hne
          rcases (hpre hne).1 with h1 | h1 <;> simp at h1
        obtain ⟨hl, rfl⟩ := stepMainUntilEOL_c3 hstep
        refine ⟨trace_step (fun h0 => absurd h0 (by simp [hlit])) (by simp), ?_⟩
        intro hne
        rw [hl, hlit] at hne
        exact absurd rfl hne
      | startSubP =>
        simp only [exec] at h
        obtain ⟨tl, hstep, rfl⟩ := tcons_eq_some h
        have hlit : st.literals = [] := by
          by_contra hne
          rcases (hpre hne).1 with h1 | h1 <;> simp at h1
        unfold stepStartSub at hstep
        split at hstep
        · exact absurd hstep (by simp)
        · split at hstep
          · have hx := ih _ _ _ _ _ (by simp [C3Pre]) hstep
            exact ⟨trace_step (fun h0 => absurd h0 (by simp [hlit])) hx.1, hx.2⟩
          · split at hstep
            · exact absurd hstep (by simp)
            · have hx := ih _ _ _ _ _ (by simp [C3Pre, hlit]) hstep
              exact ⟨trace_step (fun h0 => absurd h0 (by simp [hlit])) hx.1, hx.2⟩
      | litUntilEOL =>
        simp only [exec] at h
        obtain ⟨tl, hstep, rfl⟩ := tcons_eq_some h
        obtain ⟨hl, rfl, hp⟩ := stepLitUntilEOL_c3 hstep
        refine ⟨trace_step (fun _ => rfl) (by simp), ?_⟩
        intro hne
        rw [hl] at hne
        rcases hp with hp | hp
        · exact Or.inr hp
        · exact Or.inl (hp.trans (hpre hne).2)
      | litAtSOL =>
        simp only [exec] at h
        obtain ⟨tl, hstep, rfl⟩ := tcons_eq_some h
        unfold stepLitAtSOL at hstep
        have hx := ih _ _ _ _ _ (by simp [C3Pre]) hstep
        exact ⟨trace_step (fun _ => rfl) hx.1, hx.2⟩
      | litFinalizeToMain =>
        simp only [exec] at h
        obtain ⟨tl, hstep, rfl⟩ := tcons_eq_some h
        have hlit : st.literals = [] := by
          by_contra hne
          rcases (hpre hne).1 with h1 | h1 <;> simp at h1
        obtain ⟨hl, rfl⟩ := stepLitFinalizeToMain_c3 hstep
        refine ⟨trace_step (fun h0 => absurd h0 (by simp [hlit])) (by simp), ?_⟩
        intro hne
        rw [hl, hlit] at hne
        exact absurd rfl hne
      | subUntilEOL =>
        simp only [exec] at h
        obtain ⟨tl, hstep, rfl⟩ := tcons_eq_some h
        have hlit : st.literals = [] := by
          by_contra hne
          rcases (hpre hne).1 with h1 | h1 <;> simp at h1
        obtain ⟨hl, rfl⟩ := stepSubUntilEOL_c3 hstep
        refine ⟨trace_step (fun h0 => absurd h0 (by simp [hlit])) (by simp), ?_⟩
        intro hne
        rw [hl, hlit] at hne
        exact absurd rfl hne
      | untilSubInnerClose =>
        simp only [exec] at h
        obtain ⟨tl, hstep, rfl⟩ := tcons_eq_some h
        have hlit : st.literals = [] := by
          by_contra hne
          rcases (hpre hne).1 with h1 | h1 <;> simp at h1
        obtain ⟨hl, rfl⟩ := stepUntilSubInner_c3 hstep
        refine ⟨trace_step (fun h0 => absurd h0 (by simp [hlit])) (by simp), ?_⟩
        intro hne
        rw [hl, hlit] at hne
        exact absurd rfl hne
      | subAtSOL =>
        simp only [exec] at h
        obtain ⟨tl, hstep, rfl⟩ := tcons_eq_some h
        have hlit : st.literals = [] := by
          by_contra hne
          rcases (hpre hne).1 with h1 | h1 <;> simp at h1
        unfold stepSubAtSOL at hstep
        split at hstep
        · exact absurd hstep (by simp)
        · have hx := ih _ _ _ _ _ (by simp [C3Pre, hlit]) hstep
          exact ⟨trace_step (fun h0 => absurd h0 (by simp [hlit])) hx.1, hx.2⟩
      | finalizeToDelim =>
        simp only [exec] at h
        obtain ⟨tl, hstep, rfl⟩ := tcons_eq_some h
        have hlit : st.literals = [] := by
          by_contra hne
          rcases (hpre hne).1 with h1 | h1 <;> simp at h1
        obtain ⟨hl, rfl⟩ := stepFinalizeToDelim_c3 hstep
        refine ⟨trace_step (fun h0 => absurd h0 (by simp [hlit])) (by simp), ?_⟩
        intro hne
        rw [hl, hlit] at hne
        exact absurd rfl hne
      | finalizeDirectDelim =>
        simp only [exec] at h
        obtain ⟨tl, hstep, rfl⟩ := tcons_eq_some h
        have hlit : st.literals = [] := by
          by_contra hne
          rcases (hpre hne).1 with h1 | h1 <;> simp at h1
        obtain ⟨hl, rfl⟩ := stepFinalizeDirectDelim_c3 hstep
        refine ⟨trace_step (fun h0 => absurd h0 (by simp [hlit])) (by simp), ?_⟩
        intro hne
        rw [hl, hlit] at hne
        exact absurd rfl hne
      | finalizeToNullDelim =>
        simp only [exec] at h
        obtain ⟨tl, hstep, rfl⟩ := tcons_eq_some h
        have hlit : st.literals = [] := by
          by_contra hne
          rcases (hpre hne).1 with h1 | h1 <;> simp at h1
        obtain ⟨hl, rfl⟩ := stepFinalizeToNullDelim_c3 hstep
        refine ⟨trace_step (fun h0 => absurd h0 (by simp [hlit])) (by simp), ?_⟩
        intro hne
        rw [hl, hlit] at hne
        exact absurd rfl hne
      | delimOpen =>
        simp only [exec] at h
        obtain ⟨tl, hstep, rfl⟩ := tcons_eq_some h
        have hlit : st.literals = [] := by
          by_contra hne
          rcases (hpre hne).1 with h1 | h1 <;> simp at h1
        obtain ⟨hl, rfl⟩ := stepDelimOpen_c3 hstep
        refine ⟨trace_step (fun h0 => absurd h0 (by simp [hlit])) (by simp), ?_⟩
        intro hne
        rw [hl, hlit] at hne
        exact absurd rfl hne
      | delimClose =>
        simp only [exec] at h
        obtain ⟨tl, hstep, rfl⟩ := tcons_eq_some h
        have hlit : st.literals = [] := by
          by_contra hne
          rcases (hpre hne).1 with h1 | h1 <;> simp at h1
        obtain ⟨hl, rfl⟩ := stepDelimClose_c3 hstep
        refine ⟨trace_step (fun h0 => absurd h0 (by simp [hlit])) (by simp), ?_⟩
        intro hne
        rw [hl, hlit] at hne
        exact absurd rfl hne

/-- `blankPrep` touches neither the literal stack nor the parser. -/
theorem blankPrep_parts (M : Machine σ) (st : NState σ) :
    (blankPrep M st).literals = st.literals ∧
    (blankPrep M st).parser = st.parser := by
  unfold blankPrep
  split
  · split
    · split <;> simp
    · simp
  · split <;> simp

/-- C3: in every state satisfying the literal-stack invariant (as every
reachable state does: the invariant holds at `startState` and is preserved by
`token`, `blankLine` and `copyState`), a `token` call runs only
literal-parser steps while the mask stack `state.literals` is non-empty — in
particular no `startSub` fires and no step of the enclosing sub parser (its
close taking effect) runs until the literal close has popped all stack
frames, which is the point where the trace depth returns to zero. -/
theorem mask_containment :
    (∀ (σ : Type) (M : Machine σ) (fuel : Nat) (s : Stream) (st : NState σ)
        (r : Res σ) (tr : List TraceE),
      LitInv st → token M fuel s st = some (r, tr) →
      (∀ e ∈ tr, 0 < e.2 → isLitStep e.1 = true) ∧ LitInv r.2.2)
    ∧ (∀ (σ : Type) (M : Machine σ), LitInv (startState M))
    ∧ (∀ (σ : Type) (M : Machine σ) (fuel : Nat) (st st2 : NState σ),
        LitInv st → blankLine M fuel st = some st2 → LitInv st2)
    ∧ (∀ (σ : Type) (M : Machine σ) (st : NState σ),
        LitInv st → LitInv (copyState M st)) := by
  refine ⟨?_, ?_, ?_, ?_⟩
  · intro σ M fuel s st r tr hinv h
    refine exec_lit M fuel (.tag st.parser) s st r tr ?_ h
    intro hne
    exact ⟨hinv hne, rfl⟩
  · intro σ M hne
    simp [startState] at hne
  · intro σ M fuel st st2 hinv h
    unfold blankLine at h
    rcases Option.map_eq_some'.mp h with ⟨a, ha, rfl⟩
    obtain ⟨r0, tr0⟩ := a
    have hpre2 : C3Pre (.tag (blankPrep M st).parser) (blankPrep M st) := by
      intro hne
      rw [(blankPrep_parts M st).1] at hne
      refine ⟨?_, rfl⟩
      rw [(blankPrep_parts M st).2]
      exact hinv hne
    have hpost := exec_lit M fuel _ _ _ _ _ hpre2 ha
    intro hne
    exact hpost.2 (by simpa using hne)
  · intro σ M st hinv hne
    have h2 : st.literals ≠ [] := by simpa [copyState] using hne
    simpa [copyState] using hinv h2

/-- Witness for C3: the invariant-preservation conjunct for `copyState`
applied to a concrete state with an active literal. -/
theorem mask_containment_witness :
    LitInv (copyState Demo.hashMachine
      { startState Demo.hashMachine with
          literals := [Demo.hashConf], parser := ParserTag.litUntilEOL }) :=
  mask_containment.2.2.2 Nat Demo.hashMachine _ (fun _ => Or.inl rfl)

/-! ## C10 — `state.next` is consumed or cleared before the line ends -/

theorem findSubAux_bound {pat : Str} :
    ∀ {t : Str} {i j : Nat}, findSubAux pat t i = some j →
      i ≤ j ∧ j - i + pat.length ≤ t.length := by
  intro t
  induction t with
  | nil =>
    intro i j h
    unfold findSubAux at h
    split at h
    · next hp =>
      cases h
      have : pat = [] := by
        cases pat with
        | nil => rfl
        | cons a l => simp [List.isPrefixOf] at hp
      simp [this]
    · exact absurd h (by simp)
  | cons c t ih =>
    intro i j h
    unfold findSubAux at h
    split at h
    · next hp =>
      cases h
      have hlen : pat.length ≤ (c :: t).length :=
        (List.isPrefixOf_iff_prefix.mp hp).length_le
      simpa using hlen
    · obtain ⟨h1, h2⟩ := ih h
      constructor
      · omega
      · simp only [List.length_cons]
        omega

theorem Pattern.execLit (w t : Str) :
    Pattern.exec (.lit w) t = (findSubAux w t 0).map (fun i => ⟨i, w⟩) := rfl

theorem lit_exec_bound {w : Str} {t : Str} {m : MatchRes}
    (h : Pattern.exec (.lit w) t = some m) :
    m.text = w ∧ m.index + w.length ≤ t.length := by
  rw [Pattern.execLit] at h
  rcases hf : findSubAux w t 0 with _ | j
  · rw [hf] at h
    exact absurd h (by simp)
  · rw [hf] at h
    simp only [Option.map_some', Option.some.injEq] at h
    obtain ⟨h1, h2⟩ := findSubAux_bound hf
    subst h
    simpa using h2

theorem soStep_cases {s : Stream} {from_ : Nat}
    {init o : Option (MatchRes × Conf σ)} {c : Conf σ}
    (h : soStep s from_ init c = some o) :
    o = init ∨
      ∃ p m2, c.openPat = some p ∧
        p.exec (s.string.drop from_) = some m2 ∧ o = some (m2, c) := by
  unfold soStep at h
  split at h
  · exact absurd h (by simp)
  · next p hp =>
    split at h
    · next m2 hm2 =>
      split at h
      · cases h
        exact Or.inr ⟨p, m2, hp, hm2, rfl⟩
      · split at h
        · cases h
          exact Or.inl rfl
        · cases h
          exact Or.inr ⟨p, m2, hp, hm2, rfl⟩
    · cases h
      exact Or.inl rfl

/-- A found open match comes from a member configuration's open pattern run
on the searched slice. -/
theorem searchOpen_inv {s : Stream} {from_ : Nat} {m : MatchRes}
    {conf : Conf σ} :
    ∀ {cfgs : List (Conf σ)} {init : Option (MatchRes × Conf σ)},
      List.foldlM (soStep s from_) init cfgs = some (some (m, conf)) →
      init = some (m, conf) ∨
        (conf ∈ cfgs ∧
          ∃ p, conf.openPat = some p ∧
            p.exec (s.string.drop from_) = some m) := by
  intro cfgs
  induction cfgs with
  | nil =>
    intro init h
    simp only [List.foldlM] at h
    cases h
    exact Or.inl rfl
  | cons c cs ih =>
    intro init h
    simp only [List.foldlM_cons] at h
    rcases hfc : soStep s from_ init c with _ | o
    · rw [hfc] at h
      simp at h
    · rw [hfc] at h
      simp only [Option.bind_some, bind, Option.bind] at h
      rcases ih h with h1 | ⟨h2, h3⟩
      · subst h1
        rcases soStep_cases hfc with h4 | ⟨p, m2, hp, hm2, h5⟩
        · exact Or.inl h4.symm
        · obtain ⟨rfl, rfl⟩ : m2 = m ∧ c = conf := by
            simpa [eq_comm] using h5
          exact Or.inr ⟨List.mem_cons_self _ _, p, hp, hm2⟩
      · exact Or.inr ⟨List.mem_cons_of_mem _ h2, h3⟩

theorem searchOpen_found {s : Stream} {from_ : Nat} {m : MatchRes}
    {conf : Conf σ} {cfgs : List (Conf σ)}
    (h : searchOpen s cfgs from_ = some (some (m, conf))) :
    conf ∈ cfgs ∧
      ∃ p, conf.openPat = some p ∧ p.exec (s.string.drop from_) = some m := by
  unfold searchOpen at h
  rcases searchOpen_inv h with h1 | h2
  · exact absurd h1 (by simp)
  · exact h2

/-- An open pattern that necessarily consumes: a non-empty literal-string
delimiter. -/
def GoodOpen (c : Conf σ) : Prop :=
  ∃ w, c.openPat = some (Pattern.lit w) ∧ w ≠ []

/-- A configuration whose open consumes, that has no dynamic `start`
callback, and whose suffixes are recursively as good. -/
inductive GoodC : Conf σ → Prop where
  | intro : ∀ c : Conf σ, GoodOpen c → c.start = none →
      (∀ l, c.suffixes = some l → ∀ c2 ∈ l, GoodC c2) → GoodC c

theorem GoodC.goodOpen {c : Conf σ} (h : GoodC c) : GoodOpen c := by
  cases h
  assumption

theorem GoodC.start_none {c : Conf σ} (h : GoodC c) : c.start = none := by
  cases h
  assumption

theorem GoodC.sfx {c : Conf σ} (h : GoodC c) :
    ∀ l, c.suffixes = some l → ∀ c2 ∈ l, GoodC c2 := by
  cases h
  assumption

/-- All registered suffix configurations are good. -/
def GoodSfx (st : NState σ) : Prop :=
  ∀ l, st.suffixes = some l → ∀ c ∈ l, GoodC c

/-- The active sub configuration's suffixes are good. -/
def GoodSub (st : NState σ) : Prop :=
  ∀ c l, st.subConf = some c → c.suffixes = some l → ∀ c2 ∈ l, GoodC c2

/-- The registered next entry's configuration is good. -/
def NextG (st : NState σ) : Prop :=
  ∀ nx : NextEntry σ, st.next = some nx → GoodC nx.conf

/-- The mode contract the editor relies on: a token call on a non-exhausted
stream advances the cursor and never moves it past the visible end. -/
def MProg (md : Mode σ) : Prop :=
  ∀ (str : Str) (p : Nat) (ms : σ), p < str.length →
    p < (md.token str p ms).2.1 ∧ (md.token str p ms).2.1 ≤ str.length

/-- The `state.next` invariant at editor-observable points: a registered next
entry implies the line is not exhausted, and the parser is about to consume
it (`untilOpen` over a strictly retracted line, or `startSub`). -/
def NextInv (s : Stream) (st : NState σ) : Prop :=
  ∀ nx : NextEntry σ, st.next = some nx →
    s.pos < s.string.length ∧
      ((st.parser = ParserTag.untilOpen ∧
          s.string.length < st.originalString.length) ∨
        st.parser = ParserTag.startSubP)

theorem applyMainTok_default {M : Machine σ} {st : NState σ} {s : Stream}
    (hg : st.tokenGetter = TokenGetter.default) :
    applyMainTok M st s =
      ((M.mainMode.token s.string s.pos st.mainState).1,
       { s with pos := (M.mainMode.token s.string s.pos st.mainState).2.1 },
       { st with mainState := (M.mainMode.token s.string s.pos st.mainState).2.2 }) := by
  unfold applyMainTok
  rw [hg]

theorem checkReset_true {st : NState σ} {s s2 : Stream}
    (h : checkReset st s = (true, s2)) :
    s.string.length ≤ s.pos ∧ s2 = { s with string := st.originalString } := by
  unfold checkReset at h
  split at h
  · next hc =>
    simp only [Prod.mk.injEq] at h
    exact ⟨hc, h.2.symm⟩
  · simp at h

theorem checkReset_false {st : NState σ} {s s2 : Stream}
    (h : checkReset st s = (false, s2)) :
    s.pos < s.string.length ∧ s2 = s := by
  unfold checkReset at h
  split at h
  · simp at h
  · next hc =>
    simp only [Prod.mk.injEq] at h
    exact ⟨by omega, h.2.symm⟩

/-- `regNextSub` found a start: it registered the winning match with its
configuration and runner choice, and touched nothing else. -/
theorem regNextSub_true {M : Machine σ} {s : Stream} {st st1 : NState σ}
    (h : regNextSub M s st = some (true, st1)) :
    ∃ m conf, st1 = { st with next := some ⟨m, conf, m.index != 0⟩ } ∧
      conf ∈ nextConfigs M st ∧
      ∃ p, conf.openPat = some p ∧
        p.exec (s.string.drop s.pos) = some m := by
  unfold regNextSub at h
  split at h
  · exact absurd h (by simp)
  · next m conf heq =>
    simp only [Option.some.injEq, Prod.mk.injEq] at h
    obtain ⟨-, rfl⟩ := h
    exact ⟨m, conf, rfl, (searchOpen_found heq).1, (searchOpen_found heq).2⟩
  · split at h <;> simp at h

/-- `regNextSub` found nothing: `next` is untouched and the suffixes are
cleared or filtered. -/
theorem regNextSub_false {M : Machine σ} {s : Stream} {st st1 : NState σ}
    (h : regNextSub M s st = some (false, st1)) :
    st1.next = st.next ∧ st1.parser = st.parser ∧ st1.subConf = st.subConf ∧
    st1.tokenGetter = st.tokenGetter ∧
    (st1.suffixes = none ∨
      ∃ l, st.suffixes = some l ∧
        st1.suffixes = some (l.filter (fun c => !c.inline))) := by
  unfold regNextSub at h
  split at h
  · exact absurd h (by simp)
  · simp at h
  · split at h
    · next hcond =>
      simp only [Option.some.injEq, Prod.mk.injEq] at h
      obtain ⟨-, rfl⟩ := h
      simp only [Bool.and_eq_true, Option.isSome_iff_exists] at hcond
      obtain ⟨⟨l, hl⟩, -⟩ := hcond
      exact ⟨rfl, rfl, rfl, rfl, Or.inr ⟨l, hl, by simp [hl]⟩⟩
    · simp only [Option.some.injEq, Prod.mk.injEq] at h
      obtain ⟨-, rfl⟩ := h
      exact ⟨rfl, rfl, rfl, rfl, Or.inl rfl⟩

theorem stepUntilOpen_c10 {M : Machine σ} {s : Stream} {st : NState σ}
    {r : Res σ} {tl : List TraceE} (hg : st.tokenGetter = TokenGetter.default)
    (h : stepUntilOpen M s st = some (r, tl)) :
    tl = [] ∧ r.2.2.next = st.next ∧ r.2.2.suffixes = st.suffixes ∧
    r.2.2.subConf = st.subConf ∧ r.2.2.tokenGetter = st.tokenGetter ∧
    r.2.2.originalString = st.originalString ∧
    r.2.1.pos = (M.mainMode.token s.string s.pos st.mainState).2.1 ∧
    ((s.string.length ≤ r.2.1.pos ∧ r.2.1.string = st.originalString ∧
        r.2.2.parser = ParserTag.startSubP) ∨
      (r.2.1.pos < s.string.length ∧ r.2.1.string = s.string ∧
        r.2.2.parser = st.parser)) := by
  unfold stepUntilOpen done at h
  split at h
  next tok s1 st1 heq =>
    rw [applyMainTok_default hg] at heq
    simp only [Prod.mk.injEq] at heq
    obtain ⟨-, h2, h3⟩ := heq
    subst h2
    subst h3
    split at h
    · next s2 heq2 =>
      obtain ⟨hc, rfl⟩ := checkReset_true heq2
      simp only [Option.some.injEq, Prod.mk.injEq] at h
      obtain ⟨h1, h2⟩ := h
      subst h1
      subst h2
      refine ⟨rfl, by simp, by simp, by simp, by simp [hg], by simp, by simp, ?_⟩
      exact Or.inl ⟨by simpa using hc, rfl, rfl⟩
    · next s2 heq2 =>
      obtain ⟨hc, rfl⟩ := checkReset_false heq2
      simp only [Option.some.injEq, Prod.mk.injEq] at h
      obtain ⟨h1, h2⟩ := h
      subst h1
      subst h2
      refine ⟨rfl, by simp, by simp, by simp, by simp [hg], by simp, by simp, ?_⟩
      exact Or.inr ⟨by simpa using hc, rfl, by simp⟩

theorem stepMainUntilEOL_c10 {M : Machine σ} {s : Stream} {st : NState σ}
    {r : Res σ} {tl : List TraceE}
    (h : stepMainUntilEOL M s st = some (r, tl)) :
    tl = [] ∧ r.2.2.next = st.next ∧ r.2.2.suffixes = st.suffixes ∧
    r.2.2.subConf = st.subConf ∧ r.2.2.tokenGetter = st.tokenGetter := by
  unfold stepMainUntilEOL done at h
  split at h
  next tok s1 st1 heq =>
    have hp := applyMainTok_st heq
    split at h <;>
    · simp only [Option.some.injEq, Prod.mk.injEq] at h
      obtain ⟨h1, h2⟩ := h
      subst h1
      subst h2
      exact ⟨rfl, by simp [hp.2.1], by simp [hp.2.2.2.2.1],
        by simp [hp.2.2.2.1], by simp [hp.2.2.2.2.2.2.2]⟩

theorem stepInnerPreserve_c10 {s : Stream} {st : NState σ}
    {r : Res σ} {tl : List TraceE}
    (h : stepLitUntilEOL s st = some (r, tl) ∨
      stepSubUntilEOL s st = some (r, tl) ∨
      stepUntilSubInner s st = some (r, tl) ∨
      stepDelimOpen s st = some (r, tl) ∨
      stepFinalizeToDelimSep s st = some (r, tl)) :
    tl = [] ∧ r.2.2.next = st.next ∧ r.2.2.suffixes = st.suffixes ∧
    r.2.2.subConf = st.subConf ∧ r.2.2.tokenGetter = st.tokenGetter := by
  rcases h with h | h | h | h | h
  · unfold stepLitUntilEOL done at h
    split at h
    · exact absurd h (by simp)
    · next tok s1 st1 heq =>
      have hp := innerTok_st heq
      split at h <;>
      · simp only [Option.some.injEq, Prod.mk.injEq] at h
        obtain ⟨h1, h2⟩ := h
        subst h1
        subst h2
        exact ⟨rfl, by simp [hp.2.2.1], by simp [hp.2.2.2.2.1],
          by simp [hp.2.2.2.1], by simp [hp.2.2.2.2.2.2.2]⟩
  · unfold stepSubUntilEOL done at h
    split at h
    · exact absurd h (by simp)
    · next tok s1 st1 heq =>
      have hp := innerTok_st heq
      split at h <;>
      · simp only [Option.some.injEq, Prod.mk.injEq] at h
        obtain ⟨h1, h2⟩ := h
        subst h1
        subst h2
        exact ⟨rfl, by simp [hp.2.2.1], by simp [hp.2.2.2.2.1],
          by simp [hp.2.2.2.1], by simp [hp.2.2.2.2.2.2.2]⟩
  · unfold stepUntilSubInner done at h
    split at h
    · exact absurd h (by simp)
    · next tok s1 st1 heq =>
      have hp := innerTok_st heq
      simp only [Option.some.injEq, Prod.mk.injEq] at h
      obtain ⟨h1, h2⟩ := h
      subst h1
      subst h2
      exact ⟨rfl, by simp [hp.2.2.1], by simp [hp.2.2.2.2.1],
        by simp [hp.2.2.2.1], by simp [hp.2.2.2.2.2.2.2]⟩
  · unfold stepDelimOpen done at h
    split at h
    · exact absurd h (by simp)
    · next tok s1 st1 heq =>
      have hp := subTokWith_st heq
      split at h <;>
      · simp only [Option.some.injEq, Prod.mk.injEq] at h
        obtain ⟨h1, h2⟩ := h
        subst h1
        subst h2
        exact ⟨rfl, by simp [hp.2.2.1], by simp [hp.2.2.2.2.1],
          by simp [hp.2.2.2.1], by simp [hp.2.2.2.2.2.2.2]⟩
  · unfold stepFinalizeToDelimSep done at h
    split at h
    · exact absurd h (by simp)
    · next tok s1 st1 heq =>
      have hp := innerTok_st heq
      split at h <;> (try split at h) <;> (try split at h) <;>
        first
        | (simp only [Option.some.injEq, Prod.mk.injEq] at h
           obtain ⟨h1, h2⟩ := h
           subst h1
           subst h2
           exact ⟨rfl, by simp [hp.2.2.1], by simp [hp.2.2.2.2.1],
             by simp [hp.2.2.2.1], by simp [hp.2.2.2.2.2.2.2]⟩)
        | simp at h

theorem stepFinally_c10 {s : Stream} {st : NState σ}
    {r : Res σ} {tl : List TraceE}
    (h : stepFinalizeInclude s st = some (r, tl) ∨
      stepDelimCloseSep s st = some (r, tl) ∨
      stepDelimCloseStatic s st = some (r, tl) ∨
      stepLitFinalizeToMain s st = some (r, tl)) :
    tl = [] ∧ r.2.2.next = st.next ∧ r.2.2.tokenGetter = st.tokenGetter ∧
    ((r.2.2.suffixes = st.suffixes ∧ r.2.2.subConf = st.subConf) ∨
      (∃ cf, st.subConf = some cf ∧ r.2.2.suffixes = cf.suffixes ∧
        r.2.2.subConf = none) ∨
      (r.2.2.suffixes = st.suffixes ∧ r.2.2.subConf = none)) := by
  rcases h with h | h | h | h
  · unfold stepFinalizeInclude done at h
    split at h
    · exact absurd h (by simp)
    · next tok s1 st1 heq =>
      have hp := innerTok_st heq
      split at h
      · split at h
        · exact absurd h (by simp)
        · next cf hcf =>
          simp only [Option.some.injEq, Prod.mk.injEq] at h
          obtain ⟨h1, h2⟩ := h
          subst h1
          subst h2
          refine ⟨rfl, by simp [finallySub, hp.2.2.1],
            by simp [finallySub, hp.2.2.2.2.2.2.2],
            Or.inr (Or.inl ⟨cf, ?_, ?_, ?_⟩)⟩
          · rw [← hp.2.2.2.1]
            exact hcf
          · simp [finallySub]
          · simp [finallySub]
      · simp only [Option.some.injEq, Prod.mk.injEq] at h
        obtain ⟨h1, h2⟩ := h
        subst h1
        subst h2
        exact ⟨rfl, by simp [hp.2.2.1], by simp [hp.2.2.2.2.2.2.2],
          Or.inl ⟨by simp [hp.2.2.2.2.1], by simp [hp.2.2.2.1]⟩⟩
  · unfold stepDelimCloseSep done at h
    split at h
    · exact absurd h (by simp)
    · next tok s1 st1 heq =>
      have hp := subTokWith_st heq
      split at h
      · split at h
        · exact absurd h (by simp)
        · next cf hcf =>
          simp only [Option.some.injEq, Prod.mk.injEq] at h
          obtain ⟨h1, h2⟩ := h
          subst h1
          subst h2
          refine ⟨rfl, by simp [finallySub, hp.2.2.1],
            by simp [finallySub, hp.2.2.2.2.2.2.2],
            Or.inr (Or.inl ⟨cf, ?_, ?_, ?_⟩)⟩
          · rw [← hp.2.2.2.1]
            exact hcf
          · simp [finallySub]
          · simp [finallySub]
      · simp only [Option.some.injEq, Prod.mk.injEq] at h
        obtain ⟨h1, h2⟩ := h
        subst h1
        subst h2
        exact ⟨rfl, by simp [hp.2.2.1], by simp [hp.2.2.2.2.2.2.2],
          Or.inl ⟨by simp [hp.2.2.2.2.1], by simp [hp.2.2.2.1]⟩⟩
  · unfold stepDelimCloseStatic done at h
    split at h
    · exact absurd h (by simp)
    · next cf hcf =>
      split at h
      · exact absurd h (by simp)
      · simp only [Option.some.injEq, Prod.mk.injEq] at h
        obtain ⟨h1, h2⟩ := h
        subst h1
        subst h2
        exact ⟨rfl, by simp [finallySub], by simp [finallySub],
          Or.inr (Or.inl ⟨cf, hcf, by simp [finallySub], by simp [finallySub]⟩)⟩
  · unfold stepLitFinalizeToMain done at h
    split at h
    · exact absurd h (by simp)
    · next tok s1 st1 heq =>
      have hp := innerTok_st heq
      split at h
      · split at h
        · exact absurd h (by simp)
        · simp only [Option.some.injEq, Prod.mk.injEq] at h
          obtain ⟨h1, h2⟩ := h
          subst h1
          subst h2
          exact ⟨rfl, by simp [hp.2.2.1], by simp [hp.2.2.2.2.2.2.2],
            Or.inr (Or.inr ⟨by simp [hp.2.2.2.2.1], by simp⟩)⟩
      · simp only [Option.some.injEq, Prod.mk.injEq] at h
        obtain ⟨h1, h2⟩ := h
        subst h1
        subst h2
        exact ⟨rfl, by simp [hp.2.2.1], by simp [hp.2.2.2.2.2.2.2],
          Or.inl ⟨by simp [hp.2.2.2.2.1], by simp [hp.2.2.2.1]⟩⟩

theorem setMode_suffixes (m : Option (ModeRef σ)) (c : Conf σ) :
    (c.setMode m).suffixes = c.suffixes := by
  cases c
  rfl

theorem resolveMode_suffixes (M : Machine σ) (c : Conf σ) :
    (Conf.resolveMode M c).suffixes = c.suffixes := by
  unfold Conf.resolveMode
  split
  · rw [setMode_suffixes]
  · rfl

theorem startConfig_suffixes {M : Machine σ} {c : Conf σ}
    (hs : c.start = none) (m : MatchRes) :
    (c.startConfig M m).suffixes = c.suffixes := by
  unfold Conf.startConfig
  rw [hs]
  exact resolveMode_suffixes M c

theorem nextConfigs_good {M : Machine σ} {st : NState σ}
    (hGM : ∀ c ∈ M.configs, GoodC c) (hSfx : GoodSfx st) :
    ∀ c ∈ nextConfigs M st, GoodC c := by
  intro c hc
  unfold nextConfigs at hc
  split at hc
  · next sfx hs =>
    rcases List.mem_append.mp hc with h | h
    · exact hSfx _ hs _ h
    · exact hGM _ h
  · exact hGM _ hc

theorem goodSfx_after_false {M : Machine σ} {s : Stream} {st st1 : NState σ}
    (hSfx : GoodSfx st) (h : regNextSub M s st = some (false, st1)) :
    GoodSfx st1 := by
  rcases (regNextSub_false h).2.2.2.2 with h1 | ⟨l, hl, h1⟩
  · intro l2 hl2
    rw [h1] at hl2
    cases hl2
  · intro l2 hl2
    rw [h1] at hl2
    cases hl2
    intro c2 hc2
    exact hSfx l hl c2 (List.mem_filter.mp hc2).1

/-- The call-point-specific part of the `state.next` precondition. -/
def C10Spec : Call σ → Stream → NState σ → Prop
  | .tag .untilOpen, s, st =>
    st.parser = ParserTag.untilOpen ∧
      ∀ nx : NextEntry σ, st.next = some nx →
        s.pos < s.string.length ∧ s.string.length < st.originalString.length
  | .tag .startSubP, _, _ => True
  | .preStartSubC, s, st =>
    ∃ nx : NextEntry σ, st.next = some nx ∧ nx.nmatch.index ≠ 0 ∧
      nx.nmatch.text ≠ [] ∧
      s.pos + nx.nmatch.index + nx.nmatch.text.length ≤ s.string.length
  | _, _, st => st.next = none

/-- The full call-point precondition of the `state.next` lemma. -/
def C10Pre (c : Call σ) (s : Stream) (st : NState σ) : Prop :=
  NextG st ∧ GoodSfx st ∧ GoodSub st ∧
    st.tokenGetter = TokenGetter.default ∧ C10Spec c s st

/-- The conclusion of the `state.next` lemma: after the call the invariant
and the goodness conditions hold again. -/
def C10Post (s2 : Stream) (st2 : NState σ) : Prop :=
  NextInv s2 st2 ∧ NextG st2 ∧ GoodSfx st2 ∧ GoodSub st2 ∧
    st2.tokenGetter = TokenGetter.default

theorem post_of_preserve {s2 : Stream} {st st2 : NState σ}
    (hnext : st2.next = st.next) (hsfx : st2.suffixes = st.suffixes)
    (hsub : st2.subConf = st.subConf) (htg : st2.tokenGetter = st.tokenGetter)
    (hN : st.next = none) (hSfx : GoodSfx st) (hSub : GoodSub st)
    (hTG : st.tokenGetter = TokenGetter.default) :
    C10Post s2 st2 := by
  refine ⟨?_, ?_, ?_, ?_, ?_⟩
  · intro nx hnx
    rw [hnext, hN] at hnx
    cases hnx
  · intro nx hnx
    rw [hnext, hN] at hnx
    cases hnx
  · intro l hl
    rw [hsfx] at hl
    exact hSfx l hl
  · intro c l hc hl
    rw [hsub] at hc
    exact hSub c l hc hl
  · rw [htg, hTG]

theorem post_of_finally {s2 : Stream} {st st2 : NState σ}
    (hnext : st2.next = st.next) (htg : st2.tokenGetter = st.tokenGetter)
    (hd : (st2.suffixes = st.suffixes ∧ st2.subConf = st.subConf) ∨
      (∃ cf, st.subConf = some cf ∧ st2.suffixes = cf.suffixes ∧
        st2.subConf = none) ∨
      (st2.suffixes = st.suffixes ∧ st2.subConf = none))
    (hN : st.next = none) (hSfx : GoodSfx st) (hSub : GoodSub st)
    (hTG : st.tokenGetter = TokenGetter.default) :
    C10Post s2 st2 := by
  refine ⟨?_, ?_, ?_, ?_, ?_⟩
  · intro nx hnx
    rw [hnext, hN] at hnx
    cases hnx
  · intro nx hnx
    rw [hnext, hN] at hnx
    cases hnx
  · rcases hd with ⟨h1, -⟩ | ⟨cf, hcf, h1, -⟩ | ⟨h1, -⟩
    · intro l hl
      rw [h1] at hl
      exact hSfx l hl
    · intro l hl
      rw [h1] at hl
      exact hSub cf l hcf hl
    · intro l hl
      rw [h1] at hl
      exact hSfx l hl
  · rcases hd with ⟨-, h2⟩ | ⟨cf, hcf, -, h2⟩ | ⟨-, h2⟩
    · intro c l hc hl
      rw [h2] at hc
      exact hSub c l hc hl
    · intro c l hc hl
      rw [h2] at hc
      cases hc
    · intro c l hc hl
      rw [h2] at hc
      cases hc
  · rw [htg, hTG]

theorem nextG_of_none {st : NState σ} (h : st.next = none) : NextG st := by
  intro nx hnx
  rw [h] at hnx
  cases hnx

theorem subEndPath_c10 {M : Machine σ} {n : Nat}
    (ih : ∀ (c : Call σ) (s : Stream) (st : NState σ) (r : Res σ)
      (tr : List TraceE), C10Pre c s st → exec M n c s st = some (r, tr) →
      C10Post r.2.1 r.2.2)
    {c : Conf σ} {endm : Option MatchRes} {cursor : Nat} {s : Stream}
    {st0 : NState σ} {r : Res σ} {tl : List TraceE}
    (hN : st0.next = none) (hSfx : GoodSfx st0) (hSub : GoodSub st0)
    (hTG : st0.tokenGetter = TokenGetter.default) (hc : st0.subConf = some c)
    (h : subEndPath (exec M n) c endm cursor s st0 = some (r, tl)) :
    C10Post r.2.1 r.2.2 := by
  have hfin : C10Pre (.tag ParserTag.mainEntry) s (finallySub c st0) := by
    refine ⟨?_, ?_, ?_, hTG, ?_⟩
    · exact nextG_of_none hN
    · intro l hl
      exact hSub c l hc hl
    · intro c2 l hc2 hl
      cases hc2
    · simp only [C10Spec, finallySub]
      rw [hN]
  unfold subEndPath at h
  split at h
  · split at h
    · split at h
      · exact ih _ _ _ _ _ hfin h
      · exact ih _ _ _ _ _ (by exact ⟨nextG_of_none hN, hSfx, hSub, hTG, hN⟩) h
    · split at h
      · exact ih _ _ _ _ _ (by exact ⟨nextG_of_none hN, hSfx, hSub, hTG, hN⟩) h
      · exact ih _ _ _ _ _ (by exact ⟨nextG_of_none hN, hSfx, hSub, hTG, hN⟩) h
  · exact ih _ _ _ _ _ (by exact ⟨nextG_of_none hN, hSfx, hSub, hTG, hN⟩) h

theorem litPop_c10 {M : Machine σ} {n : Nat}
    (ih : ∀ (c : Call σ) (s : Stream) (st : NState σ) (r : Res σ)
      (tr : List TraceE), C10Pre c s st → exec M n c s st = some (r, tr) →
      C10Post r.2.1 r.2.2)
    {active : Conf σ} {endm : MatchRes} {cursor : Nat} {s : Stream}
    {st : NState σ} {r : Res σ} {tl : List TraceE}
    (hN : st.next = none) (hSfx : GoodSfx st) (hSub : GoodSub st)
    (hTG : st.tokenGetter = TokenGetter.default)
    (h : litPop (exec M n) active endm cursor s st = some (r, tl)) :
    C10Post r.2.1 r.2.2 := by
  unfold litPop at h
  split at h
  · split at h
    · exact ih _ _ _ _ _ (by exact ⟨nextG_of_none hN, hSfx, hSub, hTG, hN⟩) h
    · split at h
      · exact absurd h (by simp)
      · exact ih _ _ _ _ _ (by exact ⟨nextG_of_none hN, hSfx, hSub, hTG, hN⟩) h
  · exact ih _ _ _ _ _ (by exact ⟨nextG_of_none hN, hSfx, hSub, hTG, hN⟩) h

/-- The `state.next` lemma: under the call-point preconditions every parser
invocation returns with the `state.next` invariant re-established (and the
goodness conditions preserved). -/
theorem exec_next (M : Machine σ) (hGM : ∀ c ∈ M.configs, GoodC c)
    (hMP : MProg M.mainMode) :
    ∀ (n : Nat) (c : Call σ) (s : Stream) (st : NState σ) (r : Res σ)
      (tr : List TraceE),
      C10Pre c s st → exec M n c s st = some (r, tr) → C10Post r.2.1 r.2.2 := by
  intro n
  induction n with
  | zero =>
    intro c s st r tr _ h
    simp [exec] at h
  | succ n ih =>
    intro c s st r tr hpre h
    obtain ⟨hNG, hSfx, hSub, hTG, hSpec⟩ := hpre
    cases c with
    | preStartSubC =>
      simp only [exec] at h
      obtain ⟨tl, hstep, rfl⟩ := tcons_eq_some h
      obtain ⟨nx0, hnx0, hidx, htxt, hbound⟩ := hSpec
      unfold stepPreStartSub at hstep
      split at hstep
      · next heq =>
        rw [hnx0] at heq
        cases heq
      · next nx heq =>
        obtain rfl : nx = nx0 := by
          rw [hnx0] at heq
          exact (Option.some.inj heq).symm
        refine ih _ _ _ _ _ ?_ hstep
        refine ⟨by exact hNG, by exact hSfx, by exact hSub, by exact hTG, rfl, ?_⟩
        intro nx2 hnx2
        have htl : 1 ≤ nx.nmatch.text.length := List.length_pos.mpr htxt
        simp only [List.length_take]
        omega
    | litEntry m conf cursor =>
      simp only [exec] at h
      obtain ⟨tl, hstep, rfl⟩ := tcons_eq_some h
      exact ih _ _ _ _ _ (by exact ⟨hNG, hSfx, hSub, hTG, hSpec⟩) hstep
    | litCheckEnd cursor =>
      simp only [exec] at h
      obtain ⟨tl, hstep, rfl⟩ := tcons_eq_some h
      unfold stepLitCheckEnd at hstep
      split at hstep
      · exact absurd hstep (by simp)
      · split at hstep
        · exact ih _ _ _ _ _ (by exact ⟨hNG, hSfx, hSub, hTG, hSpec⟩) hstep
        · exact ih _ _ _ _ _ (by exact ⟨hNG, hSfx, hSub, hTG, hSpec⟩) hstep
    | litContinuation endm cursor =>
      simp only [exec] at h
      obtain ⟨tl, hstep, rfl⟩ := tcons_eq_some h
      unfold stepLitContinuation at hstep
      split at hstep
      · exact absurd hstep (by simp)
      · split at hstep
        · exact absurd hstep (by simp)
        · split at hstep
          · split at hstep
            · exact ih _ _ _ _ _ (by exact ⟨hNG, hSfx, hSub, hTG, hSpec⟩) hstep
            · exact litPop_c10 ih hSpec hSfx hSub hTG hstep
          · exact litPop_c10 ih hSpec hSfx hSub hTG hstep
    | subEntry m =>
      simp only [exec] at h
      obtain ⟨tl, hstep, rfl⟩ := tcons_eq_some h
      unfold stepSubEntry at hstep
      split at hstep
      · exact absurd hstep (by simp)
      · split at hstep
        · exact ih _ _ _ _ _ (by exact ⟨hNG, hSfx, hSub, hTG, hSpec⟩) hstep
        · exact ih _ _ _ _ _ (by exact ⟨hNG, hSfx, hSub, hTG, hSpec⟩) hstep
        · unfold done at hstep
          simp only [Option.some.injEq, Prod.mk.injEq] at hstep
          obtain ⟨h1, h2⟩ := hstep
          subst h1
          subst h2
          exact post_of_preserve (by simp) (by simp) (by simp) (by simp)
            hSpec hSfx hSub hTG
        · exact absurd hstep (by simp)
    | subContinuation endm cursor =>
      simp only [exec] at h
      obtain ⟨tl, hstep, rfl⟩ := tcons_eq_some h
      unfold stepSubContinuation at hstep
      split at hstep
      · exact absurd hstep (by simp)
      · next cs hc =>
        split at hstep
        · exact absurd hstep (by simp)
        · split at hstep
          · split at hstep
            · exact ih _ _ _ _ _ (by exact ⟨hNG, hSfx, hSub, hTG, hSpec⟩) hstep
            · exact subEndPath_c10 ih (by exact hSpec) (by exact hSfx)
                (by exact hSub) (by exact hTG) (by exact hc) hstep
          · exact subEndPath_c10 ih (by exact hSpec) (by exact hSfx)
              (by exact hSub) (by exact hTG) (by exact hc) hstep
    | tag t =>
      cases t with
      | mainEntry =>
        simp only [exec] at h
        obtain ⟨tl, hstep, rfl⟩ := tcons_eq_some h
        have hN : st.next = none := hSpec
        unfold stepMainEntry at hstep
        split at hstep
        · exact absurd hstep (by simp)
        · next st1 heq =>
          obtain ⟨m, conf, rfl, hmem, p, hp, hex⟩ := regNextSub_true heq
          have hGC := nextConfigs_good hGM hSfx conf hmem
          obtain ⟨w, hw, hwne⟩ := hGC.goodOpen
          obtain rfl : p = .lit w := by
            rw [hp] at hw
            exact Option.some.inj hw
          obtain ⟨htw, hbd⟩ := lit_exec_bound hex
          have hld : (s.string.drop s.pos).length = s.string.length - s.pos :=
            List.length_drop _ _
          have hw1 : 1 ≤ w.length := List.length_pos.mpr hwne
          split at hstep
          · next nx heq2 =>
            obtain rfl : nx = ⟨m, conf, m.index != 0⟩ := by
              simpa using heq2.symm
            split at hstep
            · next hps =>
              have hidx : m.index ≠ 0 := by simpa using hps
              refine ih _ _ _ _ _ ?_ hstep
              refine ⟨?_, by exact hSfx, by exact hSub, by exact hTG, ?_⟩
              · intro nx2 hnx2
                obtain rfl : nx2 = ⟨m, conf, m.index != 0⟩ := by
                  simpa using hnx2.symm
                exact hGC
              · refine ⟨⟨m, conf, m.index != 0⟩, rfl, hidx, ?_, ?_⟩
                · show m.text ≠ []
                  rw [htw]
                  exact hwne
                · show s.pos + m.index + m.text.length ≤ s.string.length
                  rw [htw]
                  omega
            · refine ih _ _ _ _ _ ?_ hstep
              refine ⟨?_, by exact hSfx, by exact hSub, by exact hTG, trivial⟩
              intro nx2 hnx2
              obtain rfl : nx2 = ⟨m, conf, m.index != 0⟩ := by
                simpa using hnx2.symm
              exact hGC
          · next heq2 =>
            simp at heq2
        · next st1 heq =>
          have hparts := regNextSub_false heq
          refine ih _ _ _ _ _ ?_ hstep
          refine ⟨?_, ?_, ?_, ?_, ?_⟩
          · exact nextG_of_none (by rw [hparts.1, hN])
          · intro l hl
            exact goodSfx_after_false hSfx heq l hl
          · intro c l hc hl
            rw [hparts.2.2.1] at hc
            exact hSub c l hc hl
          · rw [hparts.2.2.2.1, hTG]
          · show st1.next = none
            rw [hparts.1, hN]
      | startSubP =>
        simp only [exec] at h
        obtain ⟨tl, hstep, rfl⟩ := tcons_eq_some h
        unfold stepStartSub at hstep
        split at hstep
        · exact absurd hstep (by simp)
        · next nx heqn =>
          have hGC := hNG nx heqn
          have hsfn := hGC.start_none
          split at hstep
          · refine ih _ _ _ _ _ ?_ hstep
            refine ⟨by exact nextG_of_none rfl, by exact hSfx, ?_, by exact hTG, rfl⟩
            intro c l hc hl
            obtain rfl : (nx.conf.startConfig M
                { nx.nmatch with index := 0 }).setMode (some (.obj M.mainMode)) = c := by
              simpa using hc
            rw [setMode_suffixes, startConfig_suffixes hsfn] at hl
            exact hGC.sfx l hl
          · split at hstep
            · exact absurd hstep (by simp)
            · refine ih _ _ _ _ _ ?_ hstep
              refine ⟨by exact nextG_of_none rfl, by exact hSfx, ?_, by exact hTG, rfl⟩
              intro c l hc hl
              obtain rfl : nx.conf.startConfig M { nx.nmatch with index := 0 } = c := by
                simpa using hc
              rw [startConfig_suffixes hsfn] at hl
              exact hGC.sfx l hl
      | untilOpen =>
        simp only [exec] at h
        obtain ⟨tl, hstep, rfl⟩ := tcons_eq_some h
        obtain ⟨hpar, hbounds⟩ := hSpec
        obtain ⟨-, hnext, hsfxp, hsubp, htgp, horigp, hposp, hcase⟩ :=
          stepUntilOpen_c10 hTG hstep
        refine ⟨?_, ?_, ?_, ?_, ?_⟩
        · intro nx hnx
          rw [hnext] at hnx
          obtain ⟨hb1, hb2⟩ := hbounds nx hnx
          obtain ⟨hlt, hle⟩ := hMP s.string s.pos st.mainState hb1
          rcases hcase with ⟨hge, hstr, hpa⟩ | ⟨hlt2, hstr, hpa⟩
          · refine ⟨?_, Or.inr hpa⟩
            rw [hposp, hstr]
            omega
          · refine ⟨by rw [hstr]; exact hlt2, Or.inl ⟨?_, ?_⟩⟩
            · rw [hpa]
              exact hpar
            · rw [hstr, horigp]
              exact hb2
        · intro nx hnx
          rw [hnext] at hnx
          exact hNG nx hnx
        · intro l hl
          rw [hsfxp] at hl
          exact hSfx l hl
        · intro c l hc hl
          rw [hsubp] at hc
          exact hSub c l hc hl
        · rw [htgp, hTG]
      | mainUntilEOL =>
        simp only [exec] at h
        obtain ⟨tl, hstep, rfl⟩ := tcons_eq_some h
        obtain ⟨-, hnext, hsfxp, hsubp, htgp⟩ := stepMainUntilEOL_c10 hstep
        exact post_of_preserve hnext hsfxp hsubp htgp hSpec hSfx hSub hTG
      | litUntilEOL =>
        simp only [exec] at h
        obtain ⟨tl, hstep, rfl⟩ := tcons_eq_some h
        obtain ⟨-, hnext, hsfxp, hsubp, htgp⟩ :=
          stepInnerPreserve_c10 (Or.inl hstep)
        exact post_of_preserve hnext hsfxp hsubp htgp hSpec hSfx hSub hTG
      | subUntilEOL =>
        simp only [exec] at h
        obtain ⟨tl, hstep, rfl⟩ := tcons_eq_some h
        obtain ⟨-, hnext, hsfxp, hsubp, htgp⟩ :=
          stepInnerPreserve_c10 (Or.inr (Or.inl hstep))
        exact post_of_preserve hnext hsfxp hsubp htgp hSpec hSfx hSub hTG
      | untilSubInnerClose =>
        simp only [exec] at h
        obtain ⟨tl, hstep, rfl⟩ := tcons_eq_some h
        obtain ⟨-, hnext, hsfxp, hsubp, htgp⟩ :=
          stepInnerPreserve_c10 (Or.inr (Or.inr (Or.inl hstep)))
        exact post_of_preserve hnext hsfxp hsubp htgp hSpec hSfx hSub hTG
      | delimOpen =>
        simp only [exec] at h
        obtain ⟨tl, hstep, rfl⟩ := tcons_eq_some h
        obtain ⟨-, hnext, hsfxp, hsubp, htgp⟩ :=
          stepInnerPreserve_c10 (Or.inr (Or.inr (Or.inr (Or.inl hstep))))
        exact post_of_preserve hnext hsfxp hsubp htgp hSpec hSfx hSub hTG
      | litAtSOL =>
        simp only [exec] at h
        obtain ⟨tl, hstep, rfl⟩ := tcons_eq_some h
        unfold stepLitAtSOL at hstep
        exact ih _ _ _ _ _ (by exact ⟨hNG, hSfx, hSub, hTG, hSpec⟩) hstep
      | litFinalizeToMain =>
        simp only [exec] at h
        obtain ⟨tl, hstep, rfl⟩ := tcons_eq_some h
        obtain ⟨-, hnext, htgp, hd⟩ :=
          stepFinally_c10 (Or.inr (Or.inr (Or.inr hstep)))
        exact post_of_finally hnext htgp hd hSpec hSfx hSub hTG
      | subAtSOL =>
        simp only [exec] at h
        obtain ⟨tl, hstep, rfl⟩ := tcons_eq_some h
        unfold stepSubAtSOL at hstep
        split at hstep
        · exact absurd hstep (by simp)
        · exact ih _ _ _ _ _ (by exact ⟨hNG, hSfx, hSub, hTG, hSpec⟩) hstep
      | finalizeToDelim =>
        simp only [exec] at h
        obtain ⟨tl, hstep, rfl⟩ := tcons_eq_some h
        unfold stepFinalizeToDelim at hstep
        split at hstep
        · exact absurd hstep (by simp)
        · split at hstep
          · obtain ⟨-, hnext, htgp, hd⟩ := stepFinally_c10 (Or.inl hstep)
            exact post_of_finally hnext htgp hd hSpec hSfx hSub hTG
          · obtain ⟨-, hnext, hsfxp, hsubp, htgp⟩ :=
              stepInnerPreserve_c10 (Or.inr (Or.inr (Or.inr (Or.inr hstep))))
            exact post_of_preserve hnext hsfxp hsubp htgp hSpec hSfx hSub hTG
          · obtain ⟨-, hnext, hsfxp, hsubp, htgp⟩ :=
              stepInnerPreserve_c10 (Or.inr (Or.inr (Or.inr (Or.inr hstep))))
            exact post_of_preserve hnext hsfxp hsubp htgp hSpec hSfx hSub hTG
          · exact absurd hstep (by simp)
      | finalizeDirectDelim =>
        simp only [exec] at h
        obtain ⟨tl, hstep, rfl⟩ := tcons_eq_some h
        unfold stepFinalizeDirectDelim at hstep
        split at hstep
        · exact absurd hstep (by simp)
        · split at hstep
          · obtain ⟨-, hnext, htgp, hd⟩ := stepFinally_c10 (Or.inl hstep)
            exact post_of_finally hnext htgp hd hSpec hSfx hSub hTG
          · obtain ⟨-, hnext, htgp, hd⟩ :=
              stepFinally_c10 (Or.inr (Or.inl hstep))
            exact post_of_finally hnext htgp hd hSpec hSfx hSub hTG
          · obtain ⟨-, hnext, htgp, hd⟩ :=
              stepFinally_c10 (Or.inr (Or.inr (Or.inl hstep)))
            exact post_of_finally hnext htgp hd hSpec hSfx hSub hTG
          · exact absurd hstep (by simp)
      | finalizeToNullDelim =>
        simp only [exec] at h
        obtain ⟨tl, hstep, rfl⟩ := tcons_eq_some h
        unfold stepFinalizeToNullDelim at hstep
        split at hstep
        · exact absurd hstep (by simp)
        · split at hstep
          · exact absurd hstep (by simp)
          · obtain ⟨-, hnext, htgp, hd⟩ := stepFinally_c10 (Or.inl hstep)
            exact post_of_finally hnext htgp hd hSpec hSfx hSub hTG
      | delimClose =>
        simp only [exec] at h
        obtain ⟨tl, hstep, rfl⟩ := tcons_eq_some h
        unfold stepDelimClose at hstep
        split at hstep
        · exact absurd hstep (by simp)
        · split at hstep
          · obtain ⟨-, hnext, htgp, hd⟩ :=
              stepFinally_c10 (Or.inr (Or.inl hstep))
            exact post_of_finally hnext htgp hd hSpec hSfx hSub hTG
          · obtain ⟨-, hnext, htgp, hd⟩ :=
              stepFinally_c10 (Or.inr (Or.inr (Or.inl hstep)))
            exact post_of_finally hnext htgp hd hSpec hSfx hSub hTG
          · exact absurd hstep (by simp)

/-- The editor-visible good-state predicate: the `state.next` invariant plus
the goodness conditions and the default token getter. -/
def C10Good (s : Stream) (st : NState σ) : Prop :=
  NextInv s st ∧ NextG st ∧ GoodSfx st ∧ GoodSub st ∧
    st.tokenGetter = TokenGetter.default

/-- At a top-level `token` entry the `state.next` invariant already implies
the per-call `next` specification of the parser about to run. -/
theorem c10spec_of_inv {s : Stream} {st : NState σ} (hInv : NextInv s st) :
    C10Spec (.tag st.parser) s st := by
  cases hp : st.parser
  case untilOpen =>
    refine ⟨hp, ?_⟩
    intro nx hnx
    rcases hInv nx hnx with ⟨h1, ⟨-, h3⟩ | hs⟩
    · exact ⟨h1, h3⟩
    · rw [hp] at hs
      cases hs
  case startSubP => trivial
  all_goals
    show st.next = none
    cases hN : st.next with
    | none => rfl
    | some nx =>
      rcases hInv nx hN with ⟨-, ⟨hu, -⟩ | hs⟩
      · rw [hp] at hu
        cases hu
      · rw [hp] at hs
        cases hs

/-- C10: for a machine whose configurations are good (non-empty literal string
opens, no dynamic `start` callbacks, recursively good suffixes) and whose host
mode always advances the cursor, `state.next` is transient: the start state is
good, every `token` call from a good state returns a good state — so in
particular a return with the line exhausted carries `state.next = none` —
and `copyState`, which does not carry `next` over, loses nothing: a copy never
has a `next` and copying a good state yields a good state. -/
theorem next_is_transient (M : Machine σ) (hGM : ∀ c ∈ M.configs, GoodC c)
    (hMP : MProg M.mainMode) :
    (∀ s : Stream, C10Good s (startState M)) ∧
    (∀ (fuel : Nat) (s : Stream) (st : NState σ) (r : Res σ)
        (tr : List TraceE),
      C10Good s st → token M fuel s st = some (r, tr) →
        C10Good r.2.1 r.2.2 ∧
          (r.2.1.string.length ≤ r.2.1.pos → r.2.2.next = none)) ∧
    (∀ st : NState σ, (copyState M st).next = none) ∧
    (∀ (s : Stream) (st : NState σ), C10Good s st →
      C10Good s (copyState M st)) := by
  refine ⟨?_, ?_, ?_, ?_⟩
  · intro s
    refine ⟨?_, ?_, ?_, ?_, rfl⟩
    · intro nx h
      cases h
    · intro nx h
      cases h
    · intro l hl
      cases hl
    · intro c l hc
      cases hc
  · intro fuel s st r tr hG htok
    obtain ⟨hInv, hNG, hSfx, hSub, hTG⟩ := hG
    have htok2 : exec M fuel (.tag st.parser) s st = some (r, tr) := htok
    have hpost := exec_next M hGM hMP fuel _ s st r tr
      (by exact ⟨hNG, hSfx, hSub, hTG, c10spec_of_inv hInv⟩) htok2
    obtain ⟨hInv2, hNG2, hSfx2, hSub2, hTG2⟩ := hpost
    refine ⟨⟨hInv2, hNG2, hSfx2, hSub2, hTG2⟩, ?_⟩
    intro hex
    cases hN : r.2.2.next with
    | none => rfl
    | some nx =>
      have := (hInv2 nx hN).1
      omega
  · intro st
    rfl
  · intro s st hG
    obtain ⟨hInv, hNG, hSfx, hSub, hTG⟩ := hG
    refine ⟨?_, ?_, ?_, ?_, ?_⟩
    · intro nx h
      simp [copyState] at h
    · intro nx h
      simp [copyState] at h
    · intro l hl
      simp only [copyState] at hl
      exact hSfx l hl
    · intro c l hc
      simp only [copyState] at hc
      exact hSub c l hc
    · show st.tokenGetter = TokenGetter.default
      exact hTG

/-- Witness for C10: the theorem applied to the `#` machine — its single
configuration is good, the host mode advances, and a copied start state has
no `next`. -/
theorem next_is_transient_witness :
    GoodC Demo.hashConf ∧ MProg Demo.hashMachine.mainMode ∧
      (copyState Demo.hashMachine (startState Demo.hashMachine)).next = none := by
  have hg : GoodC Demo.hashConf :=
    GoodC.intro _ ⟨['#'], rfl, by simp⟩ rfl (fun l hl => by cases hl)
  have hgm : ∀ c ∈ Demo.hashMachine.configs, GoodC c := by
    intro c hc
    have hcc : c = Demo.hashConf := by
      simpa [Demo.hashMachine] using hc
    rw [hcc]
    exact hg
  have hmp : MProg Demo.hashMachine.mainMode := by
    intro str p ms hp
    exact ⟨hp, Nat.le_refl _⟩
  exact ⟨hg, hmp,
    (next_is_transient Demo.hashMachine hgm hmp).2.2.1
      (startState Demo.hashMachine)⟩

/-! ## C4 — progress of `token` -/

/-- A machine with the single zero-width-open configuration (`/(?=)/`-style
open). -/
def Demo.zwMachine : Machine Nat :=
  { mainMode := Demo.hostMode, configs := [Demo.zwConfA] }

/-- A mode whose token always advances the cursor by exactly one (also on an
exhausted stream). -/
def Demo.advMode : Mode Nat :=
  { startState := 0, token := fun _ p st => (some "adv", p + 1, st) }

/-- `{open: "#", mode: advMode}` — a configuration meeting every progress
precondition. -/
def Demo.advConf : Conf Nat :=
  .mk (some (.lit ['#'])) none (some (.obj Demo.advMode))
    false false false none none false none 0 none [] none

/-- The nesting mode built from `advMode` and `advConf`. -/
def Demo.advMachine : Machine Nat :=
  { mainMode := Demo.advMode, configs := [Demo.advConf] }

/-- The strict mode-progress contract: a token call always advances the
cursor, also when the addon hands the mode an already exhausted (empty)
region. -/
def MAdv (md : Mode σ) : Prop :=
  ∀ (str : Str) (p : Nat) (ms : σ), p < (md.token str p ms).2.1

/-- A close pattern that is absent or a non-empty literal-string delimiter. -/
def CloseLit (c : Conf σ) : Prop :=
  c.close = none ∨ ∃ w, c.close = some (Pattern.lit w) ∧ w ≠ []

/-- A configuration under the progress contract: consuming literal open, no
dynamic `start` callback, a strictly advancing mode, an absent or non-empty
literal close, and recursively good suffixes. -/
inductive AdvC : Conf σ → Prop where
  | intro : ∀ c : Conf σ, GoodOpen c → c.start = none →
      (∀ md, c.mode = some (ModeRef.obj md) → MAdv md) →
      CloseLit c →
      (∀ l, c.suffixes = some l → ∀ c2 ∈ l, AdvC c2) → AdvC c

theorem AdvC.advOpen {c : Conf σ} (h : AdvC c) : GoodOpen c := by
  cases h
  assumption

theorem AdvC.advStart {c : Conf σ} (h : AdvC c) : c.start = none := by
  cases h
  assumption

theorem AdvC.modeAdv {c : Conf σ} (h : AdvC c) :
    ∀ md, c.mode = some (ModeRef.obj md) → MAdv md := by
  cases h
  assumption

theorem AdvC.closeLit {c : Conf σ} (h : AdvC c) : CloseLit c := by
  cases h
  assumption

theorem AdvC.advSfx {c : Conf σ} (h : AdvC c) :
    ∀ l, c.suffixes = some l → ∀ c2 ∈ l, AdvC c2 := by
  cases h
  assumption

theorem setMode_mode (m : Option (ModeRef σ)) (c : Conf σ) :
    (c.setMode m).mode = m := by
  cases c
  rfl

theorem setMode_literal (m : Option (ModeRef σ)) (c : Conf σ) :
    (c.setMode m).literal = c.literal := by
  cases c
  rfl

theorem setMode_close (m : Option (ModeRef σ)) (c : Conf σ) :
    (c.setMode m).close = c.close := by
  cases c
  rfl

theorem setMode_modeObj_obj (md : Mode σ) (c : Conf σ) :
    (c.setMode (some (ModeRef.obj md))).modeObj = some md := by
  cases c
  rfl

theorem modeObj_eq {c : Conf σ} {md : Mode σ} (h : c.modeObj = some md) :
    c.mode = some (ModeRef.obj md) := by
  unfold Conf.modeObj at h
  split at h
  · next m2 heq =>
    cases h
    exact heq
  · exact absurd h (by simp)

theorem resolveMode_close (M : Machine σ) (c : Conf σ) :
    (Conf.resolveMode M c).close = c.close := by
  unfold Conf.resolveMode
  split
  · rw [setMode_close]
  · rfl

theorem resolveMode_literal (M : Machine σ) (c : Conf σ) :
    (Conf.resolveMode M c).literal = c.literal := by
  unfold Conf.resolveMode
  split
  · rw [setMode_literal]
  · rfl

theorem startConfig_of_none {M : Machine σ} {c : Conf σ}
    (hs : c.start = none) (m : MatchRes) :
    c.startConfig M m = Conf.resolveMode M c := by
  unfold Conf.startConfig
  rw [hs]

theorem startConfig_close {M : Machine σ} {c : Conf σ}
    (hs : c.start = none) (m : MatchRes) :
    (c.startConfig M m).close = c.close := by
  rw [startConfig_of_none hs]
  exact resolveMode_close M c

theorem startConfig_modeObj {M : Machine σ} {c : Conf σ} (hs : c.start = none)
    (hAdv : ∀ md, c.mode = some (ModeRef.obj md) → MAdv md)
    (hReg : ∀ n md, M.getMode n = some md → MAdv md) (m : MatchRes) :
    ∀ md, (c.startConfig M m).modeObj = some md → MAdv md := by
  intro md hmd
  rw [startConfig_of_none hs] at hmd
  have hm := modeObj_eq hmd
  unfold Conf.resolveMode at hm
  split at hm
  · next n heqn =>
    rw [setMode_mode] at hm
    cases hg : M.getMode n with
    | none =>
      rw [hg] at hm
      cases hm
    | some md2 =>
      rw [hg] at hm
      simp only [Option.map_some', Option.some.injEq, ModeRef.obj.injEq] at hm
      cases hm
      exact hReg n md hg
  · exact hAdv md hm

theorem variant_staticV_not_literal {c : Conf σ}
    (h : c.variant = Conf.Variant.staticV) : c.literal = false := by
  unfold Conf.variant at h
  cases hl : c.literal
  · rfl
  · rw [hl] at h
    simp at h

theorem searchClose_lit {c : Conf σ} {s : Stream} {from_ : Nat} {e : MatchRes}
    {w : Str} (hcl : c.close = some (Pattern.lit w))
    (h : c.searchClose s from_ = some e) : e.text = w := by
  unfold Conf.searchClose at h
  rw [hcl] at h
  exact (lit_exec_bound h).1

theorem searchClose_noclose {c : Conf σ} {s : Stream} {from_ : Nat}
    {e : MatchRes} (hcl : c.close = none)
    (h : c.searchClose s from_ = some e) : e.text = [] := by
  unfold Conf.searchClose at h
  rw [hcl] at h
  by_cases hb : (from_ == 0 && s.sol) = true
  · rw [if_pos hb] at h
    cases h
    rfl
  · rw [if_neg hb] at h
    cases h

/-- The active sub configuration satisfies the progress contract: advancing
mode, a usable close shape (unless it is a literal fake activation), and
suffixes under the contract. -/
def SubOK (st : NState σ) : Prop :=
  ∀ c, st.subConf = some c →
    (∀ md, c.modeObj = some md → MAdv md) ∧
    (c.literal = true ∨ CloseLit c) ∧
    (∀ l, c.suffixes = some l → ∀ c2 ∈ l, AdvC c2)

/-- All registered suffix configurations are under the progress contract. -/
def SfxA (st : NState σ) : Prop :=
  ∀ l, st.suffixes = some l → ∀ c ∈ l, AdvC c

/-- The registered next entry is under the progress contract and its match
consumed characters. -/
def NxtA (st : NState σ) : Prop :=
  ∀ nx : NextEntry σ, st.next = some nx → AdvC nx.conf ∧ nx.nmatch.text ≠ []

/-- When the stored parser is a static-variant close step, the active close is
a non-empty literal (it was re-found by `finalizeToDelim` mid-line). -/
def CloseOK4 (st : NState σ) : Prop :=
  ∀ c, st.subConf = some c →
    (st.parser = ParserTag.delimClose ∨
      st.parser = ParserTag.finalizeDirectDelim) →
    c.variant = Conf.Variant.staticV →
    ∃ w, c.close = some (Pattern.lit w) ∧ w ≠ []

/-- The progress-good editor state. -/
def C4Good (st : NState σ) : Prop :=
  st.tokenGetter = TokenGetter.default ∧ SubOK st ∧ SfxA st ∧ NxtA st ∧
    CloseOK4 st

/-- The call-point-specific part of the progress precondition. -/
def C4Spec : Call σ → NState σ → Prop
  | .tag .mainEntry, st =>
    st.parser ≠ ParserTag.delimClose ∧
      st.parser ≠ ParserTag.finalizeDirectDelim
  | .tag .startSubP, st =>
    st.parser ≠ ParserTag.delimClose ∧
      st.parser ≠ ParserTag.finalizeDirectDelim
  | .tag .delimClose, st => st.parser = ParserTag.delimClose
  | .tag .finalizeDirectDelim, st => st.parser = ParserTag.finalizeDirectDelim
  | .subEntry m, _ => m.text ≠ []
  | .subContinuation endm _, st =>
    ∀ e, endm = some e → ∀ c, st.subConf = some c →
      c.close = none → e.text = []
  | _, _ => True

theorem closeOK4_of_tag {st : NState σ}
    (h : st.parser ≠ ParserTag.delimClose ∧
      st.parser ≠ ParserTag.finalizeDirectDelim) : CloseOK4 st := by
  intro c hc hp hv
  rcases hp with hp | hp
  · exact absurd hp h.1
  · exact absurd hp h.2

theorem nextConfigs_adv {M : Machine σ} {st : NState σ}
    (hCfg : ∀ c ∈ M.configs, AdvC c) (hSfx : SfxA st) :
    ∀ c ∈ nextConfigs M st, AdvC c := by
  intro c hc
  unfold nextConfigs at hc
  split at hc
  · next sfx hs =>
    rcases List.mem_append.mp hc with h | h
    · exact hSfx _ hs _ h
    · exact hCfg _ h
  · exact hCfg _ hc

theorem sfxA_after_false {M : Machine σ} {s : Stream} {st st1 : NState σ}
    (hSfx : SfxA st) (h : regNextSub M s st = some (false, st1)) :
    SfxA st1 := by
  rcases (regNextSub_false h).2.2.2.2 with h1 | ⟨l, hl, h1⟩
  · intro l2 hl2
    rw [h1] at hl2
    cases hl2
  · intro l2 hl2
    rw [h1] at hl2
    cases hl2
    intro c2 hc2
    exact hSfx l hl c2 (List.mem_filter.mp hc2).1

theorem c4spec_of_tag (st : NState σ) : C4Spec (.tag st.parser) st := by
  cases hp : st.parser
  case mainEntry =>
    exact ⟨by rw [hp]; decide, by rw [hp]; decide⟩
  case startSubP =>
    exact ⟨by rw [hp]; decide, by rw [hp]; decide⟩
  case delimClose => exact hp
  case finalizeDirectDelim => exact hp
  all_goals exact trivial

theorem subTokWith_adv {w : Conf σ → Option String → Option String}
    {st : NState σ} {s : Stream} {tok : Option String} {s1 : Stream}
    {st1 : NState σ} (hTG : st.tokenGetter = TokenGetter.default)
    (hSA : ∀ c, st.subConf = some c → ∀ md, c.modeObj = some md → MAdv md)
    (h : subTokWith w st s = some (tok, s1, st1)) : s.pos < s1.pos := by
  unfold subTokWith at h
  split at h
  · exact absurd h (by simp)
  · next c hc =>
    split at h
    · next hbs =>
      rw [hTG] at hbs
      cases hbs
    · split at h
      · next ms md hms hmd =>
        simp only [Option.some.injEq, Prod.mk.injEq] at h
        obtain ⟨-, h2, -⟩ := h
        subst h2
        exact hSA c hc md hmd s.string s.pos ms
      · exact absurd h (by simp)

theorem stepMainUntilEOL_adv {M : Machine σ} {s : Stream} {st : NState σ}
    {r : Res σ} {tl : List TraceE} (hg : st.tokenGetter = TokenGetter.default)
    (hMA : MAdv M.mainMode) (h : stepMainUntilEOL M s st = some (r, tl)) :
    s.pos < r.2.1.pos ∧ r.2.2.next = st.next ∧ r.2.2.suffixes = st.suffixes ∧
    r.2.2.subConf = st.subConf ∧ r.2.2.tokenGetter = st.tokenGetter ∧
    (r.2.2.parser = ParserTag.mainEntry ∨ r.2.2.parser = st.parser) := by
  unfold stepMainUntilEOL done at h
  split at h
  next tok s1 st1 heq =>
    rw [applyMainTok_default hg] at heq
    simp only [Prod.mk.injEq] at heq
    obtain ⟨-, h2, h3⟩ := heq
    subst h2
    subst h3
    split at h
    · next s2 heq2 =>
      obtain ⟨hc, rfl⟩ := checkReset_true heq2
      simp only [Option.some.injEq, Prod.mk.injEq] at h
      obtain ⟨h1, h2⟩ := h
      subst h1
      subst h2
      exact ⟨hMA s.string s.pos st.mainState, rfl, rfl, rfl, rfl, Or.inl rfl⟩
    · next s2 heq2 =>
      obtain ⟨hc, rfl⟩ := checkReset_false heq2
      simp only [Option.some.injEq, Prod.mk.injEq] at h
      obtain ⟨h1, h2⟩ := h
      subst h1
      subst h2
      exact ⟨hMA s.string s.pos st.mainState, rfl, rfl, rfl, rfl, Or.inr rfl⟩

theorem stepLitUntilEOL_adv {s : Stream} {st : NState σ} {r : Res σ}
    {tl : List TraceE} (hTG : st.tokenGetter = TokenGetter.default)
    (hSA : ∀ c, st.subConf = some c → ∀ md, c.modeObj = some md → MAdv md)
    (h : stepLitUntilEOL s st = some (r, tl)) :
    s.pos < r.2.1.pos ∧ r.2.2.next = st.next ∧ r.2.2.suffixes = st.suffixes ∧
    r.2.2.subConf = st.subConf ∧ r.2.2.tokenGetter = st.tokenGetter ∧
    (r.2.2.parser = ParserTag.litAtSOL ∨ r.2.2.parser = st.parser) := by
  unfold stepLitUntilEOL done at h
  split at h
  · exact absurd h (by simp)
  · next tok s1 st1 heq =>
    have hadv := subTokWith_adv hTG hSA heq
    have hp := subTokWith_st heq
    split at h
    · next s2 heq2 =>
      obtain ⟨hc, rfl⟩ := checkReset_true heq2
      simp only [Option.some.injEq, Prod.mk.injEq] at h
      obtain ⟨h1, h2⟩ := h
      subst h1
      subst h2
      exact ⟨hadv, by simp [hp.2.2.1], by simp [hp.2.2.2.2.1],
        by simp [hp.2.2.2.1], by simp [hp.2.2.2.2.2.2.2], Or.inl rfl⟩
    · next s2 heq2 =>
      obtain ⟨hc, rfl⟩ := checkReset_false heq2
      simp only [Option.some.injEq, Prod.mk.injEq] at h
      obtain ⟨h1, h2⟩ := h
      subst h1
      subst h2
      exact ⟨hadv, hp.2.2.1, hp.2.2.2.2.1, hp.2.2.2.1, hp.2.2.2.2.2.2.2,
        Or.inr hp.2.1⟩

theorem stepSubUntilEOL_adv {s : Stream} {st : NState σ} {r : Res σ}
    {tl : List TraceE} (hTG : st.tokenGetter = TokenGetter.default)
    (hSA : ∀ c, st.subConf = some c → ∀ md, c.modeObj = some md → MAdv md)
    (h : stepSubUntilEOL s st = some (r, tl)) :
    s.pos < r.2.1.pos ∧ r.2.2.next = st.next ∧ r.2.2.suffixes = st.suffixes ∧
    r.2.2.subConf = st.subConf ∧ r.2.2.tokenGetter = st.tokenGetter ∧
    (r.2.2.parser = ParserTag.subAtSOL ∨ r.2.2.parser = st.parser) := by
  unfold stepSubUntilEOL done at h
  split at h
  · exact absurd h (by simp)
  · next tok s1 st1 heq =>
    have hadv := subTokWith_adv hTG hSA heq
    have hp := subTokWith_st heq
    split at h
    · next s2 heq2 =>
      obtain ⟨hc, rfl⟩ := checkReset_true heq2
      simp only [Option.some.injEq, Prod.mk.injEq] at h
      obtain ⟨h1, h2⟩ := h
      subst h1
      subst h2
      exact ⟨hadv, by simp [hp.2.2.1], by simp [hp.2.2.2.2.1],
        by simp [hp.2.2.2.1], by simp [hp.2.2.2.2.2.2.2], Or.inl rfl⟩
    · next s2 heq2 =>
      obtain ⟨hc, rfl⟩ := checkReset_false heq2
      simp only [Option.some.injEq, Prod.mk.injEq] at h
      obtain ⟨h1, h2⟩ := h
      subst h1
      subst h2
      exact ⟨hadv, hp.2.2.1, hp.2.2.2.2.1, hp.2.2.2.1, hp.2.2.2.2.2.2.2,
        Or.inr hp.2.1⟩

theorem stepUntilSubInner_adv {s : Stream} {st : NState σ} {r : Res σ}
    {tl : List TraceE} (hTG : st.tokenGetter = TokenGetter.default)
    (hSA : ∀ c, st.subConf = some c → ∀ md, c.modeObj = some md → MAdv md)
    (h : stepUntilSubInner s st = some (r, tl)) :
    s.pos < r.2.1.pos ∧ r.2.2.next = st.next ∧ r.2.2.suffixes = st.suffixes ∧
    r.2.2.subConf = st.subConf ∧ r.2.2.tokenGetter = st.tokenGetter ∧
    (r.2.2.parser = ParserTag.subAtSOL ∨ r.2.2.parser = st.parser) := by
  unfold stepUntilSubInner done at h
  split at h
  · exact absurd h (by simp)
  · next tok s1 st1 heq =>
    have hadv := subTokWith_adv hTG hSA heq
    have hp := subTokWith_st heq
    simp only [Option.some.injEq, Prod.mk.injEq] at h
    obtain ⟨h1, h2⟩ := h
    subst h1
    subst h2
    exact ⟨hadv, by simp [hp.2.2.1], by simp [hp.2.2.2.2.1],
      by simp [hp.2.2.2.1], by simp [hp.2.2.2.2.2.2.2], Or.inl rfl⟩

theorem stepDelimOpen_adv {s : Stream} {st : NState σ} {r : Res σ}
    {tl : List TraceE} (hTG : st.tokenGetter = TokenGetter.default)
    (hSA : ∀ c, st.subConf = some c → ∀ md, c.modeObj = some md → MAdv md)
    (h : stepDelimOpen s st = some (r, tl)) :
    s.pos < r.2.1.pos ∧ r.2.2.next = st.next ∧ r.2.2.suffixes = st.suffixes ∧
    r.2.2.subConf = st.subConf ∧ r.2.2.tokenGetter = st.tokenGetter ∧
    (r.2.2.parser = ParserTag.subAtSOL ∨ r.2.2.parser = st.parser) := by
  unfold stepDelimOpen done at h
  split at h
  · exact absurd h (by simp)
  · next tok s1 st1 heq =>
    have hadv := subTokWith_adv hTG hSA heq
    have hp := subTokWith_st heq
    split at h
    · next s2 heq2 =>
      obtain ⟨hc, rfl⟩ := checkReset_true heq2
      simp only [Option.some.injEq, Prod.mk.injEq] at h
      obtain ⟨h1, h2⟩ := h
      subst h1
      subst h2
      exact ⟨hadv, by simp [hp.2.2.1], by simp [hp.2.2.2.2.1],
        by simp [hp.2.2.2.1], by simp [hp.2.2.2.2.2.2.2], Or.inl rfl⟩
    · next s2 heq2 =>
      obtain ⟨hc, rfl⟩ := checkReset_false heq2
      simp only [Option.some.injEq, Prod.mk.injEq] at h
      obtain ⟨h1, h2⟩ := h
      subst h1
      subst h2
      exact ⟨hadv, hp.2.2.1, hp.2.2.2.2.1, hp.2.2.2.1, hp.2.2.2.2.2.2.2,
        Or.inr hp.2.1⟩

theorem stepDelimCloseSep_adv {s : Stream} {st : NState σ} {r : Res σ}
    {tl : List TraceE} (hTG : st.tokenGetter = TokenGetter.default)
    (hSA : ∀ c, st.subConf = some c → ∀ md, c.modeObj = some md → MAdv md)
    (h : stepDelimCloseSep s st = some (r, tl)) :
    s.pos < r.2.1.pos ∧ r.2.2.next = st.next ∧
    r.2.2.tokenGetter = st.tokenGetter ∧
    ((r.2.2.suffixes = st.suffixes ∧ r.2.2.subConf = st.subConf ∧
        r.2.2.parser = st.parser) ∨
      (∃ cf, st.subConf = some cf ∧ r.2.2.suffixes = cf.suffixes ∧
        r.2.2.subConf = none ∧ r.2.2.parser = ParserTag.mainEntry)) := by
  unfold stepDelimCloseSep done at h
  split at h
  · exact absurd h (by simp)
  · next tok s1 st1 heq =>
    have hadv := subTokWith_adv hTG hSA heq
    have hp := subTokWith_st heq
    split at h
    · next s2 heq2 =>
      obtain ⟨hc, rfl⟩ := checkReset_true heq2
      split at h
      · exact absurd h (by simp)
      · next cf hcf =>
        simp only [Option.some.injEq, Prod.mk.injEq] at h
        obtain ⟨h1, h2⟩ := h
        subst h1
        subst h2
        refine ⟨hadv, by simp [finallySub, hp.2.2.1],
          by simp [finallySub, hp.2.2.2.2.2.2.2], Or.inr ⟨cf, ?_, ?_, ?_, ?_⟩⟩
        · rw [← hp.2.2.2.1]
          exact hcf
        · simp [finallySub]
        · simp [finallySub]
        · simp [finallySub]
    · next s2 heq2 =>
      obtain ⟨hc, rfl⟩ := checkReset_false heq2
      simp only [Option.some.injEq, Prod.mk.injEq] at h
      obtain ⟨h1, h2⟩ := h
      subst h1
      subst h2
      exact ⟨hadv, hp.2.2.1, hp.2.2.2.2.2.2.2,
        Or.inl ⟨hp.2.2.2.2.1, hp.2.2.2.1, hp.2.1⟩⟩

theorem stepFinalizeInclude_adv {s : Stream} {st : NState σ} {r : Res σ}
    {tl : List TraceE} (hTG : st.tokenGetter = TokenGetter.default)
    (hSA : ∀ c, st.subConf = some c → ∀ md, c.modeObj = some md → MAdv md)
    (h : stepFinalizeInclude s st = some (r, tl)) :
    s.pos < r.2.1.pos ∧ r.2.2.next = st.next ∧
    r.2.2.tokenGetter = st.tokenGetter ∧
    ((r.2.2.suffixes = st.suffixes ∧ r.2.2.subConf = st.subConf ∧
        r.2.2.parser = st.parser) ∨
      (∃ cf, st.subConf = some cf ∧ r.2.2.suffixes = cf.suffixes ∧
        r.2.2.subConf = none ∧ r.2.2.parser = ParserTag.mainEntry)) := by
  unfold stepFinalizeInclude done at h
  split at h
  · exact absurd h (by simp)
  · next tok s1 st1 heq =>
    have hadv := subTokWith_adv hTG hSA heq
    have hp := subTokWith_st heq
    split at h
    · next s2 heq2 =>
      obtain ⟨hc, rfl⟩ := checkReset_true heq2
      split at h
      · exact absurd h (by simp)
      · next cf hcf =>
        simp only [Option.some.injEq, Prod.mk.injEq] at h
        obtain ⟨h1, h2⟩ := h
        subst h1
        subst h2
        refine ⟨hadv, by simp [finallySub, hp.2.2.1],
          by simp [finallySub, hp.2.2.2.2.2.2.2], Or.inr ⟨cf, ?_, ?_, ?_, ?_⟩⟩
        · rw [← hp.2.2.2.1]
          exact hcf
        · simp [finallySub]
        · simp [finallySub]
        · simp [finallySub]
    · next s2 heq2 =>
      obtain ⟨hc, rfl⟩ := checkReset_false heq2
      simp only [Option.some.injEq, Prod.mk.injEq] at h
      obtain ⟨h1, h2⟩ := h
      subst h1
      subst h2
      exact ⟨hadv, hp.2.2.1, hp.2.2.2.2.2.2.2,
        Or.inl ⟨hp.2.2.2.2.1, hp.2.2.2.1, hp.2.1⟩⟩

theorem stepLitFinalizeToMain_adv {s : Stream} {st : NState σ} {r : Res σ}
    {tl : List TraceE} (hTG : st.tokenGetter = TokenGetter.default)
    (hSA : ∀ c, st.subConf = some c → ∀ md, c.modeObj = some md → MAdv md)
    (h : stepLitFinalizeToMain s st = some (r, tl)) :
    s.pos < r.2.1.pos ∧ r.2.2.next = st.next ∧
    r.2.2.tokenGetter = st.tokenGetter ∧ r.2.2.suffixes = st.suffixes ∧
    ((r.2.2.subConf = st.subConf ∧ r.2.2.parser = st.parser) ∨
      (r.2.2.subConf = none ∧ r.2.2.parser = ParserTag.mainEntry)) := by
  unfold stepLitFinalizeToMain done at h
  split at h
  · exact absurd h (by simp)
  · next tok s1 st1 heq =>
    have hadv := subTokWith_adv hTG hSA heq
    have hp := subTokWith_st heq
    split at h
    · next s2 heq2 =>
      obtain ⟨hc, rfl⟩ := checkReset_true heq2
      split at h
      · exact absurd h (by simp)
      · next ss hss =>
        simp only [Option.some.injEq, Prod.mk.injEq] at h
        obtain ⟨h1, h2⟩ := h
        subst h1
        subst h2
        exact ⟨hadv, by simp [hp.2.2.1], by simp [hp.2.2.2.2.2.2.2],
          by simp [hp.2.2.2.2.1], Or.inr ⟨by simp, by simp⟩⟩
    · next s2 heq2 =>
      obtain ⟨hc, rfl⟩ := checkReset_false heq2
      simp only [Option.some.injEq, Prod.mk.injEq] at h
      obtain ⟨h1, h2⟩ := h
      subst h1
      subst h2
      exact ⟨hadv, hp.2.2.1, hp.2.2.2.2.2.2.2, hp.2.2.2.2.1,
        Or.inl ⟨hp.2.2.2.1, hp.2.1⟩⟩

theorem stepFinalizeToDelimSep_adv {s : Stream} {st : NState σ} {r : Res σ}
    {tl : List TraceE} (hTG : st.tokenGetter = TokenGetter.default)
    (hSA : ∀ c, st.subConf = some c → ∀ md, c.modeObj = some md → MAdv md)
    (h : stepFinalizeToDelimSep s st = some (r, tl)) :
    s.pos < r.2.1.pos ∧ r.2.2.next = st.next ∧
    r.2.2.tokenGetter = st.tokenGetter ∧ r.2.2.suffixes = st.suffixes ∧
    r.2.2.subConf = st.subConf ∧
    (r.2.2.parser = st.parser ∨
      (r.2.2.parser = ParserTag.delimClose ∧
        ∀ cf, st.subConf = some cf → cf.close ≠ none)) := by
  unfold stepFinalizeToDelimSep done at h
  split at h
  · exact absurd h (by simp)
  · next tok s1 st1 heq =>
    have hadv := subTokWith_adv hTG hSA heq
    have hp := subTokWith_st heq
    split at h
    · next s2 heq2 =>
      obtain ⟨hc, rfl⟩ := checkReset_true heq2
      split at h
      · exact absurd h (by simp)
      · next cf hcf =>
        split at h
        · exact absurd h (by simp)
        · next e heq3 =>
          simp only [Option.some.injEq, Prod.mk.injEq] at h
          obtain ⟨h1, h2⟩ := h
          subst h1
          subst h2
          refine ⟨hadv, by simp [hp.2.2.1], by simp [hp.2.2.2.2.2.2.2],
            by simp [hp.2.2.2.2.1], by simp [hp.2.2.2.1], Or.inr ⟨rfl, ?_⟩⟩
          intro cf2 hcf2 hnone
          obtain rfl : cf = cf2 := by
            rw [hp.2.2.2.1, hcf2] at hcf
            exact (Option.some.inj hcf).symm
          unfold Conf.searchClose at heq3
          rw [hnone] at heq3
          have hb : (({ s1 with string := st1.originalString } : Stream).pos
              == 0) = false := by
            simp only [beq_eq_false_iff_ne]
            show s1.pos ≠ 0
            omega
          rw [hb] at heq3
          simp at heq3
    · next s2 heq2 =>
      obtain ⟨hc, rfl⟩ := checkReset_false heq2
      simp only [Option.some.injEq, Prod.mk.injEq] at h
      obtain ⟨h1, h2⟩ := h
      subst h1
      subst h2
      exact ⟨hadv, hp.2.2.1, hp.2.2.2.2.2.2.2, hp.2.2.2.2.1, hp.2.2.2.1,
        Or.inl hp.2.1⟩

theorem stepDelimCloseStatic_adv {s : Stream} {st : NState σ} {r : Res σ}
    {tl : List TraceE} {c : Conf σ} {w : Str}
    (hc : st.subConf = some c) (hw : c.close = some (Pattern.lit w))
    (hwne : w ≠ []) (h : stepDelimCloseStatic s st = some (r, tl)) :
    s.pos < r.2.1.pos ∧ r.2.2.next = st.next ∧
    r.2.2.tokenGetter = st.tokenGetter ∧ r.2.2.subConf = none ∧
    r.2.2.suffixes = c.suffixes ∧ r.2.2.parser = ParserTag.mainEntry := by
  unfold stepDelimCloseStatic done at h
  split at h
  · exact absurd h (by simp)
  · next c2 hc2 =>
    obtain rfl : c2 = c := by
      rw [hc] at hc2
      exact (Option.some.inj hc2).symm
    split at h
    · exact absurd h (by simp)
    · next e heq =>
      have htext : e.text = w := searchClose_lit hw heq
      simp only [Option.some.injEq, Prod.mk.injEq] at h
      obtain ⟨h1, h2⟩ := h
      subst h1
      subst h2
      have hw1 : 1 ≤ w.length := List.length_pos.mpr hwne
      refine ⟨?_, by simp [finallySub], by simp [finallySub],
        by simp [finallySub], by simp [finallySub], by simp [finallySub]⟩
      show s.pos < s.pos + e.text.length
      rw [htext]
      omega

theorem setFinalString_pos (c : Conf σ) (s : Stream) (e : MatchRes)
    (from_ : Nat) : (setFinalString c s e from_).pos = s.pos := by
  unfold setFinalString
  split <;> rfl

theorem c4good_of_preserve {st st2 : NState σ}
    (hnext : st2.next = st.next) (hsfx : st2.suffixes = st.suffixes)
    (hsub : st2.subConf = st.subConf) (htg : st2.tokenGetter = st.tokenGetter)
    (hpar : st2.parser = st.parser ∨
      (st2.parser ≠ ParserTag.delimClose ∧
        st2.parser ≠ ParserTag.finalizeDirectDelim))
    (hG : C4Good st) : C4Good st2 := by
  obtain ⟨hTG, hSub, hSfx, hNxt, hCO⟩ := hG
  refine ⟨by rw [htg]; exact hTG, ?_, ?_, ?_, ?_⟩
  · intro c hc
    rw [hsub] at hc
    exact hSub c hc
  · intro l hl
    rw [hsfx] at hl
    exact hSfx l hl
  · intro nx hn
    rw [hnext] at hn
    exact hNxt nx hn
  · rcases hpar with hpar | hpar
    · intro c hc hp hv
      rw [hsub] at hc
      rw [hpar] at hp
      exact hCO c hc hp hv
    · exact closeOK4_of_tag hpar

theorem c4good_of_finally {st st2 : NState σ}
    (hnext : st2.next = st.next) (htg : st2.tokenGetter = st.tokenGetter)
    (hd : (st2.suffixes = st.suffixes ∧ st2.subConf = st.subConf ∧
        st2.parser = st.parser) ∨
      (∃ cf, st.subConf = some cf ∧ st2.suffixes = cf.suffixes ∧
        st2.subConf = none ∧ st2.parser = ParserTag.mainEntry))
    (hG : C4Good st) : C4Good st2 := by
  obtain ⟨hTG, hSub, hSfx, hNxt, hCO⟩ := hG
  rcases hd with ⟨h1, h2, h3⟩ | ⟨cf, hcf, h1, h2, h3⟩
  · refine ⟨by rw [htg]; exact hTG, ?_, ?_, ?_, ?_⟩
    · intro c hc
      rw [h2] at hc
      exact hSub c hc
    · intro l hl
      rw [h1] at hl
      exact hSfx l hl
    · intro nx hn
      rw [hnext] at hn
      exact hNxt nx hn
    · intro c hc hp hv
      rw [h2] at hc
      rw [h3] at hp
      exact hCO c hc hp hv
  · refine ⟨by rw [htg]; exact hTG, ?_, ?_, ?_, ?_⟩
    · intro c hc
      rw [h2] at hc
      cases hc
    · intro l hl
      rw [h1] at hl
      exact (hSub cf hcf).2.2 l hl
    · intro nx hn
      rw [hnext] at hn
      exact hNxt nx hn
    · intro c hc hp hv
      rw [h2] at hc
      cases hc

theorem finInclude_c4 {s : Stream} {st : NState σ} {r : Res σ}
    {tl : List TraceE} (hG : C4Good st)
    (h : stepFinalizeInclude s st = some (r, tl) ∨
      stepDelimCloseSep s st = some (r, tl)) :
    s.pos < r.2.1.pos ∧ C4Good r.2.2 := by
  obtain ⟨hTG, hSub, hSfx, hNxt, hCO⟩ := hG
  rcases h with h | h
  · obtain ⟨hadv, hnext, htg, hd⟩ :=
      stepFinalizeInclude_adv hTG (fun c2 hc2 => (hSub c2 hc2).1) h
    exact ⟨hadv, c4good_of_finally hnext htg hd ⟨hTG, hSub, hSfx, hNxt, hCO⟩⟩
  · obtain ⟨hadv, hnext, htg, hd⟩ :=
      stepDelimCloseSep_adv hTG (fun c2 hc2 => (hSub c2 hc2).1) h
    exact ⟨hadv, c4good_of_finally hnext htg hd ⟨hTG, hSub, hSfx, hNxt, hCO⟩⟩

theorem finToDelimSep_c4 {s : Stream} {st : NState σ} {r : Res σ}
    {tl : List TraceE} (hG : C4Good st)
    (h : stepFinalizeToDelimSep s st = some (r, tl)) :
    s.pos < r.2.1.pos ∧ C4Good r.2.2 := by
  obtain ⟨hTG, hSub, hSfx, hNxt, hCO⟩ := hG
  obtain ⟨hadv, hnext, htg, hsfx, hsub, hpc⟩ :=
    stepFinalizeToDelimSep_adv hTG (fun c2 hc2 => (hSub c2 hc2).1) h
  refine ⟨hadv, ?_⟩
  rcases hpc with hpc | ⟨hpc, hcl⟩
  · exact c4good_of_preserve hnext hsfx hsub htg (Or.inl hpc)
      ⟨hTG, hSub, hSfx, hNxt, hCO⟩
  · refine ⟨by rw [htg]; exact hTG, ?_, ?_, ?_, ?_⟩
    · intro c hc
      rw [hsub] at hc
      exact hSub c hc
    · intro l hl
      rw [hsfx] at hl
      exact hSfx l hl
    · intro nx hn
      rw [hnext] at hn
      exact hNxt nx hn
    · intro c hc hp hv
      rw [hsub] at hc
      have hlit : c.literal = false := variant_staticV_not_literal hv
      rcases (hSub c hc).2.1 with hl | hcl2
      · rw [hlit] at hl
        cases hl
      · rcases hcl2 with hnone | ⟨w, hw, hwne⟩
        · exact absurd hnone (hcl c hc)
        · exact ⟨w, hw, hwne⟩

theorem closeStatic_c4 {s : Stream} {st : NState σ} {r : Res σ}
    {tl : List TraceE} {c : Conf σ} (hG : C4Good st)
    (hc : st.subConf = some c)
    (hw : ∃ w, c.close = some (Pattern.lit w) ∧ w ≠ [])
    (h : stepDelimCloseStatic s st = some (r, tl)) :
    s.pos < r.2.1.pos ∧ C4Good r.2.2 := by
  obtain ⟨hTG, hSub, hSfx, hNxt, hCO⟩ := hG
  obtain ⟨w, hwl, hwne⟩ := hw
  obtain ⟨hadv, hnext, htg, hsubn, hsfxc, hpar⟩ :=
    stepDelimCloseStatic_adv hc hwl hwne h
  refine ⟨hadv, by rw [htg]; exact hTG, ?_, ?_, ?_, ?_⟩
  · intro c2 hc2
    rw [hsubn] at hc2
    cases hc2
  · intro l hl
    rw [hsfxc] at hl
    exact (hSub c hc).2.2 l hl
  · intro nx hn
    rw [hnext] at hn
    exact hNxt nx hn
  · intro c2 hc2 hp hv
    rw [hsubn] at hc2
    cases hc2

theorem subEndPath_adv {M : Machine σ} {n : Nat}
    (ih : ∀ (c : Call σ) (s : Stream) (st : NState σ) (r : Res σ)
      (tr : List TraceE), C4Good st → C4Spec c st →
      exec M n c s st = some (r, tr) → s.pos < r.2.1.pos ∧ C4Good r.2.2)
    {c : Conf σ} {endm : Option MatchRes} {cursor : Nat} {s : Stream}
    {st0 : NState σ} {r : Res σ} {tl : List TraceE}
    (hG : C4Good st0) (hc : st0.subConf = some c)
    (hend : ∀ e, endm = some e → c.close = none → e.text = [])
    (h : subEndPath (exec M n) c endm cursor s st0 = some (r, tl)) :
    s.pos < r.2.1.pos ∧ C4Good r.2.2 := by
  obtain ⟨hTG, hSub, hSfx, hNxt, hCO⟩ := hG
  unfold subEndPath at h
  split at h
  · next e =>
    split at h
    · split at h
      · -- zero-width close at the line start: back to the main parser
        have hpre : C4Good (finallySub c st0) := by
          refine ⟨by exact hTG, ?_, ?_, by exact hNxt, ?_⟩
          · intro c2 hc2
            cases hc2
          · intro l hl
            exact (hSub c hc).2.2 l hl
          · exact closeOK4_of_tag ⟨by simp [finallySub], by simp [finallySub]⟩
        have hspec2 : C4Spec (Call.tag ParserTag.mainEntry) (finallySub c st0) :=
          ⟨by simp [finallySub], by simp [finallySub]⟩
        exact ih _ _ _ _ _ hpre hspec2 h
      · -- direct delimiter finalize with a consuming close
        next hne =>
        have hpre : C4Good { st0 with parser := ParserTag.finalizeDirectDelim } := by
          refine ⟨by exact hTG, by exact hSub, by exact hSfx, by exact hNxt, ?_⟩
          intro c2 hc2 hp hv
          obtain rfl : c = c2 := by
            rw [hc] at hc2
            exact Option.some.inj hc2
          have hlit : c.literal = false := variant_staticV_not_literal hv
          rcases (hSub c hc).2.1 with hl | hcl
          · rw [hlit] at hl
            cases hl
          · rcases hcl with hnone | ⟨w, hw, hwne⟩
            · have h0 : e.text = [] := hend e rfl hnone
              rw [h0] at hne
              simp at hne
            · exact ⟨w, hw, hwne⟩
        have hspec2 : C4Spec (Call.tag ParserTag.finalizeDirectDelim)
            { st0 with parser := ParserTag.finalizeDirectDelim } := rfl
        obtain ⟨h1, h2⟩ := ih _ _ _ _ _ hpre hspec2 h
        exact ⟨h1, h2⟩
    · split at h
      · have hpre : C4Good { st0 with parser := ParserTag.finalizeToNullDelim } := by
          refine ⟨by exact hTG, by exact hSub, by exact hSfx, by exact hNxt, ?_⟩
          exact closeOK4_of_tag ⟨by simp, by simp⟩
        have hspec2 : C4Spec (Call.tag ParserTag.finalizeToNullDelim)
            { st0 with parser := ParserTag.finalizeToNullDelim } := trivial
        obtain ⟨h1, h2⟩ := ih _ _ _ _ _ hpre hspec2 h
        rw [setFinalString_pos] at h1
        exact ⟨h1, h2⟩
      · have hpre : C4Good { st0 with parser := ParserTag.finalizeToDelim } := by
          refine ⟨by exact hTG, by exact hSub, by exact hSfx, by exact hNxt, ?_⟩
          exact closeOK4_of_tag ⟨by simp, by simp⟩
        have hspec2 : C4Spec (Call.tag ParserTag.finalizeToDelim)
            { st0 with parser := ParserTag.finalizeToDelim } := trivial
        obtain ⟨h1, h2⟩ := ih _ _ _ _ _ hpre hspec2 h
        rw [setFinalString_pos] at h1
        exact ⟨h1, h2⟩
  · have hpre : C4Good { st0 with parser := ParserTag.subUntilEOL } := by
      refine ⟨by exact hTG, by exact hSub, by exact hSfx, by exact hNxt, ?_⟩
      exact closeOK4_of_tag ⟨by simp, by simp⟩
    have hspec2 : C4Spec (Call.tag ParserTag.subUntilEOL)
        { st0 with parser := ParserTag.subUntilEOL } := trivial
    exact ih _ _ _ _ _ hpre hspec2 h

theorem litPop_adv {M : Machine σ} {n : Nat}
    (ih : ∀ (c : Call σ) (s : Stream) (st : NState σ) (r : Res σ)
      (tr : List TraceE), C4Good st → C4Spec c st →
      exec M n c s st = some (r, tr) → s.pos < r.2.1.pos ∧ C4Good r.2.2)
    {active : Conf σ} {endm : MatchRes} {cursor : Nat} {s : Stream}
    {st : NState σ} {r : Res σ} {tl : List TraceE} (hG : C4Good st)
    (h : litPop (exec M n) active endm cursor s st = some (r, tl)) :
    s.pos < r.2.1.pos ∧ C4Good r.2.2 := by
  obtain ⟨hTG, hSub, hSfx, hNxt, hCO⟩ := hG
  unfold litPop at h
  split at h
  · split at h
    · have hpre : C4Good { st with literals := st.literals.dropLast, parser := ParserTag.litFinalizeToMain } := by
        refine ⟨by exact hTG, by exact hSub, by exact hSfx, by exact hNxt, ?_⟩
        exact closeOK4_of_tag ⟨by simp, by simp⟩
      have hspec2 : C4Spec (Call.tag ParserTag.litFinalizeToMain) { st with literals := st.literals.dropLast, parser := ParserTag.litFinalizeToMain } := trivial
      obtain ⟨h1, h2⟩ := ih _ _ _ _ _ hpre hspec2 h
      exact ⟨h1, h2⟩
    · split at h
      · exact absurd h (by simp)
      · next sc hsc =>
        refine ih _ _ _ _ _
          (by exact ⟨hTG, hSub, hSfx, hNxt, hCO⟩) ?_ h
        intro e he c2 hc2 hnone
        obtain rfl : sc = c2 := by
          rw [hsc] at hc2
          exact Option.some.inj hc2
        exact searchClose_noclose hnone he
  · have hspec2 : C4Spec (Call.litCheckEnd
        (cursor + endm.index + endm.text.length))
        { st with literals := st.literals.dropLast } := trivial
    exact ih _ _ _ _ _ (by exact ⟨hTG, hSub, hSfx, hNxt, hCO⟩) hspec2 h

/-- The progress lemma: under the progress contract every parser invocation
that returns advances the cursor strictly and preserves the progress-good
state. -/
theorem exec_prog (M : Machine σ) (hMA : MAdv M.mainMode)
    (hReg : ∀ n2 md, M.getMode n2 = some md → MAdv md)
    (hCfg : ∀ c ∈ M.configs, AdvC c) :
    ∀ (n : Nat) (c : Call σ) (s : Stream) (st : NState σ) (r : Res σ)
      (tr : List TraceE),
      C4Good st → C4Spec c st → exec M n c s st = some (r, tr) →
      s.pos < r.2.1.pos ∧ C4Good r.2.2 := by
  intro n
  induction n with
  | zero =>
    intro c s st r tr _ _ h
    simp [exec] at h
  | succ n ih =>
    intro c s st r tr hG hspec h
    obtain ⟨hTG, hSub, hSfx, hNxt, hCO⟩ := hG
    cases c with
    | preStartSubC =>
      simp only [exec] at h
      obtain ⟨tl2, hstep, rfl⟩ := tcons_eq_some h
      unfold stepPreStartSub at hstep
      split at hstep
      · exact absurd hstep (by simp)
      · next nx heq =>
        have hpre : C4Good { st with originalString := s.string, parser := ParserTag.untilOpen } := by
          refine ⟨by exact hTG, by exact hSub, by exact hSfx, by exact hNxt, ?_⟩
          exact closeOK4_of_tag ⟨by simp, by simp⟩
        obtain ⟨h1, h2⟩ := ih _ _ _ _ _ hpre (by exact trivial) hstep
        exact ⟨h1, h2⟩
    | litEntry m conf cursor =>
      simp only [exec] at h
      obtain ⟨tl2, hstep, rfl⟩ := tcons_eq_some h
      unfold stepLitEntry at hstep
      exact ih _ _ _ _ _ (by exact ⟨hTG, hSub, hSfx, hNxt, hCO⟩)
        (by exact trivial) hstep
    | litCheckEnd cursor =>
      simp only [exec] at h
      obtain ⟨tl2, hstep, rfl⟩ := tcons_eq_some h
      unfold stepLitCheckEnd at hstep
      split at hstep
      · exact absurd hstep (by simp)
      · split at hstep
        · exact ih _ _ _ _ _ (by exact ⟨hTG, hSub, hSfx, hNxt, hCO⟩)
            (by exact trivial) hstep
        · have hpre : C4Good { st with parser := ParserTag.litUntilEOL } := by
            refine ⟨by exact hTG, by exact hSub, by exact hSfx, by exact hNxt, ?_⟩
            exact closeOK4_of_tag ⟨by simp, by simp⟩
          exact ih _ _ _ _ _ hpre (by exact trivial) hstep
    | litContinuation endm cursor =>
      simp only [exec] at h
      obtain ⟨tl2, hstep, rfl⟩ := tcons_eq_some h
      unfold stepLitContinuation at hstep
      split at hstep
      · exact absurd hstep (by simp)
      · split at hstep
        · exact absurd hstep (by simp)
        · split at hstep
          · split at hstep
            · exact ih _ _ _ _ _ (by exact ⟨hTG, hSub, hSfx, hNxt, hCO⟩)
                (by exact trivial) hstep
            · exact litPop_adv ih (by exact ⟨hTG, hSub, hSfx, hNxt, hCO⟩) hstep
          · exact litPop_adv ih (by exact ⟨hTG, hSub, hSfx, hNxt, hCO⟩) hstep
    | subEntry m =>
      have hm : m.text ≠ [] := hspec
      simp only [exec] at h
      obtain ⟨tl2, hstep, rfl⟩ := tcons_eq_some h
      unfold stepSubEntry at hstep
      split at hstep
      · exact absurd hstep (by simp)
      · next c hc =>
        split at hstep
        · refine ih _ _ _ _ _ (by exact ⟨hTG, hSub, hSfx, hNxt, hCO⟩) ?_ hstep
          intro e he c2 hc2 hnone
          obtain rfl : c = c2 := by
            rw [hc] at hc2
            exact Option.some.inj hc2
          exact searchClose_noclose hnone he
        · have hpre : C4Good { st with originalString := s.string, parser := ParserTag.delimOpen } := by
            refine ⟨by exact hTG, by exact hSub, by exact hSfx, by exact hNxt, ?_⟩
            exact closeOK4_of_tag ⟨by simp, by simp⟩
          obtain ⟨h1, h2⟩ := ih _ _ _ _ _ hpre (by exact trivial) hstep
          exact ⟨h1, h2⟩
        · unfold done at hstep
          simp only [Option.some.injEq, Prod.mk.injEq] at hstep
          obtain ⟨h1, h2⟩ := hstep
          subst h1
          subst h2
          refine ⟨?_, ?_⟩
          · show s.pos < s.pos + m.text.length
            have := List.length_pos.mpr hm
            omega
          · refine ⟨by exact hTG, by exact hSub, by exact hSfx, by exact hNxt, ?_⟩
            exact closeOK4_of_tag ⟨by simp, by simp⟩
        · exact absurd hstep (by simp)
    | subContinuation endm cursor =>
      have hsp : ∀ e, endm = some e → ∀ c2, st.subConf = some c2 →
          c2.close = none → e.text = [] := hspec
      simp only [exec] at h
      obtain ⟨tl2, hstep, rfl⟩ := tcons_eq_some h
      unfold stepSubContinuation at hstep
      split at hstep
      · exact absurd hstep (by simp)
      · next c hc =>
        split at hstep
        · exact absurd hstep (by simp)
        · split at hstep
          · split at hstep
            · exact ih _ _ _ _ _ (by exact ⟨hTG, hSub, hSfx, hNxt, hCO⟩)
                (by exact trivial) hstep
            · exact subEndPath_adv ih (by exact ⟨hTG, hSub, hSfx, hNxt, hCO⟩)
                (by exact hc) (fun e he => hsp e he c (by exact hc)) hstep
          · exact subEndPath_adv ih (by exact ⟨hTG, hSub, hSfx, hNxt, hCO⟩)
              (by exact hc) (fun e he => hsp e he c (by exact hc)) hstep
    | tag t =>
      cases t with
      | mainEntry =>
        have hne : st.parser ≠ ParserTag.delimClose ∧
            st.parser ≠ ParserTag.finalizeDirectDelim := hspec
        simp only [exec] at h
        obtain ⟨tl2, hstep, rfl⟩ := tcons_eq_some h
        unfold stepMainEntry at hstep
        split at hstep
        · exact absurd hstep (by simp)
        · next st1 heq =>
          obtain ⟨m, conf, rfl, hmem, p, hp, hex⟩ := regNextSub_true heq
          have hAdv := nextConfigs_adv hCfg hSfx conf hmem
          obtain ⟨w, hw, hwne⟩ := hAdv.advOpen
          obtain rfl : p = .lit w := by
            rw [hp] at hw
            exact Option.some.inj hw
          have htw := (lit_exec_bound hex).1
          have hNxtA1 : NxtA { st with next := some ⟨m, conf, m.index != 0⟩ } := by
            intro nx2 hnx2
            obtain rfl : nx2 = ⟨m, conf, m.index != 0⟩ := by
              simpa using hnx2.symm
            refine ⟨hAdv, ?_⟩
            show m.text ≠ []
            rw [htw]
            exact hwne
          split at hstep
          · next nx heq2 =>
            split at hstep
            · exact ih _ _ _ _ _ (by exact ⟨hTG, hSub, hSfx, hNxtA1, hCO⟩)
                (by exact trivial) hstep
            · exact ih _ _ _ _ _ (by exact ⟨hTG, hSub, hSfx, hNxtA1, hCO⟩)
                (by exact hne) hstep
          · next heq2 =>
            simp at heq2
        · next st1 heq =>
          have hparts := regNextSub_false heq
          have hpre : C4Good { st1 with originalString := s.string, parser := ParserTag.mainUntilEOL } := by
            refine ⟨?_, ?_, ?_, ?_, ?_⟩
            · show st1.tokenGetter = _
              rw [hparts.2.2.2.1]
              exact hTG
            · intro c2 hc2
              rw [hparts.2.2.1] at hc2
              exact hSub c2 hc2
            · intro l hl
              exact sfxA_after_false hSfx heq l hl
            · intro nx hn
              rw [hparts.1] at hn
              exact hNxt nx hn
            · exact closeOK4_of_tag ⟨by simp, by simp⟩
          exact ih _ _ _ _ _ hpre (by exact trivial) hstep
      | startSubP =>
        have hne : st.parser ≠ ParserTag.delimClose ∧
            st.parser ≠ ParserTag.finalizeDirectDelim := hspec
        simp only [exec] at h
        obtain ⟨tl2, hstep, rfl⟩ := tcons_eq_some h
        unfold stepStartSub at hstep
        split at hstep
        · exact absurd hstep (by simp)
        · next nx heqn =>
          obtain ⟨hAdv, htext⟩ := hNxt nx heqn
          have hsn := hAdv.advStart
          split at hstep
          · next hlit =>
            have hpre : C4Good { st with next := none, subConf := some ((nx.conf.startConfig M { nx.nmatch with index := 0 }).setMode (some (ModeRef.obj M.mainMode))), subState := some st.mainState, originalString := s.string } := by
              refine ⟨by exact hTG, ?_, by exact hSfx, ?_, ?_⟩
              · intro c2 hc2
                obtain rfl := Option.some.inj hc2
                refine ⟨?_, Or.inl ?_, ?_⟩
                · intro md hmd
                  rw [setMode_modeObj_obj] at hmd
                  obtain rfl := Option.some.inj hmd
                  exact hMA
                · rw [setMode_literal]
                  exact hlit
                · intro l hl
                  rw [setMode_suffixes, startConfig_suffixes hsn] at hl
                  exact hAdv.advSfx l hl
              · intro nx2 hn2
                cases hn2
              · intro c2 hc2 hp hv
                rcases hp with hp | hp
                · exact absurd hp hne.1
                · exact absurd hp hne.2
            exact ih _ _ _ _ _ hpre (by exact trivial) hstep
          · split at hstep
            · exact absurd hstep (by simp)
            · next md hmd =>
              have hpre : C4Good { st with next := none, subConf := some (nx.conf.startConfig M { nx.nmatch with index := 0 }), subState := some md.startState } := by
                refine ⟨by exact hTG, ?_, by exact hSfx, ?_, ?_⟩
                · intro c2 hc2
                  obtain rfl := Option.some.inj hc2
                  refine ⟨?_, Or.inr ?_, ?_⟩
                  · exact startConfig_modeObj hsn hAdv.modeAdv hReg _
                  · unfold CloseLit
                    rw [startConfig_close hsn]
                    exact hAdv.closeLit
                  · intro l hl
                    rw [startConfig_suffixes hsn] at hl
                    exact hAdv.advSfx l hl
                · intro nx2 hn2
                  cases hn2
                · intro c2 hc2 hp hv
                  rcases hp with hp | hp
                  · exact absurd hp hne.1
                  · exact absurd hp hne.2
              exact ih _ _ _ _ _ hpre (by exact htext) hstep
      | untilOpen =>
        simp only [exec] at h
        obtain ⟨tl2, hstep, rfl⟩ := tcons_eq_some h
        obtain ⟨-, hnext, hsfxp, hsubp, htgp, -, hposp, hcase⟩ :=
          stepUntilOpen_c10 hTG hstep
        refine ⟨?_, ?_⟩
        · rw [hposp]
          exact hMA s.string s.pos st.mainState
        · refine c4good_of_preserve hnext hsfxp hsubp htgp ?_
            ⟨hTG, hSub, hSfx, hNxt, hCO⟩
          rcases hcase with ⟨-, -, hpar⟩ | ⟨-, -, hpar⟩
          · exact Or.inr ⟨by rw [hpar]; decide, by rw [hpar]; decide⟩
          · exact Or.inl hpar
      | mainUntilEOL =>
        simp only [exec] at h
        obtain ⟨tl2, hstep, rfl⟩ := tcons_eq_some h
        obtain ⟨hadv, hnext, hsfxp, hsubp, htgp, hpc⟩ :=
          stepMainUntilEOL_adv hTG hMA hstep
        refine ⟨hadv, c4good_of_preserve hnext hsfxp hsubp htgp ?_
          ⟨hTG, hSub, hSfx, hNxt, hCO⟩⟩
        rcases hpc with hpc | hpc
        · exact Or.inr ⟨by rw [hpc]; decide, by rw [hpc]; decide⟩
        · exact Or.inl hpc
      | litUntilEOL =>
        simp only [exec] at h
        obtain ⟨tl2, hstep, rfl⟩ := tcons_eq_some h
        obtain ⟨hadv, hnext, hsfxp, hsubp, htgp, hpc⟩ :=
          stepLitUntilEOL_adv hTG (fun c2 hc2 => (hSub c2 hc2).1) hstep
        refine ⟨hadv, c4good_of_preserve hnext hsfxp hsubp htgp ?_
          ⟨hTG, hSub, hSfx, hNxt, hCO⟩⟩
        rcases hpc with hpc | hpc
        · exact Or.inr ⟨by rw [hpc]; decide, by rw [hpc]; decide⟩
        · exact Or.inl hpc
      | subUntilEOL =>
        simp only [exec] at h
        obtain ⟨tl2, hstep, rfl⟩ := tcons_eq_some h
        obtain ⟨hadv, hnext, hsfxp, hsubp, htgp, hpc⟩ :=
          stepSubUntilEOL_adv hTG (fun c2 hc2 => (hSub c2 hc2).1) hstep
        refine ⟨hadv, c4good_of_preserve hnext hsfxp hsubp htgp ?_
          ⟨hTG, hSub, hSfx, hNxt, hCO⟩⟩
        rcases hpc with hpc | hpc
        · exact Or.inr ⟨by rw [hpc]; decide, by rw [hpc]; decide⟩
        · exact Or.inl hpc
      | untilSubInnerClose =>
        simp only [exec] at h
        obtain ⟨tl2, hstep, rfl⟩ := tcons_eq_some h
        obtain ⟨hadv, hnext, hsfxp, hsubp, htgp, hpc⟩ :=
          stepUntilSubInner_adv hTG (fun c2 hc2 => (hSub c2 hc2).1) hstep
        refine ⟨hadv, c4good_of_preserve hnext hsfxp hsubp htgp ?_
          ⟨hTG, hSub, hSfx, hNxt, hCO⟩⟩
        rcases hpc with hpc | hpc
        · exact Or.inr ⟨by rw [hpc]; decide, by rw [hpc]; decide⟩
        · exact Or.inl hpc
      | delimOpen =>
        simp only [exec] at h
        obtain ⟨tl2, hstep, rfl⟩ := tcons_eq_some h
        obtain ⟨hadv, hnext, hsfxp, hsubp, htgp, hpc⟩ :=
          stepDelimOpen_adv hTG (fun c2 hc2 => (hSub c2 hc2).1) hstep
        refine ⟨hadv, c4good_of_preserve hnext hsfxp hsubp htgp ?_
          ⟨hTG, hSub, hSfx, hNxt, hCO⟩⟩
        rcases hpc with hpc | hpc
        · exact Or.inr ⟨by rw [hpc]; decide, by rw [hpc]; decide⟩
        · exact Or.inl hpc
      | litAtSOL =>
        simp only [exec] at h
        obtain ⟨tl2, hstep, rfl⟩ := tcons_eq_some h
        unfold stepLitAtSOL at hstep
        exact ih _ _ _ _ _ (by exact ⟨hTG, hSub, hSfx, hNxt, hCO⟩)
          (by exact trivial) hstep
      | litFinalizeToMain =>
        simp only [exec] at h
        obtain ⟨tl2, hstep, rfl⟩ := tcons_eq_some h
        obtain ⟨hadv, hnext, htgp, hsfxp, hd⟩ :=
          stepLitFinalizeToMain_adv hTG (fun c2 hc2 => (hSub c2 hc2).1) hstep
        refine ⟨hadv, ?_⟩
        rcases hd with ⟨hsubp, hpar⟩ | ⟨hsubp, hpar⟩
        · exact c4good_of_preserve hnext hsfxp hsubp htgp (Or.inl hpar)
            ⟨hTG, hSub, hSfx, hNxt, hCO⟩
        · refine ⟨by rw [htgp]; exact hTG, ?_, ?_, ?_, ?_⟩
          · intro c2 hc2
            rw [hsubp] at hc2
            cases hc2
          · intro l hl
            rw [hsfxp] at hl
            exact hSfx l hl
          · intro nx hn
            rw [hnext] at hn
            exact hNxt nx hn
          · intro c2 hc2 hp hv
            rw [hsubp] at hc2
            cases hc2
      | subAtSOL =>
        simp only [exec] at h
        obtain ⟨tl2, hstep, rfl⟩ := tcons_eq_some h
        unfold stepSubAtSOL at hstep
        split at hstep
        · exact absurd hstep (by simp)
        · next c hc =>
          refine ih _ _ _ _ _ (by exact ⟨hTG, hSub, hSfx, hNxt, hCO⟩) ?_ hstep
          intro e he c2 hc2 hnone
          obtain rfl : c = c2 := by
            rw [hc] at hc2
            exact Option.some.inj hc2
          exact searchClose_noclose hnone he
      | finalizeToDelim =>
        simp only [exec] at h
        obtain ⟨tl2, hstep, rfl⟩ := tcons_eq_some h
        unfold stepFinalizeToDelim at hstep
        split at hstep
        · exact absurd hstep (by simp)
        · split at hstep
          · exact finInclude_c4 ⟨hTG, hSub, hSfx, hNxt, hCO⟩ (Or.inl hstep)
          · exact finToDelimSep_c4 ⟨hTG, hSub, hSfx, hNxt, hCO⟩ hstep
          · exact finToDelimSep_c4 ⟨hTG, hSub, hSfx, hNxt, hCO⟩ hstep
          · exact absurd hstep (by simp)
      | finalizeDirectDelim =>
        have hpeq : st.parser = ParserTag.finalizeDirectDelim := hspec
        simp only [exec] at h
        obtain ⟨tl2, hstep, rfl⟩ := tcons_eq_some h
        unfold stepFinalizeDirectDelim at hstep
        split at hstep
        · exact absurd hstep (by simp)
        · next c hc =>
          split at hstep
          · exact finInclude_c4 ⟨hTG, hSub, hSfx, hNxt, hCO⟩ (Or.inl hstep)
          · exact finInclude_c4 ⟨hTG, hSub, hSfx, hNxt, hCO⟩ (Or.inr hstep)
          · next hvar =>
            exact closeStatic_c4 ⟨hTG, hSub, hSfx, hNxt, hCO⟩ hc
              (hCO c hc (Or.inr hpeq) hvar) hstep
          · exact absurd hstep (by simp)
      | finalizeToNullDelim =>
        simp only [exec] at h
        obtain ⟨tl2, hstep, rfl⟩ := tcons_eq_some h
        unfold stepFinalizeToNullDelim at hstep
        split at hstep
        · exact absurd hstep (by simp)
        · split at hstep
          · exact absurd hstep (by simp)
          · exact finInclude_c4 ⟨hTG, hSub, hSfx, hNxt, hCO⟩ (Or.inl hstep)
      | delimClose =>
        have hpeq : st.parser = ParserTag.delimClose := hspec
        simp only [exec] at h
        obtain ⟨tl2, hstep, rfl⟩ := tcons_eq_some h
        unfold stepDelimClose at hstep
        split at hstep
        · exact absurd hstep (by simp)
        · next c hc =>
          split at hstep
          · exact finInclude_c4 ⟨hTG, hSub, hSfx, hNxt, hCO⟩ (Or.inr hstep)
          · next hvar =>
            exact closeStatic_c4 ⟨hTG, hSub, hSfx, hNxt, hCO⟩ hc
              (hCO c hc (Or.inl hpeq) hvar) hstep
          · exact absurd hstep (by simp)

/-- Counterexample to C4 as stated: with a zero-width open (a regex such as
`/(?=)/`; §7 demands that opens consume, but nothing enforces it) the static
delimiter entry advances the cursor by the match length 0, and `token`
returns on the one-character line `"x"` with `stream.pos` still 0 — neither
strictly advanced nor exhausted. -/
theorem progress_c4_counterexample :
    (token Demo.zwMachine 9 ⟨['x'], 0, true⟩ (startState Demo.zwMachine)).map
        (fun p => (p.1.2.1.pos, p.1.2.1.string.length)) = some (0, 1) ∧
      ¬((0 : Nat) < 0 ∨ (1 : Nat) ≤ 0) := by
  exact ⟨by decide, by decide⟩

/-- C4 (amended): under the progress contract — the host mode, every
registry mode and every configured mode object advance the cursor on every
token call, and every configuration (recursively through its suffixes) has a
non-empty literal open, no dynamic `start` callback and a close that is
absent or a non-empty literal — the start state is progress-good, every
successful `token` call from a progress-good state strictly increases
`stream.pos` (hence `stream.pos` exceeds its value before the call or the
line is exhausted, as claimed) and returns a progress-good state, and
`copyState` preserves progress-goodness. -/
theorem progress_amended (M : Machine σ) (hMA : MAdv M.mainMode)
    (hReg : ∀ n md, M.getMode n = some md → MAdv md)
    (hCfg : ∀ c ∈ M.configs, AdvC c) :
    C4Good (startState M) ∧
    (∀ (fuel : Nat) (s : Stream) (st : NState σ) (r : Res σ)
        (tr : List TraceE),
      C4Good st → token M fuel s st = some (r, tr) →
        (s.pos < r.2.1.pos ∨ r.2.1.string.length ≤ r.2.1.pos) ∧
          s.pos < r.2.1.pos ∧ C4Good r.2.2) ∧
    (∀ st : NState σ, C4Good st → C4Good (copyState M st)) := by
  refine ⟨?_, ?_, ?_⟩
  · refine ⟨rfl, ?_, ?_, ?_, ?_⟩
    · intro c hc
      cases hc
    · intro l hl
      cases hl
    · intro nx hn
      cases hn
    · intro c hc
      cases hc
  · intro fuel s st r tr hG htok
    have htok2 : exec M fuel (.tag st.parser) s st = some (r, tr) := htok
    have hres := exec_prog M hMA hReg hCfg fuel _ s st r tr hG
      (c4spec_of_tag st) htok2
    exact ⟨Or.inl hres.1, hres.1, hres.2⟩
  · intro st hG
    obtain ⟨hTG, hSub, hSfx, hNxt, hCO⟩ := hG
    refine ⟨?_, ?_, ?_, ?_, ?_⟩
    · show st.tokenGetter = _
      exact hTG
    · intro c hc
      simp only [copyState] at hc
      exact hSub c hc
    · intro l hl
      simp only [copyState] at hl
      exact hSfx l hl
    · intro nx hn
      simp [copyState] at hn
    · intro c hc hp hv
      simp only [copyState] at hc hp
      exact hCO c hc hp hv

/-- Witness for the amended C4: the theorem applied to the always-advancing
machine — its mode strictly advances, its single configuration meets the
contract, and the start state is progress-good. -/
theorem progress_amended_witness :
    MAdv Demo.advMode ∧ AdvC Demo.advConf ∧
      C4Good (startState Demo.advMachine) := by
  have hma : MAdv Demo.advMode := fun _ p _ => Nat.lt_succ_self p
  have hadv : AdvC Demo.advConf := by
    refine AdvC.intro _ ⟨['#'], rfl, by simp⟩ rfl ?_ (Or.inl rfl) ?_
    · intro md hmd
      have h2 : ModeRef.obj (σ := Nat) Demo.advMode = ModeRef.obj md := by
        simpa [Demo.advConf, Conf.mode] using hmd
      cases h2
      exact hma
    · intro l hl
      cases hl
  have hcfg : ∀ c ∈ Demo.advMachine.configs, AdvC c := by
    intro c hc
    have hcc : c = Demo.advConf := by
      simpa [Demo.advMachine] using hc
    rw [hcc]
    exact hadv
  exact ⟨hma, hadv,
    (progress_amended Demo.advMachine hma (fun n md hn => by cases hn)
      hcfg).1⟩

end Nesting
